import Mathlib

/-!
Verification of the `sysunit` configuration library: a shallow embedding of
`MultiConfigParser` (custom.py), `UnitConfig` (unit_configs.py) and
`SystemUnit` (systemdconfigs.py), together with theorems about parsing,
serialization, section externalisation, batch expansion and file removal.

Strings are modelled as `List Char`.  The parser is embedded as configured
by `UnitConfig.__init__`: `default_section=None`, `interpolation=None`
(identity), `strict=False`, `optionxform=str` (identity), default
`delimiters=('=', ':')`, `comment_prefixes=('#', ';')`, no inline comment
prefixes, `empty_lines_in_values=True`, `allow_no_value=False`.
-/

namespace Sysunit

abbrev Str := List Char

/-- Python `str.isspace` on the ASCII whitespace characters, as used by
`str.strip` / `str.rstrip` and the `\s` / `\S` regex classes. -/
def pySpace (c : Char) : Bool :=
  c == ' ' || c == '\t' || c == '\n' || c == '\r' ||
  c == Char.ofNat 11 || c == Char.ofNat 12

/-- Python `str.lstrip()`. -/
def lstrip (s : Str) : Str := s.dropWhile pySpace

/-- Python `str.rstrip()`. -/
def rstrip (s : Str) : Str := (s.reverse.dropWhile pySpace).reverse

/-- Python `str.strip()`. -/
def pyStrip (s : Str) : Str := rstrip (lstrip s)

/-- An option value as stored in a parser section dictionary: Python `None`,
a `str`, or a `list` of `str` (multi-value lists and read-time buffers). -/
inductive Val where
  | vnone : Val
  | vstr : Str → Val
  | vlist : List Str → Val
deriving DecidableEq, Repr

/-- One section: its name, the `_internal` flag carried by its
`SectionProxy` (`getattr(proxy, '_internal', None)`, so a fresh proxy is
external), and the ordered option dictionary. -/
structure Sec where
  name : Str
  internal : Bool
  opts : List (Str × Val)
deriving DecidableEq, Repr

/-- The mutable state of a `MultiConfigParser`: the ordered `_sections`
dictionary and the `_multioptions` set (modelled as a list observed only
through membership). -/
structure Doc where
  secs : List Sec
  multi : List (Str × Str)
deriving DecidableEq, Repr

/-- Ordered-dictionary lookup. -/
def optGet (opts : List (Str × Val)) (k : Str) : Option Val :=
  match opts with
  | [] => none
  | (k', v) :: rest => if k' = k then some v else optGet rest k

/-- Ordered-dictionary assignment: an existing key keeps its position, a new
key is appended. -/
def optSet (opts : List (Str × Val)) (k : Str) (v : Val) : List (Str × Val) :=
  match opts with
  | [] => [(k, v)]
  | (k', v') :: rest =>
      if k' = k then (k, v) :: rest else (k', v') :: optSet rest k v

/-- Lookup of a section by name. -/
def secGet (secs : List Sec) (n : Str) : Option Sec :=
  match secs with
  | [] => none
  | s :: rest => if s.name = n then some s else secGet rest n

/-- Modify the (first) section with the given name. -/
def secMod (secs : List Sec) (n : Str) (f : Sec → Sec) : List Sec :=
  match secs with
  | [] => []
  | s :: rest => if s.name = n then f s :: rest else s :: secMod rest n f

/-- Delete the section with the given name (`remove_section`). -/
def secDel (secs : List Sec) (n : Str) : List Sec :=
  match secs with
  | [] => []
  | s :: rest => if s.name = n then rest else s :: secDel rest n

/-- `set.add` on `_multioptions`: adding an element already present leaves
the set unchanged. -/
def multiAdd (m : List (Str × Str)) (p : Str × Str) : List (Str × Str) :=
  if p ∈ m then m else m ++ [p]

/-- The errors the embedded operations can raise. -/
inductive Err where
  | missingSectionHeader
  | attributeError
  | keyError
  | aggregateParseError
  | duplicateSection
  | noSection
  | typeError
  | indexError
  | assertionError
  | singleOpenBrace
  | singleCloseBrace
  | formatKeyError (k : Str)
  | unsupportedField
  | valueError
deriving DecidableEq, Repr

/-! ## The parser (`MultiConfigParser._read`) -/

/-- Does the stripped line start with a full-line comment character
(`comment_prefixes = ('#', ';')`)?  With no inline comment prefixes
configured this is the only way `comment_start` leaves `sys.maxsize`. -/
def startsComment (s : Str) : Bool :=
  match s with
  | '#' :: _ => true
  | ';' :: _ => true
  | _ => false

/-- `cur_indent_level`: the index of the first non-space character of the
line (`NONSPACECRE.search`), or `0` when the line is all whitespace. -/
def curIndent (line : Str) : Nat :=
  if (line.dropWhile pySpace) = [] then 0 else (line.takeWhile pySpace).length

/-- `SECTCRE.match(value)` for the pattern `\[(?P<header>[^]]+)\]`: the
value must start with `[`, and the header is everything up to the first
`]`, which must exist and be preceded by at least one character. -/
def sectHeader (value : Str) : Option Str :=
  match value with
  | '[' :: rest =>
      let hdr := rest.takeWhile (fun c => c != ']')
      if hdr.length = 0 then none
      else if hdr.length < rest.length then some hdr else none
  | _ => none

/-- Index of the first delimiter (`=` or `:`) in the stripped line, which is
where the non-greedy `OPTCRE` pattern splits key from value. -/
def findDelim (value : Str) : Option Nat :=
  value.findIdx? (fun c => c == '=' || c == ':')

/-- The `_read` loop state: the shared section/multioption state plus the
`cursect` (by name), `optname`, `indent_level` and accumulated-error flag
locals. -/
structure PState where
  secs : List Sec
  multi : List (Str × Str)
  cursect : Option Str
  optname : Option Str
  indent : Nat
  err : Bool
deriving DecidableEq, Repr

/-- Python truthiness of the `optname` local: `None` and the empty string
are both falsy. -/
def optnameTruthy (o : Option Str) : Bool :=
  match o with
  | some (_ :: _) => true
  | _ => false

/-- `cursect[optname].append(x)`: only a stored list supports `append`; a
`str` or `None` raises `AttributeError`, a missing key `KeyError` (the
latter is unreachable in actual runs). -/
def bufAppend (st : PState) (sn onm : Str) (x : Str) : Except Err PState :=
  match secGet st.secs sn with
  | none => .error .keyError
  | some sec =>
      match optGet sec.opts onm with
      | none => .error .keyError
      | some (.vlist b) =>
          .ok { st with
                secs := secMod st.secs sn
                  (fun s => { s with opts := optSet s.opts onm (.vlist (b ++ [x])) }) }
      | some (.vstr _) => .error .attributeError
      | some .vnone => .error .attributeError

/-- One iteration of the `for lineno, line in enumerate(fp)` loop of
`MultiConfigParser._read`, for the `UnitConfig` configuration (no inline
comment prefixes, `empty_lines_in_values=True`, non-strict,
`allow_no_value=False`, `optionxform` the identity). -/
def stepLine (st : PState) (line : Str) : Except Err PState :=
  let commentLine := startsComment (pyStrip line)
  let value := if commentLine then [] else pyStrip line
  if value = [] then
    -- blank (or fully commented) line; `empty_lines_in_values` is true:
    -- append '' to the pending value unless the line held a comment
    if commentLine then .ok st
    else
      match st.cursect, st.optname with
      | some sn, some onm =>
          if optnameTruthy (some onm) then
            match secGet st.secs sn with
            | none => .error .keyError
            | some sec =>
                match optGet sec.opts onm with
                | none => .error .keyError
                | some (.vlist b) =>
                    .ok { st with
                          secs := secMod st.secs sn
                            (fun s => { s with opts := optSet s.opts onm (.vlist (b ++ [[]])) }) }
                | some (.vstr _) => .error .attributeError
                | some .vnone => .ok st   -- `cursect[optname] is not None` guard
          else .ok st
      | _, _ => .ok st
  else
    let cur := curIndent line
    if st.cursect.isSome && optnameTruthy st.optname && decide (cur > st.indent) then
      -- continuation line
      match st.cursect, st.optname with
      | some sn, some onm => bufAppend st sn onm value
      | _, _ => .ok st
    else
      let st := { st with indent := cur }
      match sectHeader value with
      | some hdr =>
          if (secGet st.secs hdr).isSome then
            .ok { st with cursect := some hdr, optname := none }
          else
            .ok { st with secs := st.secs ++ [⟨hdr, false, []⟩],
                          cursect := some hdr, optname := none }
      | none =>
          match st.cursect with
          | none => .error .missingSectionHeader
          | some sn =>
              match findDelim value with
              | none => .ok { st with err := true }
              | some i =>
                  let key := rstrip (value.take i)
                  -- `if not optname:` flags an error for an empty key but
                  -- parsing continues with the empty-string key
                  let e' := st.err || decide (key = [])
                  let optval := pyStrip (value.drop (i + 1))
                  match secGet st.secs sn with
                  | none => .error .keyError
                  | some sec =>
                      match optGet sec.opts key with
                      | some (.vlist b) =>
                          .ok { st with
                                secs := secMod st.secs sn
                                  (fun s => { s with opts := optSet s.opts key (.vlist (b ++ [optval])) }),
                                multi := multiAdd st.multi (sn, key),
                                optname := some key, err := e' }
                      | some (.vstr _) => .error .attributeError
                      | some .vnone => .error .attributeError
                      | none =>
                          .ok { st with
                                secs := secMod st.secs sn
                                  (fun s => { s with opts := optSet s.opts key (.vlist [optval]) }),
                                optname := some key, err := e' }

/-- The whole line loop: lines are fed to `stepLine` in order, the first
raised exception aborting the run. -/
def runLines (st : PState) : List Str → Except Err PState
  | [] => .ok st
  | l :: ls =>
      match stepLine st l with
      | .ok st' => runLines st' ls
      | .error e => .error e

/-- `'\n'.join(xs)`. -/
def joinNL (xs : List Str) : Str :=
  match xs with
  | [] => []
  | [x] => x
  | x :: rest => x ++ '\n' :: joinNL rest

/-- `_join_multiline_values` on one stored value: a list not marked
multi-value is newline-joined and right-stripped; iterating a `str` yields
its characters, so a pre-existing scalar is newline-interleaved; `None` is
not iterable and is kept; marked pairs are kept as-is
(`interpolation.before_read` is the identity here). -/
def joinVal (isMulti : Bool) (v : Val) : Val :=
  match v with
  | .vnone => .vnone
  | .vstr s =>
      if isMulti then .vstr s
      else .vstr (rstrip (joinNL (s.map (fun c => [c]))))
  | .vlist xs =>
      if isMulti then .vlist xs
      else .vstr (rstrip (joinNL xs))

/-- `_join_multiline_values` over every section (the `default_section` is
`None`, so `_defaults` is empty and contributes nothing). -/
def joinSecs (multi : List (Str × Str)) (secs : List Sec) : List Sec :=
  secs.map (fun s =>
    { s with
      opts := s.opts.map (fun kv =>
          (kv.1, joinVal (decide ((s.name, kv.1) ∈ multi)) kv.2)) })

/-- `RawConfigParser.read` on an existing file: `_read` merges the lines
into the parser's current state, `_join_multiline_values` runs, and then an
`AggregateParseError` is raised if any malformed line was seen. -/
def readInto (d : Doc) (lines : List Str) : Except Err Doc := do
  let st ← runLines ⟨d.secs, d.multi, none, none, 0, false⟩ lines
  if st.err then .error .aggregateParseError
  else .ok ⟨joinSecs st.multi st.secs, st.multi⟩

/-- Reading a file into a fresh `MultiConfigParser` (no sections, empty
`_multioptions`). -/
def parseConfig (lines : List Str) : Except Err Doc :=
  readInto ⟨[], []⟩ lines

/-! ## The serializer (`RawConfigParser.write` / `_write_section`) -/

/-- `str.replace('\n', '\n\t')`. -/
def replNL : Str → Str
  | [] => []
  | c :: rest =>
      if c = '\n' then '\n' :: '\t' :: replNL rest else c :: replNL rest

/-- Python `repr` of a string, for the ASCII pay-loads stored in unit
files: the quote character is `'` unless the string contains `'` and no
`"`; backslashes, the quote and the common control characters are
escaped. -/
def pyReprChar (q : Char) (c : Char) : Str :=
  if c = '\\' then ['\\', '\\']
  else if c = q then ['\\', q]
  else if c = '\n' then ['\\', 'n']
  else if c = '\r' then ['\\', 'r']
  else if c = '\t' then ['\\', 't']
  else [c]

/-- Python `repr` of a `str`. -/
def pyReprStr (s : Str) : Str :=
  let q : Char := if '\'' ∈ s ∧ ¬ '"' ∈ s then '"' else '\''
  q :: (s.map (pyReprChar q)).flatten ++ [q]

/-- `", ".join(...)` used by `str` on a list. -/
def commaJoin (xs : List Str) : Str :=
  match xs with
  | [] => []
  | [x] => x
  | x :: rest => x ++ ',' :: ' ' :: commaJoin rest

/-- Python `str()` of a stored value: a string is itself, `None` prints as
`None`, and a list prints as its `repr`. -/
def pyStrVal (v : Val) : Str :=
  match v with
  | .vstr s => s
  | .vnone => ['N', 'o', 'n', 'e']
  | .vlist xs => '[' :: commaJoin (xs.map pyReprStr) ++ [']']

/-- The values iterated by `for _value in value` in `_write_section`: an
unmarked value is wrapped in a one-element list; a marked list yields its
elements; a marked `str` yields its characters as one-character strings;
iterating `None` raises `TypeError`. -/
def writeElems (isMulti : Bool) (v : Val) : Except Err (List Val) :=
  if isMulti then
    match v with
    | .vlist xs => .ok (xs.map .vstr)
    | .vstr s => .ok (s.map (fun c => Val.vstr [c]))
    | .vnone => .error .typeError
  else .ok [v]

/-- The text `fp.write` emits for one iterated value: `allow_no_value` is
false, so the delimiter branch is always taken and `None` prints as
`key=None`; interior newlines become newline+tab. -/
def elemChunk (key : Str) (e : Val) : Str :=
  key ++ '=' :: replNL (pyStrVal e) ++ ['\n']

/-- The text written for one option of one section. -/
def optChunk (multi : List (Str × Str)) (sname key : Str) (v : Val) :
    Except Err Str := do
  let elems ← writeElems (decide ((sname, key) ∈ multi)) v
  .ok ((elems.map (elemChunk key)).flatten)

/-- The text written for the options of one section, in order. -/
def optsChunk (multi : List (Str × Str)) (sname : Str) :
    List (Str × Val) → Except Err Str
  | [] => .ok []
  | (k, v) :: rest => do
      let c ← optChunk multi sname k v
      let cs ← optsChunk multi sname rest
      .ok (c ++ cs)

/-- `_write_section`: the header line, the option lines, and a final blank
line. -/
def secChunk (multi : List (Str × Str)) (sec : Sec) : Except Err Str := do
  let body ← optsChunk multi sec.name sec.opts
  .ok ('[' :: sec.name ++ ']' :: '\n' :: body ++ ['\n'])

/-- `RawConfigParser.write(fp, space_around_delimiters=False)` over the
whole document (`_defaults` is empty, so only the listed sections are
written; the delimiter is `=`). -/
def secsChunks (multi : List (Str × Str)) : List Sec → Except Err Str
  | [] => .ok []
  | s :: rest => do
      let c ← secChunk multi s
      let cs ← secsChunks multi rest
      .ok (c ++ cs)

/-- Serialize a document to the flat file text. -/
def serializeText (d : Doc) : Except Err Str :=
  secsChunks d.multi d.secs

/-- Iterating a text file yields its lines; every line written here ends in
a newline, and a final partial line (no trailing newline) is still
yielded. -/
def splitLines : Str → List Str
  | [] => []
  | c :: rest =>
      if c = '\n' then [] :: splitLines rest
      else
        match splitLines rest with
        | [] => [[c]]
        | l :: ls => (c :: l) :: ls

/-- The physical lines of a value: splitting on `\n`, with the empty string
having one (empty) line. -/
def splitNL : Str → List Str
  | [] => [[]]
  | c :: rest =>
      if c = '\n' then [] :: splitNL rest
      else
        match splitNL rest with
        | [] => [[c]]
        | l :: ls => (c :: l) :: ls

/-- `parse(serialize(doc))` on a fresh parser. -/
def roundTrip (d : Doc) : Except Err Doc := do
  let t ← serializeText d
  parseConfig (splitLines t)

/-- Structural equality of documents: the same sections (names, flags,
options and values, in order) and the same multi-value marking |
`_multioptions` is a `set`, so it is compared by membership. -/
def docEquiv (d₁ d₂ : Doc) : Prop :=
  d₁.secs = d₂.secs ∧ d₁.multi ⊆ d₂.multi ∧ d₂.multi ⊆ d₁.multi

instance : DecidablePred (fun p : Doc × Doc => docEquiv p.1 p.2) := by
  intro p
  unfold docEquiv
  infer_instance

instance (d₁ d₂ : Doc) : Decidable (docEquiv d₁ d₂) := by
  unfold docEquiv
  infer_instance

instance {α : Type} [DecidableEq α] : DecidableEq (Except Err α) := fun a b =>
  match a, b with
  | .ok x, .ok y => decidable_of_iff (x = y) (by simp)
  | .error e, .error e' => decidable_of_iff (e = e') (by simp)
  | .ok _, .error _ => isFalse (by simp)
  | .error _, .ok _ => isFalse (by simp)

/-! ## `UnitConfig` document operations (unit_configs.py)

`copy.copy` in `_externalise_internals` / `_internalise_internals` is a
*shallow* copy: the copy's `_sections`, `_proxies` and `_multioptions`
attributes are the very same objects as the receiver's.  Every
`add_section` / `set` / `remove_section` / `set_internal` call made on the
copy therefore also mutates the receiver, so the receiver's state after
either call *is* the transform's result.  The functions below compute that
shared final state. -/

/-- `is_internal(section)`: `getattr(self[section], '_internal', None)`.
(On a missing section Python would raise `KeyError` from `self[section]`;
the loops below only query names that are present.) -/
def isInternalB (d : Doc) (n : Str) : Bool :=
  match secGet d.secs n with
  | some s => s.internal
  | none => false

/-- `add_section(name)`: raises `DuplicateSectionError` when present; a new
section gets a fresh `SectionProxy`, hence an external flag. -/
def addSection (d : Doc) (n : Str) : Except Err Doc :=
  if (secGet d.secs n).isSome then .error .duplicateSection
  else .ok { d with secs := d.secs ++ [⟨n, false, []⟩] }

/-- `self[section]._internal = b` (the section is present at every use
below). -/
def setInternalFlag (d : Doc) (n : Str) (b : Bool) : Doc :=
  { d with secs := secMod d.secs n (fun s => { s with internal := b }) }

/-- Wrapping performed by `MultiConfigParser.set` when `multioption` is
true: a non-list value becomes a one-element list.  (Python would wrap
`None` as `[None]`; `None` list elements never occur in this library and
are outside the model.) -/
def wrapList (v : Val) : Val :=
  match v with
  | .vlist xs => .vlist xs
  | .vstr s => .vlist [s]
  | .vnone => .vlist []

/-- `MultiConfigParser.set(section, option, value, multioption)`: when
`multioption` the value is wrapped and the pair recorded in
`_multioptions`; then `RawConfigParser.set` assigns into the section
dictionary (raising `NoSectionError` on a missing section). -/
def setOp (d : Doc) (sn k : Str) (v : Val) (multioption : Bool) :
    Except Err Doc :=
  let v' := if multioption then wrapList v else v
  let m' := if multioption then multiAdd d.multi (sn, k) else d.multi
  match secGet d.secs sn with
  | none => .error .noSection
  | some _ =>
      .ok { secs := secMod d.secs sn (fun s => { s with opts := optSet s.opts k v' }),
            multi := m' }

/-- `MultiConfigParser.append(section, option, value)` with a string
value: an existing scalar is promoted to a list and extended, an existing
list extended, and a fresh key starts a new list; the result is stored
with `multioption=True`.  (`self.options(section)` raises `NoSectionError`
on a missing section; `value=None` appends are not modelled.) -/
def appendOp (d : Doc) (sn k : Str) (v : Str) : Except Err Doc :=
  match secGet d.secs sn with
  | none => .error .noSection
  | some sec =>
      let newv : Val :=
        match optGet sec.opts k with
        | some (.vlist xs) => .vlist (xs ++ [v])
        | some (.vstr s) => .vlist [s, v]
        | some .vnone => .vlist [v]
        | none => .vstr v
      setOp d sn k newv true

/-- One pass of the `_externalise_internals` loop body for one snapshot
name: an internal section `S` is copied option-by-option into a freshly
added `x-S` (whose new proxy is external) and then removed;
`_multioptions` entries keyed by the old name are left behind. -/
def extOne (d : Doc) (sn : Str) : Except Err Doc :=
  match secGet d.secs sn with
  | none => .ok d
  | some sec =>
      if sec.internal then do
        let d ← addSection d ('x' :: '-' :: sn)
        let d ← setAllOpts d ('x' :: '-' :: sn) sec.opts
        .ok { d with secs := secDel d.secs sn }
      else .ok d
where
  /-- `for item in external_u.items(section): external_u.set(ext_sect, *item)` -/
  setAllOpts (d : Doc) (n : Str) : List (Str × Val) → Except Err Doc
    | [] => .ok d
    | (k, v) :: rest => do
        let d ← setOp d n k v false
        setAllOpts d n rest

def runExt (d : Doc) : List Str → Except Err Doc
  | [] => .ok d
  | n :: ns => do
      let d ← extOne d n
      runExt d ns

/-- `_externalise_internals`: iterate over a snapshot of the section names
(the shared state is mutated in place, see above). -/
def externaliseInternals (d : Doc) : Except Err Doc :=
  runExt d (d.secs.map (·.name))

/-- One pass of the `_internalise_internals` loop body: a section named
`x-S` is copied into a freshly added `S`, removed, and `S` is marked
internal. -/
def intOne (d : Doc) (sn : Str) : Except Err Doc :=
  match sn with
  | 'x' :: '-' :: intSect =>
      match secGet d.secs sn with
      | none => .ok d
      | some sec => do
          let d ← addSection d intSect
          let d ← extOne.setAllOpts d intSect sec.opts
          let d := { d with secs := secDel d.secs sn }
          .ok (setInternalFlag d intSect true)
  | _ => .ok d

def runInt (d : Doc) : List Str → Except Err Doc
  | [] => .ok d
  | n :: ns => do
      let d ← intOne d n
      runInt d ns

/-- `_internalise_internals` (same shared-state remark as
`externaliseInternals`). -/
def internaliseInternals (d : Doc) : Except Err Doc :=
  runInt d (d.secs.map (·.name))

/-- `UnitConfig.update_section(name, **options)`: the section is created if
absent, unconditionally marked external, and the options stored through
`SectionProxy.__setitem__`, i.e. `set(..., multioption=False)`. -/
def updateSection (d : Doc) (n : Str) (opts : List (Str × Val)) :
    Except Err Doc := do
  let d ← if (secGet d.secs n).isSome then .ok d else addSection d n
  let d := setInternalFlag d n false
  extOne.setAllOpts d n opts

/-- `UnitConfig.read_config` on an existing file: `self.read(filename)`
merges the file into the current state, and the trailing
`self = self._internalise_internals()` — through the shared mutable
state — internalises that merged state in place. -/
def readConfig (d : Doc) (fileLines : List Str) : Except Err Doc := do
  let d ← readInto d fileLines
  internaliseInternals d

/-! ## Placeholder substitution (`str.format(**variables)`)

`formatted` and `_formatted_name` are decorated with `noglobals` (from the
`utils` module, not part of the sources); `str.format` itself resolves
named fields only from the passed mapping, never from any ambient scope,
so the decorator cannot change the behaviour modelled here.  The model
covers simple named fields `{name}` plus the `{{`/`}}` escapes; a
conversion, format spec or attribute/index access after the looked-up name
reports `unsupportedField` (the library only ever uses plain names). -/

def lookupStr (m : List (Str × Str)) (k : Str) : Option Str :=
  match m with
  | [] => none
  | (k', v) :: rest => if k' = k then some v else lookupStr rest k

/-- The looked-up part of a replacement field: the field name is cut at a
conversion (`!`) or format spec (`:`), and the first attribute/index
access (`.`/`[`) delimits the mapping key. -/
def fieldKey (field : Str) : Str :=
  (field.takeWhile (fun c => c != ':' && c != '!')).takeWhile
    (fun c => c != '.' && c != '[')

def pyFormatGo (m : List (Str × Str)) : Nat → Str → Except Err Str
  | _, [] => .ok []
  | 0, _ :: _ => .error .valueError   -- fuel exhausted; unreachable at fuel ≥ length
  | fuel + 1, c :: rest =>
      if c = '{' then
        match rest with
        | [] => .error .singleOpenBrace
        | c' :: rest' =>
            if c' = '{' then do
              let t ← pyFormatGo m fuel rest'
              .ok ('{' :: t)
            else
              let field := rest.takeWhile (fun ch => ch != '}')
              if field.length < rest.length then
                let key := fieldKey field
                if key = [] ∨ key.all (·.isDigit) then .error .indexError
                else
                  match lookupStr m key with
                  | none => .error (.formatKeyError key)
                  | some v =>
                      if key = field then do
                        let t ← pyFormatGo m fuel (rest.drop (field.length + 1))
                        .ok (v ++ t)
                      else .error .unsupportedField
              else .error .singleOpenBrace
      else if c = '}' then
        match rest with
        | [] => .error .singleCloseBrace
        | c' :: rest' =>
            if c' = '}' then do
              let t ← pyFormatGo m fuel rest'
              .ok ('}' :: t)
            else .error .singleCloseBrace
      else do
        let t ← pyFormatGo m fuel rest
        .ok (c :: t)

def pyFormat (m : List (Str × Str)) (s : Str) : Except Err Str :=
  pyFormatGo m s.length s

/-- One value of `UnitConfig.formatted`: a pair found in `_multioptions`
formats each element of its list (a marked `str` is iterated character by
character); otherwise `value.format(...)` is tried, with the
`AttributeError` fallback formatting each element of an unmarked list;
`None` has no `format` and is not iterable, so it raises. -/
def formatVal (m : List (Str × Str)) (isMulti : Bool) (v : Val) :
    Except Err Val :=
  if isMulti then
    match v with
    | .vlist xs => do
        let ys ← fmtList m xs
        .ok (.vlist ys)
    | .vstr s => do
        let ys ← fmtList m (s.map (fun c => [c]))
        .ok (.vlist ys)
    | .vnone => .error .typeError
  else
    match v with
    | .vstr s => do
        let t ← pyFormat m s
        .ok (.vstr t)
    | .vlist xs => do
        let ys ← fmtList m xs
        .ok (.vlist ys)
    | .vnone => .error .typeError
where
  fmtList (m : List (Str × Str)) : List Str → Except Err (List Str)
    | [] => .ok []
    | x :: xs => do
        let y ← pyFormat m x
        let ys ← fmtList m xs
        .ok (y :: ys)

/-- The inner loop of `formatted` over one section's item snapshot:
`_multioptions` is only ever re-confirmed (never extended with a new
pair), so checking the evolving state's set equals checking the
original's. -/
def fmtOpts (m : List (Str × Str)) (sn : Str) (d : Doc) :
    List (Str × Val) → Except Err Doc
  | [] => .ok d
  | (k, v) :: rest => do
      let mo := decide ((sn, k) ∈ d.multi)
      let v' ← formatVal m mo v
      let d' ← setOp d sn k v' mo
      fmtOpts m sn d' rest

def fmtSecs (m : List (Str × Str)) (d : Doc) : List Str → Except Err Doc
  | [] => .ok d
  | sn :: rest => do
      let d' ←
        match secGet d.secs sn with
        | none => .ok d
        | some sec => fmtOpts m sn d sec.opts
      fmtSecs m d' rest

/-- `UnitConfig.formatted(new_config, **variables)` applied to a deep copy
of the document (deep copies are plain values here). -/
def formattedDoc (d : Doc) (m : List (Str × Str)) : Except Err Doc :=
  fmtSecs m d (d.secs.map (·.name))

/-! ## `SystemUnit` batch expansion (systemdconfigs.py) -/

/-- The `SystemUnit` attributes the batch/removal operations read: the
bare name (extension and `@` already split off by the `name` setter), the
unit type, the template flag, the `{`/`}`-derived batch flag, the
`batch_vars` namespace (an insertion-ordered attribute dictionary) and the
owned document. -/
structure SUnit where
  name : Str
  typ : Str
  template : Bool
  batched : Bool
  batchVars : List (Str × List Str)
  config : Doc
deriving Repr

/-- `_full_name(name, instance)`:
`f'{name}{self._template_str}{instance}.{self.type}'`. -/
def fullNameOf (u : SUnit) (n : Str) (inst : Option Str) : Str :=
  n ++ (if u.template then ['@'] else []) ++ inst.getD [] ++ '.' :: u.typ

/-- `_get_batched_vars`: `assert vars(self.batch_vars)` — an empty
namespace fails the assertion. -/
def getBatchedVars (u : SUnit) : Except Err (List (Str × List Str)) :=
  match u.batchVars with
  | [] => .error .assertionError
  | bv => .ok bv

/-- `{k: v[i] for k, v in batched_variables.items()}`: indexing a too-short
sequence raises `IndexError`. -/
def varsAt (bv : List (Str × List Str)) (i : Nat) :
    Except Err (List (Str × Str)) :=
  match bv with
  | [] => .ok []
  | (k, vs) :: rest =>
      match vs.get? i with
      | none => .error .indexError
      | some x => do
          let tl ← varsAt rest i
          .ok ((k, x) :: tl)

/-- `nbr_values = len(next(iter(batched_variables.values())))`: the length
of the *first* sequence only. -/
def firstLen (bv : List (Str × List Str)) : Nat :=
  match bv with
  | [] => 0
  | (_, vs) :: _ => vs.length

/-- The body of one `batched_configs` iteration: build the index map, then
the expanded name, then the formatted copy of the document (in source
order: a failure in the name happens before the document is formatted). -/
def batchedPair (u : SUnit) (i : Nat) : Except Err (Str × Doc) := do
  let m ← varsAt u.batchVars i
  let fn ← pyFormat m u.name
  let cfg ← formattedDoc u.config m
  .ok (fullNameOf u fn none, cfg)

/-- The generator `batched_configs`, observed as the list of pairs yielded
before any exception together with the exception (if one occurred):
consumers such as `_write_batch` act on each pair as it is yielded, so the
yielded prefix is externally visible even when a later index raises. -/
def batchedAux (u : SUnit) (i fuel : Nat) :
    List (Str × Doc) × Option Err :=
  match fuel with
  | 0 => ([], none)
  | fuel + 1 =>
      match batchedPair u i with
      | .error e => ([], some e)
      | .ok p =>
          let (ps, e) := batchedAux u (i + 1) fuel
          (p :: ps, e)

/-- `batched_configs` as a whole: the assertion on `batch_vars`, then
`firstLen` iterations. -/
def batchedConfigs (u : SUnit) : List (Str × Doc) × Option Err :=
  match u.batchVars with
  | [] => ([], some .assertionError)
  | _ => batchedAux u 0 (firstLen u.batchVars)

/-- `_write_batch`: one file is written per yielded pair, so the files
created by a partially failing expansion are exactly the yielded prefix's
names. -/
def writeBatch (u : SUnit) : List Str × Option Err :=
  let (ps, e) := batchedConfigs u
  (ps.map (·.1), e)

/-- `expanded_names(instance)`: one full name for a non-batched unit, else
the same index loop as `batched_configs` restricted to names. -/
def expandedNames (u : SUnit) (inst : Option Str) : Except Err (List Str) :=
  if u.batched then
    match u.batchVars with
    | [] => .error .assertionError
    | _ => namesAux u inst 0 (firstLen u.batchVars)
  else .ok [fullNameOf u u.name inst]
where
  namesAux (u : SUnit) (inst : Option Str) (i fuel : Nat) :
      Except Err (List Str) :=
    match fuel with
    | 0 => .ok []
    | fuel + 1 => do
        let m ← varsAt u.batchVars i
        let fn ← pyFormat m u.name
        let tl ← namesAux u inst (i + 1) fuel
        .ok (fullNameOf u fn inst :: tl)

/-! ## `SystemUnit.remove` -/

/-- The per-name loop of `remove()` over a file system modelled as the
list of present file names: `os.remove` deletes a present file, and the
`FileNotFoundError` of an absent one is converted to a warning
(`warnings.warn`) without stopping the loop.  Returns the remaining files
and the number of warnings issued. -/
def removeFiles (names : List Str) (fs : List Str) : List Str × Nat :=
  match names with
  | [] => (fs, 0)
  | n :: ns =>
      if n ∈ fs then removeFiles ns (fs.erase n)
      else
        let (fs', w) := removeFiles ns fs
        (fs', w + 1)

/-- `SystemUnit.remove()`: expand the names, then delete each in turn. -/
def removeUnit (u : SUnit) (fs : List Str) : Except Err (List Str × Nat) := do
  let ns ← expandedNames u none
  .ok (removeFiles ns fs)

/-! ## Predicates used by the theorems -/

/-- No newline characters. -/
def noNL (s : Str) : Bool := s.all (fun c => c != '\n')

/-- The string is unchanged by `str.strip()`. -/
def stripStable (s : Str) : Bool := decide (pyStrip s = s)

/-- An option key that the file format can carry verbatim: nonempty,
whitespace-trimmed, free of delimiters and newlines, and such that its
line is neither a section header nor a comment. -/
def cleanKey (k : Str) : Bool :=
  decide (k ≠ []) && stripStable k &&
  k.all (fun c => c != '=' && c != ':' && c != '\n') &&
  (match k with
   | c :: _ => c != '[' && c != '#' && c != ';'
   | [] => true)

/-- A scalar value the continuation-line encoding can carry: every
physical line of the value is whitespace-trimmed, no line after the first
starts a comment, and the value does not end in a newline. -/
def cleanScalar (v : Str) : Bool :=
  (splitNL v).all stripStable &&
  ((splitNL v).tail.all (fun l => !startsComment l)) &&
  decide (rstrip v = v)

/-- A multi-value element: a single trimmed physical line. -/
def cleanElem (x : Str) : Bool := noNL x && stripStable x

/-- A section name the header syntax can carry: nonempty, no `]`, no
newline. -/
def cleanName (n : Str) : Bool :=
  decide (n ≠ []) && n.all (fun c => c != ']' && c != '\n')

/-- Well-formedness of one option with respect to the multi-value set. -/
def wfOpt (multi : List (Str × Str)) (sname : Str) (kv : Str × Val) : Bool :=
  cleanKey kv.1 &&
  (if (sname, kv.1) ∈ multi then
     match kv.2 with
     | .vlist xs => decide (2 ≤ xs.length) && xs.all cleanElem
     | _ => false
   else
     match kv.2 with
     | .vstr v => cleanScalar v
     | _ => false)

/-- Well-formedness of one section: a clean external section with distinct
clean options, whose last option is not multi-valued (the blank line the
serializer writes after a section is appended to a still-open multi-value
list on re-parse). -/
def wfSec (multi : List (Str × Str)) (s : Sec) : Bool :=
  cleanName s.name && !s.internal &&
  decide (s.opts.map Prod.fst).Nodup &&
  s.opts.all (wfOpt multi s.name) &&
  (match s.opts.getLast? with
   | some kv => decide ((s.name, kv.1) ∉ multi)
   | none => true)

/-- Well-formed document: distinct clean external sections, and a
multi-value set every member of which names a present option. -/
def wfDoc (d : Doc) : Bool :=
  decide (d.secs.map (·.name)).Nodup &&
  d.secs.all (wfSec d.multi) &&
  d.multi.all (fun p =>
    match secGet d.secs p.1 with
    | some s => (optGet s.opts p.2).isSome
    | none => false)

/-- The multi-value pairs of a document in document order: re-parsing
rebuilds `_multioptions` in this order. -/
def canonMulti (d : Doc) : List (Str × Str) :=
  d.secs.flatMap (fun s =>
    s.opts.filterMap (fun kv =>
      if (s.name, kv.1) ∈ d.multi then some (s.name, kv.1) else none))

/-- The lines `fp.write` produces for one iterated value. -/
def elemLines (k : Str) (e : Val) : List Str :=
  match splitNL (pyStrVal e) with
  | [] => []
  | l0 :: ls => (k ++ '=' :: l0) :: ls.map (fun l => '\t' :: l)

/-- The lines written for one option (empty on the unreachable error). -/
def optLines (multi : List (Str × Str)) (sname : Str) (kv : Str × Val) :
    List Str :=
  match writeElems (decide ((sname, kv.1) ∈ multi)) kv.2 with
  | .ok es => es.flatMap (elemLines kv.1)
  | .error _ => []

/-- The lines written for one section. -/
def secLines (multi : List (Str × Str)) (s : Sec) : List Str :=
  ('[' :: s.name ++ [']']) :: s.opts.flatMap (optLines multi s.name) ++ [[]]

/-- The lines of the serialized document. -/
def docLines (d : Doc) : List Str :=
  d.secs.flatMap (secLines d.multi)

/-- Is a stored value a list? -/
def isVlist : Val → Bool
  | .vlist _ => true
  | _ => false

/-- The invariant claimed of `_multioptions`: a marked pair holds a list,
an unmarked pair never does. -/
def multiInvB (d : Doc) : Bool :=
  d.secs.all (fun s => s.opts.all (fun kv =>
    if (s.name, kv.1) ∈ d.multi then isVlist kv.2 else !isVlist kv.2))

/-- Real parser states have no duplicate section names and no duplicate
option keys (Python dictionaries): the well-formedness side condition for
the invariant-preservation statements. -/
def nodupDoc (d : Doc) : Bool :=
  decide (d.secs.map (·.name)).Nodup &&
  d.secs.all (fun s => decide (s.opts.map Prod.fst).Nodup)

/-- The parser-state invariant maintained while `_read` is running: every
pair recorded in `_multioptions` currently stores a list (open buffers may
be unmarked lists, so only this direction holds mid-read), and the
dictionaries have no duplicate keys. -/
def stInv (secs : List Sec) (multi : List (Str × Str)) : Prop :=
  (∀ s ∈ secs, ∀ kv ∈ s.opts, (s.name, kv.1) ∈ multi → isVlist kv.2 = true) ∧
  (secs.map (·.name)).Nodup ∧
  (∀ s ∈ secs, (s.opts.map Prod.fst).Nodup)

/-- The mapping keys of the replacement fields of a format string
(following the same scan as `pyFormat`; a malformed tail contributes
nothing). -/
def phKeysGo : Nat → Str → List Str
  | _, [] => []
  | 0, _ :: _ => []
  | fuel + 1, c :: rest =>
      if c = '{' then
        match rest with
        | [] => []
        | c' :: rest' =>
            if c' = '{' then phKeysGo fuel rest'
            else
              let field := rest.takeWhile (fun ch => ch != '}')
              if field.length < rest.length then
                fieldKey field :: phKeysGo fuel (rest.drop (field.length + 1))
              else []
      else if c = '}' then
        match rest with
        | [] => []
        | c' :: rest' => if c' = '}' then phKeysGo fuel rest' else []
      else phKeysGo fuel rest

def phKeys (s : Str) : List Str := phKeysGo s.length s

/-- The mapping keys referenced by a stored value under formatting. -/
def valKeys : Val → List Str
  | .vnone => []
  | .vstr s => phKeys s
  | .vlist xs => (xs.map phKeys).flatten

/-- `name.startswith('x-')` with the prefix split off. -/
def xStrip (n : Str) : Option Str :=
  match n with
  | 'x' :: '-' :: r => some r
  | _ => none

/-- The single index map `{k: v[i] for k, v in ...}` built by batch
expansion, as a total function (used at indices below every length). -/
def specMap (bv : List (Str × List Str)) (i : Nat) : List (Str × Str) :=
  bv.map (fun p => (p.1, p.2.getD i []))

/-- The least sequence length in a batch variable set. -/
def minLen : List (Str × List Str) → Nat
  | [] => 0
  | [(_, vs)] => vs.length
  | (_, vs) :: rest => min vs.length (minLen rest)

/-- Python `str()` of one iterated value as re-read: the raw buffer the
parser accumulates for one written option before
`_join_multiline_values` runs — the option's written physical-line
values in order. -/
def bufVal (multi : List (Str × Str)) (sname : Str) (kv : Str × Val) :
    List Str :=
  if (sname, kv.1) ∈ multi then
    match kv.2 with
    | .vlist xs => xs
    | _ => []
  else
    match kv.2 with
    | .vstr v => splitNL v
    | _ => []

/-- The empty string the section-trailing blank line appends to a
still-open list buffer. -/
def padVal : Val → Val
  | .vlist xs => .vlist (xs ++ [[]])
  | v => v

/-- Apply `padVal` to the last option of a section dictionary. -/
def padLast : List (Str × Val) → List (Str × Val)
  | [] => []
  | [kv] => [(kv.1, padVal kv.2)]
  | kv :: rest => kv :: padLast rest

/-- The parse-phase image of a well-formed written section: every option
holds its raw line buffer, and the trailing blank line has padded the last
one. -/
def parsedSec (multi : List (Str × Str)) (s : Sec) : Sec :=
  ⟨s.name, false,
   padLast (s.opts.map (fun kv => (kv.1, .vlist (bufVal multi s.name kv))))⟩

/-- The pairs a section's lines add to `_multioptions`, in option order. -/
def secMarks (multi : List (Str × Str)) (s : Sec) : List (Str × Str) :=
  s.opts.filterMap (fun kv =>
    if (s.name, kv.1) ∈ multi then some (s.name, kv.1) else none)

/-- The `optname` local after a section's lines have been read. -/
def optnameEnd (s : Sec) : Option Str :=
  match s.opts.getLast? with
  | some kv => some kv.1
  | none => none

/-! # Theorems -/

/-- Claim C1, counterexample: the round trip is not the identity on every
document without internal sections.  The document whose only option holds
the scalar `"a "` (trailing blank) serializes to `[S]\nk=a \n\n`, and
re-parsing strips the value to `"a"`: the parser strips every option line,
so trailing (or leading) whitespace of a value cannot survive. -/
theorem roundTrip_cex :
    (⟨[⟨['S'], false, [(['k'], .vstr ['a', ' '])]⟩], []⟩ : Doc).secs.all
        (fun s => !s.internal) = true ∧
    roundTrip ⟨[⟨['S'], false, [(['k'], .vstr ['a', ' '])]⟩], []⟩
      = .ok ⟨[⟨['S'], false, [(['k'], .vstr ['a'])]⟩], []⟩ ∧
    ¬ docEquiv ⟨[⟨['S'], false, [(['k'], .vstr ['a'])]⟩], []⟩
        ⟨[⟨['S'], false, [(['k'], .vstr ['a', ' '])]⟩], []⟩ := by
  refine ⟨by decide, by decide, by decide⟩

/-- Claim C2: during parsing a repeated key is marked multi-valued and
appended (first occurrence a one-element list) — that part holds — but the
claimed 3-element round trip fails on the code: the document whose option
`k` is the marked list `["a","b","c"]` serializes as the three repeated
key lines `k=a`, `k=b`, `k=c`, yet re-parsing yields the 4-element list
`["a","b","c",""]`.  The serializer ends the section with a blank line;
with `empty_lines_in_values` enabled, `_read` appends `''` to the pending
value, and `_join_multiline_values` keeps a multi-value list as-is, so the
right-strip that would drop the blank from a scalar never happens. -/
theorem multiValue_roundTrip_bug :
    serializeText ⟨[⟨['S'], false, [(['k'], .vlist [['a'], ['b'], ['c']])]⟩],
        [(['S'], ['k'])]⟩
      = .ok ['[', 'S', ']', '\n', 'k', '=', 'a', '\n', 'k', '=', 'b', '\n',
             'k', '=', 'c', '\n', '\n'] ∧
    roundTrip ⟨[⟨['S'], false, [(['k'], .vlist [['a'], ['b'], ['c']])]⟩],
        [(['S'], ['k'])]⟩
      = .ok ⟨[⟨['S'], false, [(['k'], .vlist [['a'], ['b'], ['c'], []])]⟩],
             [(['S'], ['k'])]⟩ := by
  refine ⟨by decide, by decide⟩

/-- Claim C4, counterexample: with the spec's own input
`{a: ["1","2"], b: ["1"]}` the write attempt does *not* fail with a
`BatchSizeMismatch` before writing, and it does not write zero files: the
first index succeeds and its file `u-1-1.service` is written, and only
then does building the index-1 map raise an `IndexError` (`b[1]`).  No
`BatchSizeMismatch` exists anywhere in the code. -/
theorem batch_mismatch_cex :
    writeBatch ⟨['u', '-', '{', 'a', '}', '-', '{', 'b', '}'],
        "service".data, false, true,
        [(['a'], [['1'], ['2']]), (['b'], [['1']])],
        ⟨[⟨"Unit".data, false, []⟩], []⟩⟩
      = ([['u', '-', '1', '-', '1', '.', 's', 'e', 'r', 'v', 'i', 'c', 'e']],
         some .indexError) ∧
    (writeBatch ⟨['u', '-', '{', 'a', '}', '-', '{', 'b', '}'],
        "service".data, false, true,
        [(['a'], [['1'], ['2']]), (['b'], [['1']])],
        ⟨[⟨"Unit".data, false, []⟩], []⟩⟩).1.length = 1 := by
  refine ⟨by decide, by decide⟩

/-- Claim C5: the transforms are *not* pure.  `copy.copy` copies the
parser object but shares its `_sections`/`_proxies`/`_multioptions`
attributes, so every mutation of the "copy" mutates the receiver: after
`_externalise_internals` on a document with internal section `A`, the
receiver itself holds an external `x-A` instead of the internal `A`
(and `_internalise_internals` likewise renames `x-B` to an internal `B`
in place).  The functions below compute exactly that shared final state,
and it differs from the original document. -/
theorem transforms_mutate_receiver :
    externaliseInternals ⟨[⟨['A'], true, [(['k'], .vstr ['v'])]⟩], []⟩
      = .ok ⟨[⟨['x', '-', 'A'], false, [(['k'], .vstr ['v'])]⟩], []⟩ ∧
    (⟨[⟨['x', '-', 'A'], false, [(['k'], .vstr ['v'])]⟩], []⟩ : Doc)
      ≠ ⟨[⟨['A'], true, [(['k'], .vstr ['v'])]⟩], []⟩ ∧
    internaliseInternals ⟨[⟨['x', '-', 'B'], false, []⟩], []⟩
      = .ok ⟨[⟨['B'], true, []⟩], []⟩ ∧
    (⟨[⟨['B'], true, []⟩], []⟩ : Doc) ≠ ⟨[⟨['x', '-', 'B'], false, []⟩], []⟩ := by
  refine ⟨by decide, by decide, by decide, by decide⟩

/-- Claim C6, counterexample: `read_config` does not replace the in-memory
document with the internalized parse of the file.  A facade document
holding a section `Extra` reads a file `[x-Other]\nk=v`: the result keeps
`Extra` (configparser `read` merges), whereas the internalized parse of
the file alone has no such section. -/
theorem read_merges_cex :
    readConfig ⟨[⟨"Extra".data, false, []⟩], []⟩
        [['[', 'x', '-', 'O', 't', 'h', 'e', 'r', ']'], ['k', '=', 'v']]
      = .ok ⟨[⟨"Extra".data, false, []⟩,
              ⟨"Other".data, true, [(['k'], .vstr ['v'])]⟩], []⟩ ∧
    (parseConfig [['[', 'x', '-', 'O', 't', 'h', 'e', 'r', ']'],
        ['k', '=', 'v']]).bind internaliseInternals
      = .ok ⟨[⟨"Other".data, true, [(['k'], .vstr ['v'])]⟩], []⟩ ∧
    (⟨[⟨"Extra".data, false, []⟩,
       ⟨"Other".data, true, [(['k'], .vstr ['v'])]⟩], []⟩ : Doc)
      ≠ ⟨[⟨"Other".data, true, [(['k'], .vstr ['v'])]⟩], []⟩ := by
  refine ⟨by decide, by decide, by decide⟩

/-- Claim C8, counterexample: `set` with a list value and
`multioption=False` stores the list without recording the pair in
`_multioptions` (`RawConfigParser.set` performs no type check), so an
unmarked option ends up holding a list and the claimed invariant is not
preserved by every `set`. -/
theorem multiInv_set_cex :
    multiInvB ⟨[⟨"Unit".data, false, []⟩], []⟩ = true ∧
    setOp ⟨[⟨"Unit".data, false, []⟩], []⟩ "Unit".data ['k']
        (.vlist [['a'], ['b']]) false
      = .ok ⟨[⟨"Unit".data, false, [(['k'], .vlist [['a'], ['b']])]⟩], []⟩ ∧
    multiInvB ⟨[⟨"Unit".data, false, [(['k'], .vlist [['a'], ['b']])]⟩], []⟩
      = false := by
  refine ⟨by decide, by decide, by decide⟩

/-- The removal loop deletes exactly the present names and warns once per
absent one. -/
theorem removeFiles_eq (names : List Str) (fs : List Str)
    (hn : names.Nodup) (hfs : fs.Nodup) :
    removeFiles names fs
      = (fs.filter (fun f => decide (f ∉ names)),
         (names.filter (fun n => decide (n ∉ fs))).length) := by
  induction names generalizing fs with
  | nil => simp [removeFiles]
  | cons n ns ih =>
      rcases List.nodup_cons.mp hn with ⟨hnn, hns⟩
      by_cases hmem : n ∈ fs
      · rw [removeFiles, if_pos hmem, ih (fs.erase n) hns (hfs.erase n),
            Prod.mk.injEq]
        refine ⟨?_, ?_⟩
        · rw [hfs.erase_eq_filter n, List.filter_filter]
          apply List.filter_congr
          intro f _
          by_cases h1 : f = n <;> by_cases h2 : f ∈ ns <;> simp [h1, h2]
        · rw [List.filter_cons_of_neg (by simpa using hmem)]
          congr 1
          apply List.filter_congr
          intro m hm
          have hne : m ≠ n := fun h => hnn (h ▸ hm)
          simp [List.mem_erase_of_ne hne]
      · rw [removeFiles, if_neg hmem, ih fs hns hfs, Prod.mk.injEq]
        refine ⟨?_, ?_⟩
        · apply List.filter_congr
          intro f hf
          have hne : f ≠ n := fun h => hmem (h ▸ hf)
          simp [List.mem_cons, hne]
        · rw [List.filter_cons_of_pos (by simpa using hmem)]
          simp

/-- Claim C9: `remove()` attempts deletion of every expanded file name;
each absent file yields one warning and never an exception, and absent
files do not stop the remaining deletions: the call returns normally with
exactly the present expanded files deleted and one warning per absent
one. -/
theorem remove_deletes_present_warns_missing (u : SUnit) (ns fs : List Str)
    (hex : expandedNames u none = .ok ns) (hn : ns.Nodup) (hfs : fs.Nodup) :
    removeUnit u fs
      = .ok (fs.filter (fun f => decide (f ∉ ns)),
             (ns.filter (fun n => decide (n ∉ fs))).length) := by
  unfold removeUnit
  rw [hex]
  show Except.ok (removeFiles ns fs) = _
  rw [removeFiles_eq ns fs hn hfs]

/-- Claim C9, witness: a batch of two expanded files of which only
`f-1.service` exists: the present file is deleted, one warning is
recorded, and `remove()` completes without raising. -/
theorem remove_deletes_present_warns_missing_witness :
    removeUnit ⟨['f', '-', '{', 'i', '}'], "service".data, false, true,
        [(['i'], [['1'], ['2']])], ⟨[], []⟩⟩
        ["f-1.service".data]
      = .ok ([], 1) := by
  have h := remove_deletes_present_warns_missing
    ⟨['f', '-', '{', 'i', '}'], "service".data, false, true,
        [(['i'], [['1'], ['2']])], ⟨[], []⟩⟩
    ["f-1.service".data, "f-2.service".data]
    ["f-1.service".data]
    (by decide) (by decide) (by decide)
  rw [h]
  decide

/-! ## Section-dictionary lemmas -/

theorem secGet_name {secs : List Sec} {m : Str} {s : Sec}
    (h : secGet secs m = some s) : s.name = m := by
  induction secs with
  | nil => simp [secGet] at h
  | cons a rest ih =>
      rw [secGet] at h
      by_cases ha : a.name = m
      · rw [if_pos ha] at h
        cases h
        exact ha
      · rw [if_neg ha] at h
        exact ih h

theorem secGet_append_of_isSome {l l' : List Sec} {m : Str}
    (h : (secGet l m).isSome) : secGet (l ++ l') m = secGet l m := by
  induction l with
  | nil => simp [secGet] at h
  | cons a rest ih =>
      rw [List.cons_append, secGet, secGet]
      by_cases ha : a.name = m
      · rw [if_pos ha, if_pos ha]
      · rw [if_neg ha, if_neg ha]
        rw [secGet, if_neg ha] at h
        exact ih h

theorem secGet_append_of_none {l l' : List Sec} {m : Str}
    (h : secGet l m = none) : secGet (l ++ l') m = secGet l' m := by
  induction l with
  | nil => simp
  | cons a rest ih =>
      rw [secGet] at h
      by_cases ha : a.name = m
      · rw [if_pos ha] at h
        cases h
      · rw [if_neg ha] at h
        rw [List.cons_append, secGet, if_neg ha]
        exact ih h

theorem secMod_of_none {secs : List Sec} {n : Str} {f : Sec → Sec}
    (h : secGet secs n = none) : secMod secs n f = secs := by
  induction secs with
  | nil => rfl
  | cons a rest ih =>
      rw [secGet] at h
      by_cases ha : a.name = n
      · rw [if_pos ha] at h
        cases h
      · rw [if_neg ha] at h
        rw [secMod, if_neg ha, ih h]

theorem secGet_secMod_self {secs : List Sec} {n : Str} {s : Sec}
    {f : Sec → Sec} (hname : ∀ t, (f t).name = t.name)
    (h : secGet secs n = some s) :
    secGet (secMod secs n f) n = some (f s) := by
  induction secs with
  | nil => simp [secGet] at h
  | cons a rest ih =>
      rw [secGet] at h
      by_cases ha : a.name = n
      · rw [if_pos ha] at h
        cases h
        rw [secMod, if_pos ha, secGet, if_pos (by rw [hname]; exact ha)]
      · rw [if_neg ha] at h
        rw [secMod, if_neg ha, secGet, if_neg ha]
        exact ih h

theorem secGet_secMod_ne {secs : List Sec} {n m : Str} {f : Sec → Sec}
    (hname : ∀ t, (f t).name = t.name) (hmn : m ≠ n) :
    secGet (secMod secs n f) m = secGet secs m := by
  induction secs with
  | nil => rfl
  | cons a rest ih =>
      rw [secMod]
      by_cases ha : a.name = n
      · rw [if_pos ha, secGet, secGet, hname]
        have hns : ¬ a.name = m := fun h => hmn (h.symm.trans ha)
        rw [if_neg hns, if_neg hns]
      · rw [if_neg ha, secGet, secGet]
        by_cases ham : a.name = m
        · rw [if_pos ham, if_pos ham]
        · rw [if_neg ham, if_neg ham]
          exact ih

theorem secMod_map_name {secs : List Sec} {n : Str} {f : Sec → Sec}
    (hname : ∀ t, (f t).name = t.name) :
    (secMod secs n f).map (·.name) = secs.map (·.name) := by
  induction secs with
  | nil => rfl
  | cons a rest ih =>
      rw [secMod]
      by_cases ha : a.name = n
      · rw [if_pos ha, List.map_cons, List.map_cons, hname]
      · rw [if_neg ha, List.map_cons, List.map_cons, ih]

theorem secGet_secDel_ne {secs : List Sec} {t m : Str} (hmt : m ≠ t) :
    secGet (secDel secs t) m = secGet secs m := by
  induction secs with
  | nil => rfl
  | cons a rest ih =>
      rw [secDel]
      by_cases ha : a.name = t
      · rw [if_pos ha, secGet, if_neg (fun h => hmt (h.symm.trans ha))]
      · rw [if_neg ha, secGet, secGet]
        by_cases ham : a.name = m
        · rw [if_pos ham, if_pos ham]
        · rw [if_neg ham, if_neg ham]
          exact ih

theorem secGet_secDel_none {secs : List Sec} {t m : Str}
    (h : secGet secs m = none) : secGet (secDel secs t) m = none := by
  induction secs with
  | nil => rfl
  | cons a rest ih =>
      rw [secGet] at h
      by_cases ham : a.name = m
      · rw [if_pos ham] at h
        cases h
      · rw [if_neg ham] at h
        rw [secDel]
        by_cases ha : a.name = t
        · rw [if_pos ha]
          exact h
        · rw [if_neg ha, secGet, if_neg ham]
          exact ih h

theorem ok_bind {α β : Type} (a : α) (f : α → Except Err β) :
    (Except.ok a >>= f) = f a := rfl

theorem error_bind {α β : Type} (e : Err) (f : α → Except Err β) :
    ((Except.error e : Except Err α) >>= f) = Except.error e := rfl

/-- Unfolding equations for `extOne`. -/
theorem extOne_eq_of_none {d : Doc} {t : Str}
    (h : secGet d.secs t = none) : extOne d t = .ok d := by
  rw [extOne, h]

theorem extOne_eq_of_external {d : Doc} {t : Str} {sec : Sec}
    (h : secGet d.secs t = some sec) (hi : sec.internal = false) :
    extOne d t = .ok d := by
  rw [extOne, h]
  simp [hi]

theorem extOne_eq_of_internal {d : Doc} {t : Str} {sec : Sec}
    (h : secGet d.secs t = some sec) (hi : sec.internal = true) :
    extOne d t = addSection d ('x' :: '-' :: t) >>= fun d₁ =>
      extOne.setAllOpts d₁ ('x' :: '-' :: t) sec.opts >>= fun d₂ =>
      Except.ok ⟨secDel d₂.secs t, d₂.multi⟩ := by
  rw [extOne, h]
  simp [hi]

/-- `setAllOpts` on a present section succeeds and changes nothing but
that section's option dictionary: names, internal flags and the
multi-value set are untouched. -/
theorem setAllOpts_props (d : Doc) (n : Str) (opts : List (Str × Val))
    (h : (secGet d.secs n).isSome) :
    ∃ d', extOne.setAllOpts d n opts = .ok d' ∧
      d'.secs.map (·.name) = d.secs.map (·.name) ∧
      (∀ m, (secGet d'.secs m).map Sec.internal
          = (secGet d.secs m).map Sec.internal) ∧
      d'.multi = d.multi := by
  induction opts generalizing d with
  | nil => exact ⟨d, rfl, rfl, fun _ => rfl, rfl⟩
  | cons kv rest ih =>
      obtain ⟨s, hs⟩ := Option.isSome_iff_exists.mp h
      have hname : ∀ t : Sec,
          ({ t with opts := optSet t.opts kv.1 kv.2 } : Sec).name = t.name :=
        fun _ => rfl
      set d₁ : Doc :=
        ⟨secMod d.secs n (fun t => { t with opts := optSet t.opts kv.1 kv.2 }),
         d.multi⟩ with hd₁
      have hstep : setOp d n kv.1 kv.2 false = .ok d₁ := by
        rw [setOp, hs]
        rfl
      have h₁ : (secGet d₁.secs n).isSome := by
        rw [hd₁]
        show (secGet (secMod _ _ _) n).isSome
        rw [secGet_secMod_self hname hs]
        rfl
      obtain ⟨d', hrun, hnames, hflags, hmulti⟩ := ih d₁ h₁
      refine ⟨d', ?_, ?_, ?_, ?_⟩
      · show extOne.setAllOpts d n (kv :: rest) = .ok d'
        rw [extOne.setAllOpts]
        cases kv with
        | mk k v =>
            rw [show setOp d n k v false = .ok d₁ from hstep]
            exact hrun
      · rw [hnames, hd₁]
        exact secMod_map_name hname
      · intro m
        rw [hflags m, hd₁]
        show ((secGet (secMod _ _ _) m).map Sec.internal) = _
        by_cases hm : m = n
        · subst hm
          rw [secGet_secMod_self hname hs, hs]
          rfl
        · rw [secGet_secMod_ne hname hm]
      · rw [hmulti, hd₁]

/-- The invariant used for C10: the section `n` is present, external and
`x-n` is absent. -/
def extInv (n : Str) (d : Doc) : Prop :=
  (∃ O, secGet d.secs n = some ⟨n, false, O⟩) ∧
  secGet d.secs ('x' :: '-' :: n) = none

theorem extOne_extInv {n : Str} {d d' : Doc} {t : Str}
    (hI : extInv n d) (h : extOne d t = .ok d') : extInv n d' := by
  obtain ⟨⟨O, hn⟩, hx⟩ := hI
  cases hsec : secGet d.secs t with
  | none =>
      rw [extOne_eq_of_none hsec] at h
      cases h
      exact ⟨⟨O, hn⟩, hx⟩
  | some sec =>
      by_cases hint : sec.internal
      · rw [extOne_eq_of_internal hsec hint] at h
        have htn : t ≠ n := by
          intro he
          subst he
          rw [hn] at hsec
          cases hsec
          simp at hint
        cases hadd : addSection d ('x' :: '-' :: t) with
        | error e =>
            rw [hadd, error_bind] at h
            cases h
        | ok d₁ =>
            rw [hadd, ok_bind] at h
            rw [addSection] at hadd
            by_cases hdup : (secGet d.secs ('x' :: '-' :: t)).isSome
            · rw [if_pos hdup] at hadd
              cases hadd
            · rw [if_neg hdup] at hadd
              cases hadd
              have hn₁ : secGet (d.secs ++ [⟨'x' :: '-' :: t, false, []⟩]) n
                  = some ⟨n, false, O⟩ := by
                rw [secGet_append_of_isSome (by rw [hn]; rfl), hn]
              have hx₁ : secGet (d.secs ++ [⟨'x' :: '-' :: t, false, []⟩])
                  ('x' :: '-' :: n) = none := by
                rw [secGet_append_of_none hx, secGet]
                rw [if_neg ?_, secGet]
                intro he
                exact htn (by cases he; rfl)
              have h₁ : (secGet (d.secs ++ [⟨'x' :: '-' :: t, false, []⟩])
                  ('x' :: '-' :: t)).isSome := by
                rw [secGet_append_of_none (by simpa using hdup), secGet, if_pos rfl]
                rfl
              obtain ⟨d₂, hrun, hnames, hflags, _⟩ :=
                setAllOpts_props ⟨d.secs ++ [⟨'x' :: '-' :: t, false, []⟩], d.multi⟩
                  ('x' :: '-' :: t) sec.opts h₁
              rw [show extOne.setAllOpts ⟨d.secs ++ [⟨'x' :: '-' :: t, false, []⟩], d.multi⟩ ('x' :: '-' :: t) sec.opts = Except.ok d₂ from hrun, ok_bind] at h
              cases h
              constructor
              · have hpres := hflags n
                rw [hn₁] at hpres
                cases hget₂ : secGet d₂.secs n with
                | none => rw [hget₂] at hpres; cases hpres
                | some s₂ =>
                    rw [hget₂] at hpres
                    refine ⟨s₂.opts, ?_⟩
                    have hsn : s₂.name = n := secGet_name hget₂
                    have hsi : s₂.internal = false := by
                      simpa using hpres
                    show secGet (secDel d₂.secs t) n
                        = some ⟨n, false, s₂.opts⟩
                    rw [secGet_secDel_ne (fun he => htn he.symm), hget₂]
                    cases s₂
                    simp only at hsn hsi
                    simp [hsn, hsi]
              · have hx₂ : secGet d₂.secs ('x' :: '-' :: n) = none := by
                  have hfx := hflags ('x' :: '-' :: n)
                  rw [hx₁] at hfx
                  cases hg : secGet d₂.secs ('x' :: '-' :: n) with
                  | none => rfl
                  | some s₂ => rw [hg] at hfx; cases hfx
                show secGet (secDel d₂.secs t) ('x' :: '-' :: n) = none
                exact secGet_secDel_none hx₂
      · rw [extOne_eq_of_external hsec (by simpa using hint)] at h
        cases h
        exact ⟨⟨O, hn⟩, hx⟩

theorem runExt_extInv {n : Str} {d d' : Doc} {ns : List Str}
    (hI : extInv n d) (h : runExt d ns = .ok d') : extInv n d' := by
  induction ns generalizing d with
  | nil =>
      rw [runExt] at h
      cases h
      exact hI
  | cons t ts ih =>
      rw [runExt] at h
      cases hstep : extOne d t with
      | error e => rw [hstep] at h; cases h
      | ok d₁ =>
          rw [hstep] at h
          exact ih (extOne_extInv hI hstep) h

/-- Claim C10: `update_section(name, options)` unconditionally clears the
section's internal flag, even when it was previously internal; hence on a
subsequent write the externalise pass leaves the section under its bare
name: the persisted document contains section `name` (external, with the
updated options) and no `x-name` section. -/
theorem updateSection_marks_external (d : Doc) (n : Str)
    (opts : List (Str × Val)) (hmem : (secGet d.secs n).isSome)
    (hx : secGet d.secs ('x' :: '-' :: n) = none) :
    ∃ d', updateSection d n opts = .ok d' ∧
      isInternalB d' n = false ∧
      ∀ e, externaliseInternals d' = .ok e →
        (∃ O, secGet e.secs n = some ⟨n, false, O⟩) ∧
        secGet e.secs ('x' :: '-' :: n) = none := by
  obtain ⟨s, hs⟩ := Option.isSome_iff_exists.mp hmem
  have hname : ∀ t : Sec,
      ({ t with internal := false } : Sec).name = t.name :=
    fun _ => rfl
  set d₁ : Doc := setInternalFlag d n false with hd₁
  have hn₁ : secGet d₁.secs n = some ⟨n, false, s.opts⟩ := by
    rw [hd₁, setInternalFlag]
    show secGet (secMod _ _ _) n = _
    rw [secGet_secMod_self hname hs]
    have hnm := secGet_name hs
    cases s
    simp only at hnm
    simp [hnm]
  have hx₁ : secGet d₁.secs ('x' :: '-' :: n) = none := by
    by_cases hxn : ('x' :: '-' :: n) = n
    · rw [hxn] at hx
      rw [hx] at hs
      cases hs
    · rw [hd₁, setInternalFlag]
      show secGet (secMod _ _ _) _ = _
      rw [secGet_secMod_ne hname hxn]
      exact hx
  obtain ⟨d', hrun, hnames, hflags, hmulti⟩ :=
    setAllOpts_props d₁ n opts (by rw [hn₁]; rfl)
  refine ⟨d', ?_, ?_, ?_⟩
  · rw [updateSection, if_pos hmem]
    show extOne.setAllOpts d₁ n opts = .ok d'
    exact hrun
  · have hfn := hflags n
    rw [hn₁] at hfn
    cases hg : secGet d'.secs n with
    | none => rw [hg] at hfn; cases hfn
    | some s' =>
        rw [hg] at hfn
        rw [isInternalB, hg]
        simpa using hfn
  · intro e he
    have hI : extInv n d' := by
      constructor
      · have hfn := hflags n
        rw [hn₁] at hfn
        cases hg : secGet d'.secs n with
        | none => rw [hg] at hfn; cases hfn
        | some s' =>
            rw [hg] at hfn
            refine ⟨s'.opts, ?_⟩
            have hsn : s'.name = n := secGet_name hg
            have hsi : s'.internal = false := by simpa using hfn
            cases s'
            simp only at hsn hsi
            simp [hsn, hsi]
      · have hfx := hflags ('x' :: '-' :: n)
        rw [hx₁] at hfx
        cases hg : secGet d'.secs ('x' :: '-' :: n) with
        | none => rfl
        | some s' =>
            rw [hg] at hfx
            cases hfx
    exact runExt_extInv hI he

/-- Claim C10, witness: updating a previously internal section `S` leaves
it external, and the externalised (written) document carries `[S]` and no
`[x-S]`. -/
theorem updateSection_marks_external_witness :
    ∃ d', updateSection ⟨[⟨['S'], true, [(['o'], .vstr ['1'])]⟩], []⟩ ['S']
        [(['k'], .vstr ['2'])] = .ok d' ∧
      isInternalB d' ['S'] = false ∧
      ∀ e, externaliseInternals d' = .ok e →
        (∃ O, secGet e.secs ['S'] = some ⟨['S'], false, O⟩) ∧
        secGet e.secs ['x', '-', 'S'] = none :=
  updateSection_marks_external ⟨[⟨['S'], true, [(['o'], .vstr ['1'])]⟩], []⟩
    ['S'] [(['k'], .vstr ['2'])] (by decide) (by decide)

/-! ## Substitution lemmas (C7) -/

theorem secGet_mem_names {secs : List Sec} {n : Str} {s : Sec}
    (h : secGet secs n = some s) : n ∈ secs.map (·.name) := by
  induction secs with
  | nil => simp [secGet] at h
  | cons a rest ih =>
      rw [secGet] at h
      by_cases ha : a.name = n
      · simp [← ha]
      · rw [if_neg ha] at h
        simp [ih h]

theorem multiAdd_mem {m : List (Str × Str)} {p q : Str × Str} :
    p ∈ multiAdd m q ↔ p ∈ m ∨ p = q := by
  rw [multiAdd]
  by_cases hq : q ∈ m
  · rw [if_pos hq]
    constructor
    · exact fun h => Or.inl h
    · rintro (h | rfl)
      · exact h
      · exact hq
  · rw [if_neg hq]
    simp [List.mem_append]

/-- A format string referencing a name absent from the mapping cannot
format successfully. -/
theorem pyFormatGo_err_of_badKey (m : List (Str × Str)) (k : Str)
    (hmiss : lookupStr m k = none) :
    ∀ fuel s, k ∈ phKeysGo fuel s → ∃ e, pyFormatGo m fuel s = .error e := by
  intro fuel
  induction fuel with
  | zero =>
      intro s hk
      cases s with
      | nil => simp [phKeysGo] at hk
      | cons c rest => simp [phKeysGo] at hk
  | succ fuel ih =>
      intro s hk
      cases s with
      | nil => simp [phKeysGo] at hk
      | cons c rest =>
          by_cases hc : c = '{'
          · subst hc
            cases rest with
            | nil => simp [phKeysGo] at hk
            | cons c' rest' =>
                by_cases hc' : c' = '{'
                · subst hc'
                  simp only [phKeysGo, if_true] at hk
                  obtain ⟨e, he⟩ := ih _ hk
                  refine ⟨e, ?_⟩
                  show (pyFormatGo m fuel rest' >>= fun t =>
                    Except.ok ('{' :: t)) = Except.error e
                  rw [he]
                  rfl
                · have hred : phKeysGo (fuel + 1) ('{' :: c' :: rest')
                      = (if ((c' :: rest').takeWhile
                            (fun ch => ch != '}')).length < (c' :: rest').length
                         then fieldKey ((c' :: rest').takeWhile (fun ch => ch != '}'))
                              :: phKeysGo fuel ((c' :: rest').drop
                                (((c' :: rest').takeWhile (fun ch => ch != '}')).length + 1))
                         else []) := by
                    rw [phKeysGo]
                    rw [if_pos rfl, if_neg hc']
                  rw [hred] at hk
                  have hgoal : pyFormatGo m (fuel + 1) ('{' :: c' :: rest')
                      = (if (((c' :: rest').takeWhile (fun ch => ch != '}')).length
                            < (c' :: rest').length) then
                           (if (fieldKey ((c' :: rest').takeWhile (fun ch => ch != '}')) = []
                               ∨ (fieldKey ((c' :: rest').takeWhile
                                   (fun ch => ch != '}'))).all (·.isDigit))
                            then Except.error Err.indexError
                            else
                              match lookupStr m (fieldKey ((c' :: rest').takeWhile
                                  (fun ch => ch != '}'))) with
                              | none => Except.error (Err.formatKeyError
                                  (fieldKey ((c' :: rest').takeWhile (fun ch => ch != '}'))))
                              | some v =>
                                  if fieldKey ((c' :: rest').takeWhile (fun ch => ch != '}'))
                                      = (c' :: rest').takeWhile (fun ch => ch != '}') then
                                    pyFormatGo m fuel ((c' :: rest').drop
                                      ((((c' :: rest').takeWhile
                                        (fun ch => ch != '}')).length) + 1)) >>=
                                      fun t => Except.ok (v ++ t)
                                  else Except.error Err.unsupportedField)
                         else Except.error Err.singleOpenBrace) := by
                    rw [pyFormatGo]
                    rw [if_pos rfl, if_neg hc']
                  rw [hgoal]
                  by_cases hlen : ((c' :: rest').takeWhile
                      (fun ch => ch != '}')).length < (c' :: rest').length
                  · rw [if_pos hlen] at hk ⊢
                    by_cases hkey : fieldKey ((c' :: rest').takeWhile
                        (fun ch => ch != '}')) = []
                      ∨ (fieldKey ((c' :: rest').takeWhile
                        (fun ch => ch != '}'))).all (·.isDigit)
                    · exact ⟨.indexError, by rw [if_pos hkey]⟩
                    · rw [if_neg hkey]
                      rcases List.mem_cons.mp hk with hfk | htail
                      · subst hfk
                        rw [hmiss]
                        exact ⟨_, rfl⟩
                      · cases hlook : lookupStr m (fieldKey
                            ((c' :: rest').takeWhile (fun ch => ch != '}'))) with
                        | none => exact ⟨_, rfl⟩
                        | some v =>
                            dsimp only
                            by_cases hkf : fieldKey ((c' :: rest').takeWhile
                                (fun ch => ch != '}'))
                              = (c' :: rest').takeWhile (fun ch => ch != '}')
                            · rw [if_pos hkf]
                              obtain ⟨e, he⟩ := ih _ htail
                              exact ⟨e, by rw [he]; rfl⟩
                            · rw [if_neg hkf]
                              exact ⟨_, rfl⟩
                  · rw [if_neg hlen] at hk
                    simp at hk
          · by_cases hcc : c = '}'
            · subst hcc
              cases rest with
              | nil => simp [phKeysGo] at hk
              | cons c' rest' =>
                  by_cases hc' : c' = '}'
                  · subst hc'
                    have hred : phKeysGo (fuel + 1) ('}' :: '}' :: rest')
                        = phKeysGo fuel rest' := rfl
                    rw [hred] at hk
                    obtain ⟨e, he⟩ := ih _ hk
                    refine ⟨e, ?_⟩
                    show (pyFormatGo m fuel rest' >>= fun t =>
                      Except.ok ('}' :: t)) = Except.error e
                    rw [he]
                    rfl
                  · have hred : phKeysGo (fuel + 1) ('}' :: c' :: rest') = [] := by
                      show (if c' = '}' then phKeysGo fuel rest' else []) = []
                      rw [if_neg hc']
                    rw [hred] at hk
                    simp at hk
            · have hred : phKeysGo (fuel + 1) (c :: rest) = phKeysGo fuel rest := by
                rw [phKeysGo.eq_def]
                dsimp only
                rw [if_neg hc, if_neg hcc]
              rw [hred] at hk
              obtain ⟨e, he⟩ := ih _ hk
              have hgoal : pyFormatGo m (fuel + 1) (c :: rest)
                  = (pyFormatGo m fuel rest >>= fun t => Except.ok (c :: t)) := by
                rw [pyFormatGo.eq_def]
                dsimp only
                rw [if_neg hc, if_neg hcc]
              rw [hgoal, he]
              exact ⟨e, rfl⟩

theorem pyFormat_err_of_badKey {m : List (Str × Str)} {k s : Str}
    (hk : k ∈ phKeys s) (hmiss : lookupStr m k = none) :
    ∃ e, pyFormat m s = .error e :=
  pyFormatGo_err_of_badKey m k hmiss s.length s hk

theorem fmtList_err {m : List (Str × Str)} {x : Str}
    (hpf : ∃ e, pyFormat m x = .error e) :
    ∀ xs : List Str, x ∈ xs → ∃ e, formatVal.fmtList m xs = .error e := by
  intro xs
  induction xs with
  | nil => simp
  | cons y ys ih =>
      intro hx
      cases hy : pyFormat m y with
      | error e => exact ⟨e, by rw [formatVal.fmtList, hy]; rfl⟩
      | ok t =>
          rcases List.mem_cons.mp hx with rfl | hx'
          · obtain ⟨e, he⟩ := hpf
            rw [hy] at he
            cases he
          · obtain ⟨e, he⟩ := ih hx'
            refine ⟨e, ?_⟩
            rw [formatVal.fmtList, hy]
            show (formatVal.fmtList m ys).bind _ = _
            rw [he]
            rfl

/-- A value some component of which references a missing name cannot be
formatted (the marked case with a scalar value is excluded, as the
invariant claim C8 describes: a marked pair holds a list). -/
theorem formatVal_err {m : List (Str × Str)} {bad : Str} {v : Val} {mo : Bool}
    (hbad : bad ∈ valKeys v) (hmiss : lookupStr m bad = none)
    (hshape : match v with
      | Val.vstr _ => mo = false
      | Val.vlist _ => True
      | Val.vnone => False) :
    ∃ e, formatVal m mo v = .error e := by
  cases v with
  | vnone => cases hshape
  | vstr s =>
      have hmo : mo = false := hshape
      subst hmo
      obtain ⟨e, he⟩ := pyFormat_err_of_badKey (by simpa [valKeys] using hbad) hmiss
      refine ⟨e, ?_⟩
      show (pyFormat m s >>= fun t => Except.ok (Val.vstr t)) = Except.error e
      rw [he]
      rfl
  | vlist xs =>
      have hx : ∃ x ∈ xs, bad ∈ phKeys x := by simpa [valKeys] using hbad
      obtain ⟨x, hxs, hbx⟩ := hx
      obtain ⟨e, he⟩ := fmtList_err
        (pyFormat_err_of_badKey hbx hmiss) xs hxs
      cases mo with
      | true =>
          refine ⟨e, ?_⟩
          show (formatVal.fmtList m xs >>= fun ys => Except.ok (Val.vlist ys))
            = Except.error e
          rw [he]
          rfl
      | false =>
          refine ⟨e, ?_⟩
          show (formatVal.fmtList m xs >>= fun ys => Except.ok (Val.vlist ys))
            = Except.error e
          rw [he]
          rfl

/-- What a successful `set` changes: only the named section's options, and
only the pair it marks. -/
theorem setOp_ok_inv {d : Doc} {sn k : Str} {v : Val} {mo : Bool} {d₁ : Doc}
    (h : setOp d sn k v mo = .ok d₁) :
    (∀ t, t ≠ sn → secGet d₁.secs t = secGet d.secs t) ∧
    (∀ p : Str × Str, p ≠ (sn, k) → (p ∈ d₁.multi ↔ p ∈ d.multi)) := by
  rw [setOp] at h
  cases hs : secGet d.secs sn with
  | none => rw [hs] at h; cases h
  | some s =>
      rw [hs] at h
      cases h
      constructor
      · intro t ht
        exact secGet_secMod_ne (fun _ => rfl) ht
      · intro p hp
        cases mo with
        | false => exact Iff.rfl
        | true =>
            show p ∈ multiAdd d.multi (sn, k) ↔ p ∈ d.multi
            rw [multiAdd_mem]
            constructor
            · rintro (h | h)
              · exact h
              · exact absurd h hp
            · exact fun h => Or.inl h

/-- If a section's snapshot holds an unformattable option, the option loop
fails. -/
theorem fmtOpts_err {m : List (Str × Str)} {sn k0 : Str} {v0 : Val}
    {mo0 : Bool}
    (hfv : ∃ e, formatVal m mo0 v0 = .error e) :
    ∀ (opts : List (Str × Val)) (d : Doc), (k0, v0) ∈ opts →
      (opts.map Prod.fst).Nodup →
      decide ((sn, k0) ∈ d.multi) = mo0 →
      ∃ e, fmtOpts m sn d opts = .error e := by
  intro opts
  induction opts with
  | nil => simp
  | cons kv rest ih =>
      intro d hmem hnd hmo
      obtain ⟨k, v⟩ := kv
      rcases List.mem_cons.mp hmem with heq | hrest
      · cases heq
        obtain ⟨e, he⟩ := hfv
        refine ⟨e, ?_⟩
        show (formatVal m (decide ((sn, k0) ∈ d.multi)) v0 >>= fun v' =>
          setOp d sn k0 v' (decide ((sn, k0) ∈ d.multi)) >>= fun d₁ =>
          fmtOpts m sn d₁ rest) = Except.error e
        rw [hmo, he]
        rfl
      · have hk0rest : k0 ∈ rest.map Prod.fst :=
          List.mem_map.mpr ⟨(k0, v0), hrest, rfl⟩
        have hkne : k ≠ k0 := by
          intro hkk
          exact (List.nodup_cons.mp hnd).1 (hkk ▸ hk0rest)
        show ∃ e, (formatVal m (decide ((sn, k) ∈ d.multi)) v >>= fun v' =>
          setOp d sn k v' (decide ((sn, k) ∈ d.multi)) >>= fun d₁ =>
          fmtOpts m sn d₁ rest) = Except.error e
        cases hf : formatVal m (decide ((sn, k) ∈ d.multi)) v with
        | error e => exact ⟨e, rfl⟩
        | ok v' =>
            rw [ok_bind]
            cases hset : setOp d sn k v' (decide ((sn, k) ∈ d.multi)) with
            | error e => exact ⟨e, rfl⟩
            | ok d₁ =>
                rw [ok_bind]
                have hinv := (setOp_ok_inv hset).2 (sn, k0)
                  (by simp [hkne.symm])
                have hmo₁ : decide ((sn, k0) ∈ d₁.multi) = mo0 := by
                  rw [← hmo]
                  simp [hinv]
                exact ih d₁ hrest (List.nodup_cons.mp hnd).2 hmo₁

/-- A successful option loop over a *different* section leaves the section
of interest and its multi-value status untouched. -/
theorem fmtOpts_pres {m : List (Str × Str)} {t sn k0 : Str}
    (htsn : sn ≠ t) :
    ∀ (opts : List (Str × Val)) (d d₁ : Doc),
      fmtOpts m t d opts = .ok d₁ →
      secGet d₁.secs sn = secGet d.secs sn ∧
      ((sn, k0) ∈ d₁.multi ↔ (sn, k0) ∈ d.multi) := by
  intro opts
  induction opts with
  | nil =>
      intro d d₁ h
      rw [fmtOpts] at h
      cases h
      exact ⟨rfl, Iff.rfl⟩
  | cons kv rest ih =>
      intro d d₁ h
      obtain ⟨k, v⟩ := kv
      replace h : (formatVal m (decide ((t, k) ∈ d.multi)) v >>= fun v' =>
          setOp d t k v' (decide ((t, k) ∈ d.multi)) >>= fun d₂ =>
          fmtOpts m t d₂ rest) = Except.ok d₁ := h
      cases hf : formatVal m (decide ((t, k) ∈ d.multi)) v with
      | error e => rw [hf] at h; cases h
      | ok v' =>
          rw [hf, ok_bind] at h
          cases hset : setOp d t k v' (decide ((t, k) ∈ d.multi)) with
          | error e => rw [hset] at h; cases h
          | ok d₂ =>
              rw [hset, ok_bind] at h
              have hstep := setOp_ok_inv hset
              obtain ⟨h₁, h₂⟩ := ih d₂ d₁ h
              refine ⟨?_, ?_⟩
              · rw [h₁, hstep.1 sn htsn]
              · rw [h₂]
                exact hstep.2 (sn, k0) (by simp [htsn])

/-- If some section of the document holds an unformattable option, the
whole `formatted` pass fails. -/
theorem fmtSecs_err {m : List (Str × Str)} {sn k0 : Str} {v0 : Val}
    {mo0 : Bool} {sec : Sec}
    (hopt : (k0, v0) ∈ sec.opts)
    (hkeys : (sec.opts.map Prod.fst).Nodup)
    (hfv : ∃ e, formatVal m mo0 v0 = .error e) :
    ∀ (ns : List Str) (d : Doc), sn ∈ ns →
      secGet d.secs sn = some sec →
      decide ((sn, k0) ∈ d.multi) = mo0 →
      ∃ e, fmtSecs m d ns = .error e := by
  intro ns
  induction ns with
  | nil => simp
  | cons t ts ih =>
      intro d hsn hsec hmo
      by_cases ht : t = sn
      · obtain ⟨e, he⟩ := fmtOpts_err hfv sec.opts d hopt hkeys hmo
        refine ⟨e, ?_⟩
        rw [fmtSecs, ht, hsec]
        show (fmtOpts m sn d sec.opts >>= fun d₂ => fmtSecs m d₂ ts)
          = Except.error e
        rw [he]
        rfl
      · have hsn' : sn ∈ ts := by
          rcases List.mem_cons.mp hsn with h | h
          · exact absurd h.symm ht
          · exact h
        rw [fmtSecs]
        cases hg : secGet d.secs t with
        | none =>
            obtain ⟨e, he⟩ := ih d hsn' hsec hmo
            refine ⟨e, ?_⟩
            show (Except.ok d >>= fun d₂ => fmtSecs m d₂ ts) = Except.error e
            rw [ok_bind]
            exact he
        | some sec_t =>
            have hsne : sn ≠ t := fun h => ht h.symm
            cases hrun : fmtOpts m t d sec_t.opts with
            | error e =>
                refine ⟨e, ?_⟩
                show (fmtOpts m t d sec_t.opts >>= fun d₂ => fmtSecs m d₂ ts)
                  = Except.error e
                rw [hrun]
                rfl
            | ok d₁ =>
                obtain ⟨hp₁, hp₂⟩ := @fmtOpts_pres m t sn k0 hsne sec_t.opts d d₁ hrun
                obtain ⟨e, he⟩ := ih d₁ hsn' (hp₁ ▸ hsec)
                  (by rw [← hmo]; simp [hp₂])
                refine ⟨e, ?_⟩
                show (fmtOpts m t d sec_t.opts >>= fun d₂ => fmtSecs m d₂ ts)
                  = Except.error e
                rw [hrun, ok_bind]
                exact he

/-- Claim C7: batch substitution fails loudly on any option value (scalar
or list element) containing a placeholder whose name is absent from the
substitution map — the loud failure is Python's `KeyError` from
`str.format`, a closed mapping lookup that never falls back to caller or
global scope — and the same holds for the base-name template. -/
theorem substitution_fails_on_missing (d : Doc) (m : List (Str × Str))
    (sn k0 bad nm : Str) (v0 : Val) (sec : Sec)
    (hsec : secGet d.secs sn = some sec)
    (hkeys : (sec.opts.map Prod.fst).Nodup)
    (hopt : (k0, v0) ∈ sec.opts)
    (hshape : match v0 with
      | Val.vstr _ => (sn, k0) ∉ d.multi
      | Val.vlist _ => True
      | Val.vnone => False)
    (hbad : bad ∈ valKeys v0)
    (hmiss : lookupStr m bad = none) :
    (∃ e, formattedDoc d m = .error e) ∧
    (bad ∈ phKeys nm → ∃ e, pyFormat m nm = .error e) := by
  constructor
  · have hfv : ∃ e, formatVal m (decide ((sn, k0) ∈ d.multi)) v0 = .error e := by
      apply formatVal_err hbad hmiss
      cases v0 with
      | vnone => exact hshape
      | vstr s => simpa using hshape
      | vlist xs => trivial
    exact fmtSecs_err hopt hkeys hfv (d.secs.map (·.name)) d
      (secGet_mem_names hsec) hsec rfl
  · intro hnm
    exact pyFormat_err_of_badKey hnm hmiss

/-- Claim C7, witness: the value `"hello {tag}"` under the empty map, in a
document with one section, fails to format, and so does the base name
`"unit-{tag}"`. -/
theorem substitution_fails_on_missing_witness :
    (∃ e, formattedDoc
        ⟨[⟨"Unit".data, false,
           [(['k'], .vstr ['h', 'i', ' ', '{', 't', 'a', 'g', '}'])]⟩], []⟩ []
      = .error e) ∧
    (['t', 'a', 'g'] ∈ phKeys ['u', '-', '{', 't', 'a', 'g', '}'] →
      ∃ e, pyFormat [] ['u', '-', '{', 't', 'a', 'g', '}'] = .error e) :=
  substitution_fails_on_missing
    ⟨[⟨"Unit".data, false,
       [(['k'], .vstr ['h', 'i', ' ', '{', 't', 'a', 'g', '}'])]⟩], []⟩ []
    "Unit".data ['k'] ['t', 'a', 'g'] ['u', '-', '{', 't', 'a', 'g', '}']
    (.vstr ['h', 'i', ' ', '{', 't', 'a', 'g', '}'])
    ⟨"Unit".data, false,
     [(['k'], .vstr ['h', 'i', ' ', '{', 't', 'a', 'g', '}'])]⟩
    (by decide) (by decide) (by decide) (by decide) (by decide) (by decide)


/-! ## Batch-expansion lemmas (C3, C4) -/

theorem get?_eq_getD {α : Type} (l : List α) (i : Nat) (d : α)
    (h : i < l.length) : l.get? i = some (l.getD i d) := by
  induction l generalizing i with
  | nil => simp at h
  | cons a rest ih =>
      cases i with
      | zero => rfl
      | succ j =>
          simp only [List.length_cons, Nat.succ_lt_succ_iff] at h
          show rest.get? j = some (rest.getD j d)
          exact ih j h

/-- Building the index map succeeds below every sequence length and
produces exactly the index-aligned map. -/
theorem varsAt_ok {bv : List (Str × List Str)} {i : Nat}
    (h : ∀ p ∈ bv, i < p.2.length) : varsAt bv i = .ok (specMap bv i) := by
  induction bv with
  | nil => rfl
  | cons p rest ih =>
      obtain ⟨k, vs⟩ := p
      rw [varsAt]
      rw [get?_eq_getD vs i [] (h (k, vs) (by simp))]
      rw [ih (fun q hq => h q (List.mem_cons_of_mem _ hq))]
      rfl

/-- Building the index map fails with `IndexError` as soon as some
sequence is too short. -/
theorem varsAt_err {bv : List (Str × List Str)} {i : Nat}
    (h : ∃ p ∈ bv, p.2.length ≤ i) : varsAt bv i = .error .indexError := by
  induction bv with
  | nil => simp at h
  | cons p rest ih =>
      obtain ⟨k, vs⟩ := p
      rw [varsAt]
      cases hg : vs.get? i with
      | none => rfl
      | some x =>
          have hlen : i < vs.length := by
            by_contra hc
            rw [List.get?_eq_none.mpr (Nat.le_of_not_lt hc)] at hg
            cases hg
          obtain ⟨q, hq, hqi⟩ := h
          rcases List.mem_cons.mp hq with rfl | hq'
          · exact absurd hlen (Nat.not_lt.mpr hqi)
          · rw [ih ⟨q, hq', hqi⟩]
            rfl

theorem lt_minLen_iff {bv : List (Str × List Str)} {i : Nat}
    (hne : bv ≠ []) : i < minLen bv ↔ ∀ p ∈ bv, i < p.2.length := by
  induction bv with
  | nil => exact absurd rfl hne
  | cons p rest ih =>
      obtain ⟨k, vs⟩ := p
      cases rest with
      | nil => simp [minLen]
      | cons q rs =>
          rw [show minLen ((k, vs) :: q :: rs) = min vs.length (minLen (q :: rs))
              from rfl]
          rw [Nat.lt_min, ih (by simp)]
          constructor
          · rintro ⟨h₁, h₂⟩ r hr
            rcases List.mem_cons.mp hr with rfl | hr'
            · exact h₁
            · exact h₂ r hr'
          · intro h
            exact ⟨h (k, vs) (by simp), fun r hr => h r (List.mem_cons_of_mem _ hr)⟩

theorem minLen_attained {bv : List (Str × List Str)} (hne : bv ≠ []) :
    ∃ p ∈ bv, p.2.length = minLen bv := by
  induction bv with
  | nil => exact absurd rfl hne
  | cons p rest ih =>
      obtain ⟨k, vs⟩ := p
      cases rest with
      | nil => exact ⟨(k, vs), by simp, rfl⟩
      | cons q rs =>
          obtain ⟨r, hr, hrl⟩ := ih (by simp)
          rw [show minLen ((k, vs) :: q :: rs) = min vs.length (minLen (q :: rs))
              from rfl]
          by_cases hcmp : vs.length ≤ minLen (q :: rs)
          · exact ⟨(k, vs), by simp, (Nat.min_eq_left hcmp).symm⟩
          · refine ⟨r, List.mem_cons_of_mem _ hr, ?_⟩
            rw [Nat.min_eq_right (Nat.le_of_not_le hcmp)]
            exact hrl

theorem batchedConfigs_eq_of_ne (u : SUnit) (hne : u.batchVars ≠ []) :
    batchedConfigs u = batchedAux u 0 (firstLen u.batchVars) := by
  rw [batchedConfigs]
  cases hbv : u.batchVars with
  | nil => exact absurd hbv hne
  | cons p rest => rfl

theorem batchedPair_eq (u : SUnit) (i : Nat) :
    batchedPair u i = (varsAt u.batchVars i >>= fun mi =>
      pyFormat mi u.name >>= fun fn' =>
      formattedDoc u.config mi >>= fun c =>
      Except.ok (fullNameOf u fn' none, c)) := rfl

/-- The yield loop when every index in the window succeeds. -/
theorem batchedAux_ok (u : SUnit) (g : Nat → Str × Doc) :
    ∀ (fuel i : Nat), (∀ t, i ≤ t → t < i + fuel → batchedPair u t = .ok (g t)) →
    batchedAux u i fuel = ((List.range fuel).map (fun j => g (i + j)), none) := by
  intro fuel
  induction fuel with
  | zero => intro i _; rfl
  | succ fuel ih =>
      intro i h
      rw [batchedAux]
      rw [h i (Nat.le_refl i) (by omega)]
      rw [ih (i + 1) (fun t ht₁ ht₂ => h t (by omega) (by omega))]
      rw [List.range_succ_eq_map]
      simp only [List.map_cons, List.map_map]
      have hfun : ((fun j => g (i + j)) ∘ Nat.succ) = (fun j => g (i + 1 + j)) := by
        funext j
        show g (i + (j + 1)) = g (i + 1 + j)
        congr 1
        omega
      rw [hfun]
      simp

/-- The yield loop when the first failure is at offset `j` inside the
window: the earlier pairs are yielded, then the error surfaces. -/
theorem batchedAux_err (u : SUnit) (g : Nat → Str × Doc) (er : Err) :
    ∀ (j fuel i : Nat), j < fuel →
      (∀ t, i ≤ t → t < i + j → batchedPair u t = .ok (g t)) →
      batchedPair u (i + j) = .error er →
      batchedAux u i fuel = ((List.range j).map (fun t => g (i + t)), some er) := by
  intro j
  induction j with
  | zero =>
      intro fuel i hj _ herr
      cases fuel with
      | zero => omega
      | succ fuel =>
          rw [batchedAux]
          rw [show i + 0 = i from rfl] at herr
          rw [herr]
          rfl
  | succ j ih =>
      intro fuel i hj hok herr
      cases fuel with
      | zero => omega
      | succ fuel =>
          rw [batchedAux]
          rw [hok i (Nat.le_refl i) (by omega)]
          rw [ih fuel (i + 1) (by omega)
            (fun t ht₁ ht₂ => hok t (by omega) (by omega))
            (by rw [show i + 1 + j = i + (j + 1) from by omega]; exact herr)]
          rw [List.range_succ_eq_map]
          simp only [List.map_cons, List.map_map]
          have hfun : ((fun t => g (i + t)) ∘ Nat.succ)
              = (fun t => g (i + 1 + t)) := by
            funext t
            show g (i + (t + 1)) = g (i + 1 + t)
            congr 1
            omega
          rw [hfun]
          simp

/-- Claim C3: for a batched unit whose sequences all have length `N ≥ 1`
(and whose values and base name format successfully), `batched_configs`
yields exactly `N` (full name, document) pairs in index order; the `i`-th
pair substitutes the single index-aligned map `specMap` (each variable's
`i`-th element) into a deep copy of the document — `formattedDoc` applied
to the owned document as a value — and into the base name.  The count is
`N`, never a cartesian product over the sequences. -/
theorem batchedConfigs_indexAligned (u : SUnit) (N : Nat)
    (fn : Nat → Str) (cfg : Nat → Doc)
    (hne : u.batchVars ≠ [])
    (hlen : ∀ p ∈ u.batchVars, p.2.length = N)
    (hN : 1 ≤ N)
    (hfmt : ∀ i, i < N →
      pyFormat (specMap u.batchVars i) u.name = .ok (fn i) ∧
      formattedDoc u.config (specMap u.batchVars i) = .ok (cfg i)) :
    batchedConfigs u
      = ((List.range N).map
          (fun i => (fullNameOf u (fn i) none, cfg i)), none) := by
  have hfirst : firstLen u.batchVars = N := by
    cases hbv : u.batchVars with
    | nil => exact absurd hbv hne
    | cons p rest =>
        rw [firstLen]
        exact hlen p (by rw [hbv]; simp)
  have hpair : ∀ t, 0 ≤ t → t < 0 + N →
      batchedPair u t = .ok (fullNameOf u (fn t) none, cfg t) := by
    intro t _ ht
    have htN : t < N := by omega
    rw [batchedPair_eq]
    rw [varsAt_ok (fun p hp => by rw [hlen p hp]; exact htN)]
    rw [ok_bind, (hfmt t htN).1, ok_bind, (hfmt t htN).2, ok_bind]
  rw [batchedConfigs_eq_of_ne u hne, hfirst]
  rw [batchedAux_ok u (fun t => (fullNameOf u (fn t) none, cfg t)) N 0 hpair]
  simp

/-- Claim C3, witness: the spec's example — `{tag: ["a","b"]}` applied to
a document whose option value is `"hello {tag}"` yields exactly the two
documents `"hello a"`, `"hello b"` under the two expanded names, in that
index order. -/
theorem batchedConfigs_indexAligned_witness :
    batchedConfigs ⟨['u', '-', '{', 't', 'a', 'g', '}'], "service".data,
        false, true, [(['t', 'a', 'g'], [['a'], ['b']])],
        ⟨[⟨"Unit".data, false,
           [(['D'], .vstr ['h', 'i', ' ', '{', 't', 'a', 'g', '}'])]⟩], []⟩⟩
      = ([(['u', '-', 'a', '.'] ++ "service".data,
            ⟨[⟨"Unit".data, false, [(['D'], .vstr ['h', 'i', ' ', 'a'])]⟩], []⟩),
          (['u', '-', 'b', '.'] ++ "service".data,
            ⟨[⟨"Unit".data, false, [(['D'], .vstr ['h', 'i', ' ', 'b'])]⟩], []⟩)],
         none) := by
  have h := batchedConfigs_indexAligned
    ⟨['u', '-', '{', 't', 'a', 'g', '}'], "service".data,
        false, true, [(['t', 'a', 'g'], [['a'], ['b']])],
        ⟨[⟨"Unit".data, false,
           [(['D'], .vstr ['h', 'i', ' ', '{', 't', 'a', 'g', '}'])]⟩], []⟩⟩
    2
    (fun i => if i = 0 then ['u', '-', 'a'] else ['u', '-', 'b'])
    (fun i => if i = 0 then
        ⟨[⟨"Unit".data, false, [(['D'], .vstr ['h', 'i', ' ', 'a'])]⟩], []⟩
      else ⟨[⟨"Unit".data, false, [(['D'], .vstr ['h', 'i', ' ', 'b'])]⟩], []⟩)
    (by decide) (by decide) (by decide)
    (by
      intro i hi
      interval_cases i
      · exact ⟨by decide, by decide⟩
      · exact ⟨by decide, by decide⟩)
  rw [h]
  decide

/-- Claim C4, amended: with a nonempty variable set, `batched_configs`
runs `firstLen` iterations (the first variable's length `N`); writing
`M` for the least sequence length, the first `min N M` indices yield pairs
(each written to disk as produced), and then: if `M < N` an `IndexError`
is raised — not a `BatchSizeMismatch`, which does not exist, and not
before the earlier files were written; if `M ≥ N` and the lengths are
unequal, the longer sequences are silently truncated and no error is
raised at all.  An empty variable set fails the `_get_batched_vars`
assertion. -/
theorem batch_mismatch_behavior (u : SUnit)
    (fn : Nat → Str) (cfg : Nat → Doc)
    (hfmt : ∀ i, i < min (firstLen u.batchVars) (minLen u.batchVars) →
      pyFormat (specMap u.batchVars i) u.name = .ok (fn i) ∧
      formattedDoc u.config (specMap u.batchVars i) = .ok (cfg i)) :
    batchedConfigs u
      = if u.batchVars = [] then ([], some .assertionError)
        else
          ((List.range (min (firstLen u.batchVars) (minLen u.batchVars))).map
              (fun i => (fullNameOf u (fn i) none, cfg i)),
           if min (firstLen u.batchVars) (minLen u.batchVars)
               < firstLen u.batchVars
           then some .indexError else none) := by
  by_cases hbvnil : u.batchVars = []
  · rw [batchedConfigs, hbvnil]
    simp
  ·   have hne : u.batchVars ≠ [] := hbvnil
      rw [if_neg hbvnil]
      have hpair : ∀ t, 0 ≤ t →
          t < 0 + min (firstLen u.batchVars) (minLen u.batchVars) →
          batchedPair u t = .ok (fullNameOf u (fn t) none, cfg t) := by
        intro t _ ht
        have htm : t < min (firstLen u.batchVars) (minLen u.batchVars) := by
          omega
        rw [batchedPair_eq]
        rw [varsAt_ok ((lt_minLen_iff hne).mp (by omega))]
        rw [ok_bind, (hfmt t htm).1, ok_bind, (hfmt t htm).2, ok_bind]
      rw [batchedConfigs_eq_of_ne u hne]
      by_cases hcase : minLen u.batchVars < firstLen u.batchVars
      · have hk : min (firstLen u.batchVars) (minLen u.batchVars)
            = minLen u.batchVars := Nat.min_eq_right (Nat.le_of_lt hcase)
        rw [hk]
        rw [if_pos (by omega)]
        have herr : batchedPair u (0 + minLen u.batchVars)
            = .error .indexError := by
          rw [batchedPair_eq]
          obtain ⟨q, hq, hql⟩ := minLen_attained hne
          rw [varsAt_err ⟨q, hq, by omega⟩]
          rfl
        rw [batchedAux_err u (fun t => (fullNameOf u (fn t) none, cfg t))
          .indexError (minLen u.batchVars) (firstLen u.batchVars) 0 hcase
          (fun t ht₁ ht₂ => hpair t ht₁ (by omega)) herr]
        simp
      · have hk : min (firstLen u.batchVars) (minLen u.batchVars)
            = firstLen u.batchVars := Nat.min_eq_left (Nat.le_of_not_lt hcase)
        rw [hk]
        rw [if_neg (by omega)]
        rw [batchedAux_ok u (fun t => (fullNameOf u (fn t) none, cfg t))
          (firstLen u.batchVars) 0 (fun t ht₁ ht₂ => hpair t ht₁ (by omega))]
        simp

/-- Claim C4, witness for the amended behaviour: `{a:[1,2], b:[1]}` on a
placeholder-free document yields the single pair for index 0 — whose file
is written — and then the `IndexError`. -/
theorem batch_mismatch_behavior_witness :
    batchedConfigs ⟨['u', '-', '{', 'a', '}', '-', '{', 'b', '}'],
        "service".data, false, true,
        [(['a'], [['1'], ['2']]), (['b'], [['1']])],
        ⟨[⟨"Unit".data, false, []⟩], []⟩⟩
      = ([(['u', '-', '1', '-', '1', '.'] ++ "service".data,
            ⟨[⟨"Unit".data, false, []⟩], []⟩)], some .indexError) := by
  have h := batch_mismatch_behavior
    ⟨['u', '-', '{', 'a', '}', '-', '{', 'b', '}'],
        "service".data, false, true,
        [(['a'], [['1'], ['2']]), (['b'], [['1']])],
        ⟨[⟨"Unit".data, false, []⟩], []⟩⟩
    (fun _ => ['u', '-', '1', '-', '1'])
    (fun _ => ⟨[⟨"Unit".data, false, []⟩], []⟩)
    (by
      intro i hi
      have hi2 : i < 1 := by
        have h1 : i < minLen [((['a'] : Str), [['1'], ['2']]), (['b'], [['1']])] :=
          (Nat.lt_min.mp hi).2
        simpa [minLen] using h1
      interval_cases i
      · exact ⟨by decide, by decide⟩)
  rw [h]
  decide

/-! ## C8: preservation of the multi-option marking invariant -/

theorem multiInvB_eq_true_iff (d : Doc) : multiInvB d = true ↔
    ∀ s ∈ d.secs, ∀ kv ∈ s.opts,
      ((s.name, kv.1) ∈ d.multi → isVlist kv.2 = true) ∧
      ((s.name, kv.1) ∉ d.multi → isVlist kv.2 = false) := by
  rw [multiInvB, List.all_eq_true]
  constructor
  · intro h s hs kv hkv
    have h3 := List.all_eq_true.mp (h s hs) kv hkv
    by_cases hm : (s.name, kv.1) ∈ d.multi
    · rw [if_pos hm] at h3
      exact ⟨fun _ => h3, fun hc => absurd hm hc⟩
    · rw [if_neg hm] at h3
      exact ⟨fun hc => absurd hc hm, fun _ => by simpa using h3⟩
  · intro h s hs
    rw [List.all_eq_true]
    intro kv hkv
    by_cases hm : (s.name, kv.1) ∈ d.multi
    · rw [if_pos hm]
      exact (h s hs kv hkv).1 hm
    · rw [if_neg hm]
      have h4 := (h s hs kv hkv).2 hm
      simp [h4]

theorem nodupDoc_eq_true_iff (d : Doc) : nodupDoc d = true ↔
    (d.secs.map (·.name)).Nodup ∧ ∀ s ∈ d.secs, (s.opts.map Prod.fst).Nodup := by
  rw [nodupDoc]
  simp [List.all_eq_true]

/-- Key set of an assignment result: at most the old keys plus the new one. -/
theorem optSet_fst_sub {opts : List (Str × Val)} {k : Str} {v : Val} {x : Str}
    (h : x ∈ (optSet opts k v).map Prod.fst) :
    x = k ∨ x ∈ opts.map Prod.fst := by
  induction opts with
  | nil =>
    rw [optSet] at h
    simp only [List.map_cons, List.map_nil, List.mem_singleton] at h
    exact Or.inl h
  | cons p rest ih =>
    obtain ⟨a, b⟩ := p
    rw [optSet] at h
    by_cases ha : a = k
    · rw [if_pos ha] at h
      simp only [List.map_cons, List.mem_cons] at h
      rcases h with h1 | h1
      · exact Or.inl h1
      · exact Or.inr (by simp only [List.map_cons, List.mem_cons]; exact Or.inr h1)
    · rw [if_neg ha] at h
      simp only [List.map_cons, List.mem_cons] at h
      rcases h with h1 | h1
      · exact Or.inr (by simp only [List.map_cons, List.mem_cons]; exact Or.inl h1)
      · rcases ih h1 with h2 | h2
        · exact Or.inl h2
        · exact Or.inr (by simp only [List.map_cons, List.mem_cons]; exact Or.inr h2)

/-- Assignment into a duplicate-free dictionary keeps its keys duplicate
free. -/
theorem optSet_keys_nodup {opts : List (Str × Val)} (k : Str) (v : Val)
    (hnd : (opts.map Prod.fst).Nodup) :
    ((optSet opts k v).map Prod.fst).Nodup := by
  induction opts with
  | nil =>
    rw [optSet]
    exact List.nodup_singleton k
  | cons p rest ih =>
    obtain ⟨a, b⟩ := p
    simp only [List.map_cons, List.nodup_cons] at hnd
    rw [optSet]
    by_cases ha : a = k
    · rw [if_pos ha]
      simp only [List.map_cons, List.nodup_cons]
      rw [← ha]
      exact hnd
    · rw [if_neg ha]
      simp only [List.map_cons, List.nodup_cons]
      refine ⟨?_, ih hnd.2⟩
      intro hmem
      rcases optSet_fst_sub hmem with h1 | h1
      · exact ha h1
      · exact hnd.1 h1

/-- In a duplicate-free dictionary, an entry of the assignment result is
either the assigned pair or an untouched old entry with a different key. -/
theorem optSet_mem_of_nodup {opts : List (Str × Val)} {k : Str} {v : Val}
    (hnd : (opts.map Prod.fst).Nodup) {kv : Str × Val}
    (h : kv ∈ optSet opts k v) :
    kv = (k, v) ∨ (kv ∈ opts ∧ kv.1 ≠ k) := by
  induction opts with
  | nil =>
    rw [optSet] at h
    exact Or.inl (List.mem_singleton.mp h)
  | cons p rest ih =>
    obtain ⟨a, b⟩ := p
    simp only [List.map_cons, List.nodup_cons] at hnd
    rw [optSet] at h
    by_cases ha : a = k
    · rw [if_pos ha] at h
      rcases List.mem_cons.mp h with h1 | h1
      · exact Or.inl h1
      · refine Or.inr ⟨List.mem_cons_of_mem _ h1, ?_⟩
        intro hkk
        have h2 : kv.1 ∈ rest.map Prod.fst := List.mem_map_of_mem _ h1
        rw [hkk, ← ha] at h2
        exact hnd.1 h2
    · rw [if_neg ha] at h
      rcases List.mem_cons.mp h with h1 | h1
      · refine Or.inr ⟨?_, ?_⟩
        · rw [h1]; exact List.mem_cons_self _ _
        · rw [h1]; exact ha
      · rcases ih hnd.2 h1 with h2 | ⟨h3, h4⟩
        · exact Or.inl h2
        · exact Or.inr ⟨List.mem_cons_of_mem _ h3, h4⟩

/-- With duplicate-free section names, a section of a `secMod` result is
either an untouched section with a different name or the image of the
(unique) modified one. -/
theorem secMod_mem_of_nodup {secs : List Sec} {n : Str} {f : Sec → Sec}
    (hnd : (secs.map (·.name)).Nodup) {s : Sec}
    (h : s ∈ secMod secs n f) :
    (s ∈ secs ∧ s.name ≠ n) ∨ ∃ t ∈ secs, t.name = n ∧ s = f t := by
  induction secs with
  | nil =>
    rw [secMod] at h
    exact absurd h (List.not_mem_nil s)
  | cons a rest ih =>
    simp only [List.map_cons, List.nodup_cons] at hnd
    rw [secMod] at h
    by_cases ha : a.name = n
    · rw [if_pos ha] at h
      rcases List.mem_cons.mp h with h1 | h1
      · exact Or.inr ⟨a, List.mem_cons_self a rest, ha, h1⟩
      · refine Or.inl ⟨List.mem_cons_of_mem a h1, ?_⟩
        intro hsn
        have h2 : s.name ∈ rest.map (·.name) := List.mem_map_of_mem _ h1
        rw [hsn, ← ha] at h2
        exact hnd.1 h2
    · rw [if_neg ha] at h
      rcases List.mem_cons.mp h with h1 | h1
      · refine Or.inl ⟨?_, ?_⟩
        · rw [h1]; exact List.mem_cons_self a rest
        · rw [h1]; exact ha
      · rcases ih hnd.2 h1 with ⟨h2, h3⟩ | ⟨t, ht, h4, h5⟩
        · exact Or.inl ⟨List.mem_cons_of_mem a h2, h3⟩
        · exact Or.inr ⟨t, List.mem_cons_of_mem a ht, h4, h5⟩

/-- A failed section lookup means the name is absent. -/
theorem secGet_none_not_mem {secs : List Sec} {n : Str}
    (h : secGet secs n = none) : n ∉ secs.map (·.name) := by
  induction secs with
  | nil => simp
  | cons s rest ih =>
    rw [secGet] at h
    by_cases hs : s.name = n
    · rw [if_pos hs] at h
      cases h
    · rw [if_neg hs] at h
      simp only [List.map_cons, List.mem_cons]
      push_neg
      exact ⟨fun hc => hs hc.symm, ih h⟩

/-- The read-time invariant survives the buffer-update shape shared by all
the list-writing branches of `_read`: storing a list under some key of some
section, while the marking set at most gains that very pair. -/
theorem stInv_update {secs : List Sec} {multi mtwo : List (Str × Str)}
    {sn k : Str} {xs : List Str}
    (hQ : stInv secs multi)
    (hmul : ∀ p ∈ mtwo, p ∈ multi ∨ p = (sn, k)) :
    stInv (secMod secs sn (fun s => { s with opts := optSet s.opts k (.vlist xs) })) mtwo := by
  obtain ⟨hq, hn, hk⟩ := hQ
  refine ⟨?_, ?_, ?_⟩
  · intro s2 hs2 kv hkv hm
    rcases secMod_mem_of_nodup hn hs2 with ⟨hmem, hne⟩ | ⟨t, hts, htn, hst⟩
    · rcases hmul _ hm with h1 | h1
      · exact hq s2 hmem kv hkv h1
      · exact absurd (congrArg Prod.fst h1) hne
    · have hkv2 : kv ∈ optSet t.opts k (.vlist xs) := by rw [hst] at hkv; exact hkv
      rcases optSet_mem_of_nodup (hk t hts) hkv2 with h1 | ⟨h2, h3⟩
      · rw [h1]; rfl
      · have hsn2 : s2.name = sn := by rw [hst]; exact htn
        rcases hmul _ hm with h4 | h4
        · refine hq t hts kv h2 ?_
          have hpt : ((t.name, kv.1) : Str × Str) = (s2.name, kv.1) := by
            rw [hsn2, htn]
          rw [hpt]
          exact h4
        · exact absurd (congrArg Prod.snd h4) h3
  · have hmap := @secMod_map_name secs sn
      (fun s => { s with opts := optSet s.opts k (Val.vlist xs) }) (fun t => rfl)
    rw [hmap]
    exact hn
  · intro s2 hs2
    rcases secMod_mem_of_nodup hn hs2 with ⟨hmem, _⟩ | ⟨t, hts, _, hst⟩
    · exact hk s2 hmem
    · rw [hst]
      exact optSet_keys_nodup k (.vlist xs) (hk t hts)

/-- The read-time invariant survives appending a fresh empty section. -/
theorem stInv_addSec {secs : List Sec} {multi : List (Str × Str)} {hdr : Str}
    (hQ : stInv secs multi) (hnew : hdr ∉ secs.map (·.name)) :
    stInv (secs ++ [⟨hdr, false, []⟩]) multi := by
  obtain ⟨hq, hn, hk⟩ := hQ
  refine ⟨?_, ?_, ?_⟩
  · intro s2 hs2 kv hkv hm
    rcases List.mem_append.mp hs2 with h1 | h1
    · exact hq s2 h1 kv hkv hm
    · have h2 : s2 = ⟨hdr, false, []⟩ := List.mem_singleton.mp h1
      rw [h2] at hkv
      exact absurd hkv (List.not_mem_nil kv)
  · rw [List.map_append]
    simp only [List.map_cons, List.map_nil]
    refine List.Nodup.append hn (List.nodup_singleton _) ?_
    intro x hx hx2
    have h3 : x = hdr := List.mem_singleton.mp hx2
    rw [h3] at hx
    exact hnew hx
  · intro s2 hs2
    rcases List.mem_append.mp hs2 with h1 | h1
    · exact hk s2 h1
    · have h2 : s2 = ⟨hdr, false, []⟩ := List.mem_singleton.mp h1
      rw [h2]
      exact List.nodup_nil

/-- A successful continuation-buffer append keeps the read-time invariant. -/
theorem bufAppend_stInv {st st2 : PState} {sn onm x : Str}
    (hQ : stInv st.secs st.multi)
    (h : bufAppend st sn onm x = .ok st2) :
    stInv st2.secs st2.multi := by
  rw [bufAppend] at h
  cases hg : secGet st.secs sn with
  | none => rw [hg] at h; cases h
  | some sec =>
    rw [hg] at h
    dsimp only at h
    cases ho : optGet sec.opts onm with
    | none => rw [ho] at h; cases h
    | some v =>
      rw [ho] at h
      cases v with
      | vnone => cases h
      | vstr t => cases h
      | vlist b =>
        cases h
        exact stInv_update hQ (fun p hp => Or.inl hp)

/-- A lookup that is not `isSome` is `none`. -/
theorem secGet_not_isSome {secs : List Sec} {n : Str}
    (h : ¬(secGet secs n).isSome = true) : secGet secs n = none := by
  cases hg : secGet secs n with
  | none => rfl
  | some s => rw [hg] at h; exact absurd rfl h

/-- One line of `_read` keeps the read-time invariant. -/
theorem stepLine_stInv {st st2 : PState} {line : Str}
    (hQ : stInv st.secs st.multi)
    (h : stepLine st line = .ok st2) :
    stInv st2.secs st2.multi := by
  rw [stepLine] at h
  dsimp only at h
  repeat' split at h
  all_goals try cases h
  all_goals
    first
    | exact hQ
    | exact bufAppend_stInv hQ h
    | exact stInv_update hQ (fun p hp => Or.inl hp)
    | exact stInv_update hQ (fun p hp => (multiAdd_mem.mp hp).imp id id)
    | exact stInv_addSec hQ (secGet_none_not_mem (secGet_not_isSome (by assumption)))

/-- The whole line loop keeps the read-time invariant. -/
theorem runLines_stInv {lines : List Str} {st st2 : PState}
    (hQ : stInv st.secs st.multi)
    (h : runLines st lines = .ok st2) :
    stInv st2.secs st2.multi := by
  induction lines generalizing st with
  | nil =>
    rw [runLines] at h
    cases h
    exact hQ
  | cons l ls ih =>
    rw [runLines] at h
    cases hs : stepLine st l with
    | error e => rw [hs] at h; cases h
    | ok st1 =>
      rw [hs] at h
      exact ih (stepLine_stInv hQ hs) h

/-- After `_join_multiline_values`, the marked-implies-list half of the
invariant upgrades to the full invariant: unmarked values are newline
joined into scalars (or kept as scalars or None), never lists. -/
theorem multiInv_joined {secs : List Sec} {multi : List (Str × Str)}
    (hQ : ∀ s ∈ secs, ∀ kv ∈ s.opts, (s.name, kv.1) ∈ multi → isVlist kv.2 = true) :
    multiInvB ⟨joinSecs multi secs, multi⟩ = true := by
  rw [multiInvB, List.all_eq_true]
  intro s2 hs2
  rw [List.all_eq_true]
  intro kv2 hkv2
  rw [joinSecs] at hs2
  rcases List.mem_map.mp hs2 with ⟨s, hs, rfl⟩
  have hkv3 : kv2 ∈ s.opts.map
      (fun kv => (kv.1, joinVal (decide ((s.name, kv.1) ∈ multi)) kv.2)) := hkv2
  rcases List.mem_map.mp hkv3 with ⟨kv, hkv, rfl⟩
  show (if (s.name, kv.1) ∈ multi
        then isVlist (joinVal (decide ((s.name, kv.1) ∈ multi)) kv.2)
        else !isVlist (joinVal (decide ((s.name, kv.1) ∈ multi)) kv.2)) = true
  by_cases hm : (s.name, kv.1) ∈ multi
  · rw [if_pos hm, decide_eq_true hm]
    have hv := hQ s hs kv hkv hm
    cases hv2 : kv.2 with
    | vnone => rw [hv2] at hv; exact absurd hv (by simp [isVlist])
    | vstr t => rw [hv2] at hv; exact absurd hv (by simp [isVlist])
    | vlist xs => rfl
  · rw [if_neg hm, decide_eq_false hm]
    cases kv.2 with
    | vnone => rfl
    | vstr t => rfl
    | vlist xs => rfl

/-- `set` with `multioption=True` preserves the marking invariant: the pair
is marked and simultaneously stores a (wrapped) list. -/
theorem multiInv_setOp_true {d : Doc} {sn k : Str} {v : Val} {d2 : Doc}
    (hinv : multiInvB d = true) (hnd : nodupDoc d = true)
    (h : setOp d sn k v true = .ok d2) : multiInvB d2 = true := by
  obtain ⟨hn1, hn2⟩ := (nodupDoc_eq_true_iff d).mp hnd
  rw [setOp] at h
  cases hg : secGet d.secs sn with
  | none => rw [hg] at h; cases h
  | some sec =>
    rw [hg] at h
    cases h
    rw [multiInvB_eq_true_iff]
    intro s2 hs2 kv hkv
    rcases secMod_mem_of_nodup hn1 hs2 with ⟨hmem, hne⟩ | ⟨t, hts, htn, hst⟩
    · have hpair : ((s2.name, kv.1) : Str × Str) ≠ (sn, k) :=
        fun hc => hne (congrArg Prod.fst hc)
      have hbase := (multiInvB_eq_true_iff d).mp hinv s2 hmem kv hkv
      constructor
      · intro hm
        rcases multiAdd_mem.mp hm with h1 | h1
        · exact hbase.1 h1
        · exact absurd h1 hpair
      · intro hm
        exact hbase.2 (fun hc => hm (multiAdd_mem.mpr (Or.inl hc)))
    · have hsn2 : s2.name = sn := by rw [hst]; exact htn
      have hkv2 : kv ∈ optSet t.opts k (wrapList v) := by rw [hst] at hkv; exact hkv
      rcases optSet_mem_of_nodup (hn2 t hts) hkv2 with h1 | ⟨h2, h3⟩
      · have hk1 : kv.1 = k := by rw [h1]
        constructor
        · intro _
          rw [h1]
          cases v <;> rfl
        · intro hm
          refine absurd (multiAdd_mem.mpr (Or.inr ?_)) hm
          rw [hsn2, hk1]
      · have hbase := (multiInvB_eq_true_iff d).mp hinv t hts kv h2
        have hpair : ((s2.name, kv.1) : Str × Str) ≠ (sn, k) :=
          fun hc => h3 (congrArg Prod.snd hc)
        have hpt : ((s2.name, kv.1) : Str × Str) = (t.name, kv.1) := by
          rw [hsn2, htn]
        constructor
        · intro hm
          rcases multiAdd_mem.mp hm with h4 | h4
          · refine hbase.1 ?_
            rw [← hpt]
            exact h4
          · exact absurd h4 hpair
        · intro hm
          refine hbase.2 (fun hc => hm (multiAdd_mem.mpr (Or.inl ?_)))
          rw [hpt]
          exact hc

/-- `set` of a scalar with `multioption=False` on an unmarked pair
preserves the marking invariant. -/
theorem multiInv_setOp_false {d : Doc} {sn k : Str} {v : Val} {d2 : Doc}
    (hinv : multiInvB d = true) (hnd : nodupDoc d = true)
    (hv : isVlist v = false) (hm0 : (sn, k) ∉ d.multi)
    (h : setOp d sn k v false = .ok d2) : multiInvB d2 = true := by
  obtain ⟨hn1, hn2⟩ := (nodupDoc_eq_true_iff d).mp hnd
  rw [setOp] at h
  cases hg : secGet d.secs sn with
  | none => rw [hg] at h; cases h
  | some sec =>
    rw [hg] at h
    cases h
    rw [multiInvB_eq_true_iff]
    intro s2 hs2 kv hkv
    rcases secMod_mem_of_nodup hn1 hs2 with ⟨hmem, hne⟩ | ⟨t, hts, htn, hst⟩
    · exact (multiInvB_eq_true_iff d).mp hinv s2 hmem kv hkv
    · have hsn2 : s2.name = sn := by rw [hst]; exact htn
      have hkv2 : kv ∈ optSet t.opts k v := by rw [hst] at hkv; exact hkv
      rcases optSet_mem_of_nodup (hn2 t hts) hkv2 with h1 | ⟨h2, h3⟩
      · have hk1 : kv.1 = k := by rw [h1]
        constructor
        · intro hm
          refine absurd ?_ hm0
          have hpt : ((s2.name, kv.1) : Str × Str) = (sn, k) := by rw [hsn2, hk1]
          rw [← hpt]
          exact hm
        · intro _
          rw [h1]
          exact hv
      · have hbase := (multiInvB_eq_true_iff d).mp hinv t hts kv h2
        have hpt : ((s2.name, kv.1) : Str × Str) = (t.name, kv.1) := by
          rw [hsn2, htn]
        constructor
        · intro hm
          refine hbase.1 ?_
          rw [← hpt]
          exact hm
        · intro hm
          refine hbase.2 ?_
          rw [hpt] at hm
          exact hm

/-- `append` preserves the marking invariant: it always stores through
`set` with `multioption=True`. -/
theorem multiInv_appendOp {d : Doc} {sn k x : Str} {d2 : Doc}
    (hinv : multiInvB d = true) (hnd : nodupDoc d = true)
    (h : appendOp d sn k x = .ok d2) : multiInvB d2 = true := by
  rw [appendOp] at h
  cases hg : secGet d.secs sn with
  | none => rw [hg] at h; cases h
  | some sec =>
    rw [hg] at h
    exact multiInv_setOp_true hinv hnd h

/-- A successful `read_config`-style parse into a document preserves the
marking invariant. -/
theorem multiInv_readInto {d : Doc} {lines : List Str} {d2 : Doc}
    (hinv : multiInvB d = true) (hnd : nodupDoc d = true)
    (h : readInto d lines = .ok d2) : multiInvB d2 = true := by
  obtain ⟨hn1, hn2⟩ := (nodupDoc_eq_true_iff d).mp hnd
  rw [readInto] at h
  cases hr : runLines ⟨d.secs, d.multi, none, none, 0, false⟩ lines with
  | error e =>
    rw [hr, error_bind] at h
    cases h
  | ok st =>
    rw [hr, ok_bind] at h
    split at h
    · cases h
    · cases h
      have hQ0 : stInv d.secs d.multi :=
        ⟨fun s hs kv hkv hm => ((multiInvB_eq_true_iff d).mp hinv s hs kv hkv).1 hm,
         hn1, hn2⟩
      have hQ := runLines_stInv hQ0 hr
      exact multiInv_joined hQ.1

/-- C8: the multi-option marking invariant is preserved by every mutation
path the code has, under the conditions the code actually establishes: on a
document whose marked pairs all hold lists and whose unmarked pairs never
do (and whose dictionaries are duplicate-free, as Python dictionaries are),
(1) `set` with `multioption=True`, (2) `set` of a scalar value with
`multioption=False` on an unmarked pair, (3) `append`, and (4) a successful
parse of further lines each yield a document satisfying the invariant
again.  (Unrestricted `set` does not preserve it: see the counterexample
for `set(..., list, multioption=False)`.) -/
theorem multi_marking_invariant (d : Doc) (sn k : Str) (lines : List Str)
    (hinv : multiInvB d = true) (hnd : nodupDoc d = true) :
    (∀ v d2, setOp d sn k v true = .ok d2 → multiInvB d2 = true) ∧
    (∀ v d2, isVlist v = false → (sn, k) ∉ d.multi →
        setOp d sn k v false = .ok d2 → multiInvB d2 = true) ∧
    (∀ x d2, appendOp d sn k x = .ok d2 → multiInvB d2 = true) ∧
    (∀ d2, readInto d lines = .ok d2 → multiInvB d2 = true) :=
  ⟨fun _ _ h => multiInv_setOp_true hinv hnd h,
   fun _ _ hv hm h => multiInv_setOp_false hinv hnd hv hm h,
   fun _ _ h => multiInv_appendOp hinv hnd h,
   fun _ h => multiInv_readInto hinv hnd h⟩

/-- Witness for C8: on the one-section document with section S and no
options — which satisfies the invariant and is duplicate-free — a
`set("S", "k", "v", multioption=True)` yields exactly the marked
one-element-list document, which satisfies the invariant. -/
theorem multi_marking_invariant_witness :
    multiInvB ⟨[⟨['S'], false, []⟩], []⟩ = true ∧
    nodupDoc ⟨[⟨['S'], false, []⟩], []⟩ = true ∧
    multiInvB ⟨[⟨['S'], false, [(['k'], .vlist [['v']])]⟩], [(['S'], ['k'])]⟩ = true :=
  ⟨by decide, by decide,
   (multi_marking_invariant ⟨[⟨['S'], false, []⟩], []⟩ ['S'] ['k'] []
      (by decide) (by decide)).1 (.vstr ['v'])
      ⟨[⟨['S'], false, [(['k'], .vlist [['v']])]⟩], [(['S'], ['k'])]⟩ (by decide)⟩

/-! ## C6: what `read_config` actually does to the document -/

/-- A name absent from the section names is not found. -/
theorem secGet_eq_none_of_not_mem {secs : List Sec} {n : Str}
    (h : n ∉ secs.map (·.name)) : secGet secs n = none := by
  induction secs with
  | nil => rfl
  | cons s rest ih =>
    rw [secGet]
    simp only [List.map_cons, List.mem_cons, not_or] at h
    rw [if_neg (fun hc => h.1 hc.symm)]
    exact ih h.2

/-- Lookup in a concatenation finds the marked section when its name does
not occur earlier. -/
theorem secGet_append_first {front bs : List Sec} {s : Sec}
    (h : s.name ∉ front.map (·.name)) :
    secGet (front ++ s :: bs) s.name = some s := by
  rw [secGet_append_of_none (secGet_eq_none_of_not_mem h)]
  rw [secGet]
  rw [if_pos rfl]

/-- `secMod` skips a prefix that does not hold the name. -/
theorem secMod_append_not_mem {front bs : List Sec} {n : Str} {f : Sec → Sec}
    (h : n ∉ front.map (·.name)) :
    secMod (front ++ bs) n f = front ++ secMod bs n f := by
  induction front with
  | nil => rfl
  | cons s rest ih =>
    simp only [List.map_cons, List.mem_cons, not_or] at h
    rw [List.cons_append, secMod]
    rw [if_neg (fun hc => h.1 hc.symm)]
    rw [ih h.2]
    rfl

/-- `secDel` skips a prefix that does not hold the name. -/
theorem secDel_append_not_mem {front bs : List Sec} {n : Str}
    (h : n ∉ front.map (·.name)) :
    secDel (front ++ bs) n = front ++ secDel bs n := by
  induction front with
  | nil => rfl
  | cons s rest ih =>
    simp only [List.map_cons, List.mem_cons, not_or] at h
    rw [List.cons_append, secDel]
    rw [if_neg (fun hc => h.1 hc.symm)]
    rw [ih h.2]
    rfl

/-- Modifying only the options of a section leaves the name list alone. -/
theorem secMod_opts_map_name (secs : List Sec) (n : Str)
    (g : Sec → List (Str × Val)) :
    (secMod secs n (fun s => { s with opts := g s })).map (·.name)
      = secs.map (·.name) := by
  induction secs with
  | nil => rfl
  | cons s rest ih =>
    rw [secMod]
    by_cases hs : s.name = n
    · rw [if_pos hs]
      simp only [List.map_cons]
    · rw [if_neg hs]
      simp only [List.map_cons, ih]

/-- Assigning a fresh key appends the pair. -/
theorem optSet_append_fresh {acc : List (Str × Val)} {k : Str} {v : Val}
    (h : k ∉ acc.map Prod.fst) :
    optSet acc k v = acc ++ [(k, v)] := by
  induction acc with
  | nil => rfl
  | cons p rest ih =>
    obtain ⟨a, b⟩ := p
    simp only [List.map_cons, List.mem_cons, not_or] at h
    rw [optSet]
    rw [if_neg (fun hc => h.1 hc.symm)]
    rw [ih h.2]
    rfl

/-- Copying options one by one into the uniquely named final section
appends them in order. -/
theorem setAllOpts_last (opts : List (Str × Val)) (pre : List Sec)
    (r : Str) (b : Bool) (acc : List (Str × Val)) (multi : List (Str × Str))
    (hfresh : r ∉ pre.map (·.name))
    (hdisj : ∀ k ∈ opts.map Prod.fst, k ∉ acc.map Prod.fst)
    (hnd : (opts.map Prod.fst).Nodup) :
    extOne.setAllOpts ⟨pre ++ [⟨r, b, acc⟩], multi⟩ r opts
      = .ok ⟨pre ++ [⟨r, b, acc ++ opts⟩], multi⟩ := by
  induction opts generalizing acc with
  | nil => simp [extOne.setAllOpts]
  | cons kv rest ih =>
    obtain ⟨k, v⟩ := kv
    simp only [List.map_cons, List.mem_cons, List.nodup_cons] at hdisj hnd
    have hg : secGet (pre ++ [⟨r, b, acc⟩]) r = some ⟨r, b, acc⟩ := by
      rw [secGet_append_of_none (secGet_eq_none_of_not_mem hfresh)]
      rw [secGet]
      rw [if_pos rfl]
    have hset : setOp ⟨pre ++ [⟨r, b, acc⟩], multi⟩ r k v false
        = .ok ⟨pre ++ [⟨r, b, acc ++ [(k, v)]⟩], multi⟩ := by
      rw [setOp, hg]
      dsimp only
      rw [secMod_append_not_mem hfresh]
      rw [secMod]
      rw [if_pos rfl]
      dsimp only
      rw [optSet_append_fresh (hdisj k (Or.inl rfl))]
      rfl
    have hd2 : ∀ k2 ∈ rest.map Prod.fst, k2 ∉ (acc ++ [(k, v)]).map Prod.fst := by
      intro k2 hk2
      simp only [List.map_append, List.mem_append, List.map_cons, List.map_nil,
        List.mem_singleton, not_or]
      refine ⟨hdisj k2 (Or.inr hk2), ?_⟩
      intro hc
      rw [hc] at hk2
      exact hnd.1 hk2
    rw [extOne.setAllOpts, hset, ok_bind]
    have hd3 : ∀ k2, k2 ∈ rest.map Prod.fst → k2 ∉ (acc ++ [(k, v)]).map Prod.fst :=
      hd2
    rw [ih (acc ++ [(k, v)]) hd3 hnd.2]
    simp

/-- A successful strip determines the name. -/
theorem xStrip_some {n r : Str} (h : xStrip n = some r) :
    n = 'x' :: '-' :: r := by
  rw [xStrip.eq_def] at h
  split at h
  · rename_i t
    cases h
    rfl
  · cases h

/-- `intOne` leaves the document alone on a name without the `x-` prefix. -/
theorem intOne_nonx {d : Doc} {n : Str} (hn : xStrip n = none) :
    intOne d n = .ok d := by
  rw [intOne.eq_def]
  split
  · rename_i intSect
    rw [xStrip] at hn
    cases hn
  · rfl

/-- Unfolding of `intOne` at an `x-` prefixed name. -/
theorem intOne_eq_x (d : Doc) (r : Str) :
    intOne d ('x' :: '-' :: r)
      = match secGet d.secs ('x' :: '-' :: r) with
        | none => .ok d
        | some sec =>
            addSection d r >>= fun d1 =>
            extOne.setAllOpts d1 r sec.opts >>= fun d2 =>
            .ok (setInternalFlag ⟨secDel d2.secs ('x' :: '-' :: r), d2.multi⟩ r true) := rfl

/-- The `intOne` pass on an `x-` named section: a stripped twin carrying
the same options is appended at the end, the original section is deleted,
and the twin is marked internal. -/
theorem intOne_x {front rem2 back : List Sec} {multi : List (Str × Str)}
    {s : Sec} {r : Str}
    (hx : s.name = 'x' :: '-' :: r)
    (hfront : s.name ∉ front.map (·.name))
    (hfreshr : r ∉ (front ++ s :: rem2 ++ back).map (·.name))
    (hknd : (s.opts.map Prod.fst).Nodup) :
    intOne ⟨front ++ s :: rem2 ++ back, multi⟩ s.name
      = .ok ⟨front ++ rem2 ++ back ++ [⟨r, true, s.opts⟩], multi⟩ := by
  have hget : secGet (front ++ s :: rem2 ++ back) ('x' :: '-' :: r) = some s := by
    rw [← hx, List.append_assoc, List.cons_append]
    exact secGet_append_first hfront
  have hxf : ('x' :: '-' :: r) ∉ front.map (·.name) := by
    rw [← hx]; exact hfront
  have hmem_sub : ∀ x, x ∈ front.map (·.name) ∨ x ∈ (rem2 ++ back).map (·.name) →
      x ∈ (front ++ s :: rem2 ++ back).map (·.name) := by
    intro x hx2
    simp only [List.map_append, List.map_cons, List.mem_append, List.mem_cons] at hx2 ⊢
    tauto
  have hrf : r ∉ front.map (·.name) := fun h => hfreshr (hmem_sub r (Or.inl h))
  have hrb : r ∉ (rem2 ++ back).map (·.name) := fun h => hfreshr (hmem_sub r (Or.inr h))
  rw [hx, intOne_eq_x]
  rw [hget]
  show (addSection ⟨front ++ s :: rem2 ++ back, multi⟩ r >>= fun d1 =>
        extOne.setAllOpts d1 r s.opts >>= fun d2 =>
        Except.ok (setInternalFlag ⟨secDel d2.secs ('x' :: '-' :: r), d2.multi⟩ r true))
      = Except.ok ⟨front ++ rem2 ++ back ++ [⟨r, true, s.opts⟩], multi⟩
  have hadd : addSection ⟨front ++ s :: rem2 ++ back, multi⟩ r
      = .ok ⟨(front ++ s :: rem2 ++ back) ++ [⟨r, false, []⟩], multi⟩ := by
    rw [addSection, secGet_eq_none_of_not_mem hfreshr]
    rfl
  rw [hadd, ok_bind]
  rw [setAllOpts_last s.opts (front ++ s :: rem2 ++ back) r false [] multi hfreshr
    (fun k hk => by simp) hknd]
  rw [ok_bind]
  dsimp only
  have hrb2 : r ∉ rem2.map (·.name) := by
    intro h
    exact hrb (by simp only [List.map_append, List.mem_append]; exact Or.inl h)
  have hrb3 : r ∉ back.map (·.name) := by
    intro h
    exact hrb (by simp only [List.map_append, List.mem_append]; exact Or.inr h)
  have hdel : secDel ((front ++ s :: rem2 ++ back) ++ [⟨r, false, [] ++ s.opts⟩])
        ('x' :: '-' :: r)
      = front ++ (rem2 ++ (back ++ [⟨r, false, [] ++ s.opts⟩])) := by
    rw [List.append_assoc, List.append_assoc]
    rw [secDel_append_not_mem hxf]
    rw [List.cons_append]
    rw [secDel]
    rw [if_pos hx]
  rw [hdel]
  rw [setInternalFlag]
  dsimp only
  rw [secMod_append_not_mem hrf]
  rw [secMod_append_not_mem hrb2]
  rw [secMod_append_not_mem hrb3]
  rw [secMod]
  rw [if_pos rfl]
  simp [List.append_assoc]

/-- The shape of a full `_internalise_internals` run: with the
already-processed non-`x` sections in `front` and the already-stripped
twins in `back`, processing the remaining sections in order leaves every
non-`x` section in place and moves every `x-` section — stripped, options
kept, marked internal — to the end, in order. -/
theorem runInt_shape (rem : List Sec) :
    ∀ (front back : List Sec) (multi : List (Str × Str)),
    ((front ++ rem ++ back).map (·.name)).Nodup →
    (∀ s ∈ rem, ∀ r, xStrip s.name = some r →
        r ∉ (front ++ rem ++ back).map (·.name)) →
    (∀ s ∈ rem, (s.opts.map Prod.fst).Nodup) →
    runInt ⟨front ++ rem ++ back, multi⟩ (rem.map (·.name)) =
      .ok ⟨(front ++ rem.filter (fun s => (xStrip s.name).isNone)) ++
           (back ++ rem.filterMap (fun s =>
              (xStrip s.name).map (fun r => (⟨r, true, s.opts⟩ : Sec)))),
           multi⟩ := by
  induction rem with
  | nil =>
    intro front back multi hnd hfresh hknd
    rw [List.map_nil, runInt]
    simp
  | cons s rem2 ih =>
    intro front back multi hnd hfresh hknd
    rw [List.map_cons, runInt]
    cases hxs : xStrip s.name with
    | none =>
      rw [intOne_nonx hxs, ok_bind]
      have hEqL : front ++ s :: rem2 ++ back = (front ++ [s]) ++ rem2 ++ back := by
        simp
      have hnd2 : (((front ++ [s]) ++ rem2 ++ back).map (·.name)).Nodup := by
        rw [← hEqL]; exact hnd
      have hfresh2 : ∀ s2 ∈ rem2, ∀ r2, xStrip s2.name = some r2 →
          r2 ∉ ((front ++ [s]) ++ rem2 ++ back).map (·.name) := by
        intro s2 hs2 r2 hr2
        rw [← hEqL]
        exact hfresh s2 (List.mem_cons_of_mem s hs2) r2 hr2
      have hknd2 : ∀ s2 ∈ rem2, (s2.opts.map Prod.fst).Nodup :=
        fun s2 h => hknd s2 (List.mem_cons_of_mem s h)
      rw [hEqL]
      rw [ih (front ++ [s]) back multi hnd2 hfresh2 hknd2]
      simp [List.filter_cons, List.filterMap_cons, hxs, List.append_assoc]
    | some r =>
      have hx := xStrip_some hxs
      have hnda := hnd
      simp only [List.map_append, List.map_cons, List.append_assoc,
        List.cons_append] at hnda
      obtain ⟨hndF, hndRest, hdisjF⟩ := List.nodup_append.mp hnda
      obtain ⟨hsnotin, hndRB⟩ := List.nodup_cons.mp hndRest
      obtain ⟨hndR, hndB, hdisjRB⟩ := List.nodup_append.mp hndRB
      have hfrontE : s.name ∉ front.map (·.name) :=
        fun hmem => hdisjF hmem (List.mem_cons_self _ _)
      have hfreshrE : r ∉ (front ++ s :: rem2 ++ back).map (·.name) :=
        hfresh s (List.mem_cons_self _ _) r hxs
      have hrE := hfreshrE
      simp only [List.map_append, List.map_cons, List.append_assoc,
        List.cons_append, List.mem_append, List.mem_cons, not_or] at hrE
      obtain ⟨hrF, hrs, hrR, hrB⟩ := hrE
      rw [intOne_x hx hfrontE hfreshrE (hknd s (List.mem_cons_self _ _)), ok_bind]
      have hEqL : front ++ rem2 ++ back ++ [(⟨r, true, s.opts⟩ : Sec)]
          = front ++ rem2 ++ (back ++ [(⟨r, true, s.opts⟩ : Sec)]) := by
        simp
      rw [hEqL]
      have hnd2 : ((front ++ rem2 ++ (back ++ [(⟨r, true, s.opts⟩ : Sec)])).map
          (·.name)).Nodup := by
        simp only [List.map_append, List.map_cons, List.map_nil,
          List.append_assoc, List.cons_append]
        refine List.nodup_append.mpr ⟨hndF, ?_, ?_⟩
        · refine List.nodup_append.mpr ⟨hndR, ?_, ?_⟩
          · refine List.nodup_append.mpr
              ⟨hndB, List.nodup_singleton r, ?_⟩
            intro a ha hb
            rw [List.mem_singleton.mp hb] at ha
            exact hrB ha
          · intro a ha hb
            rcases List.mem_append.mp hb with h | h
            · exact hdisjRB ha h
            · rw [List.mem_singleton.mp h] at ha
              exact hrR ha
        · intro a ha hb
          rcases List.mem_append.mp hb with h | h
          · exact hdisjF ha (List.mem_cons_of_mem _ (List.mem_append_left _ h))
          · rcases List.mem_append.mp h with h2 | h2
            · exact hdisjF ha (List.mem_cons_of_mem _ (List.mem_append_right _ h2))
            · rw [List.mem_singleton.mp h2] at ha
              exact hrF ha
      have hfresh2 : ∀ s2 ∈ rem2, ∀ r2, xStrip s2.name = some r2 →
          r2 ∉ (front ++ rem2 ++ (back ++ [(⟨r, true, s.opts⟩ : Sec)])).map
            (·.name) := by
        intro s2 hs2 r2 hr2
        have hold := hfresh s2 (List.mem_cons_of_mem s hs2) r2 hr2
        have hne : r2 ≠ r := by
          intro hc
          have h1 := xStrip_some hr2
          have h2 : s2.name = s.name := by rw [h1, hc, ← hx]
          apply hsnotin
          rw [← h2]
          exact List.mem_append_left _ (List.mem_map_of_mem _ hs2)
        intro hmem
        simp only [List.map_append, List.map_cons, List.map_nil,
          List.append_assoc, List.cons_append, List.mem_append,
          List.mem_cons, not_or] at hold
        simp only [List.map_append, List.map_cons, List.map_nil,
          List.append_assoc, List.cons_append, List.mem_append,
          List.mem_cons] at hmem
        tauto
      have hknd2 : ∀ s2 ∈ rem2, (s2.opts.map Prod.fst).Nodup :=
        fun s2 h => hknd s2 (List.mem_cons_of_mem s h)
      rw [ih front (back ++ [(⟨r, true, s.opts⟩ : Sec)]) multi hnd2 hfresh2 hknd2]
      simp [List.filter_cons, List.filterMap_cons, hxs, List.append_assoc]

/-- `_join_multiline_values` does not change the section names. -/
theorem joinSecs_map_name (multi : List (Str × Str)) (secs : List Sec) :
    (joinSecs multi secs).map (·.name) = secs.map (·.name) := by
  rw [joinSecs, List.map_map]
  rfl

/-- A continuation append touches no section names. -/
theorem bufAppend_names {st st2 : PState} {sn onm x : Str}
    (h : bufAppend st sn onm x = .ok st2) :
    st2.secs.map (·.name) = st.secs.map (·.name) := by
  rw [bufAppend] at h
  cases hg : secGet st.secs sn with
  | none => rw [hg] at h; cases h
  | some sec =>
    rw [hg] at h
    dsimp only at h
    cases ho : optGet sec.opts onm with
    | none => rw [ho] at h; cases h
    | some v =>
      rw [ho] at h
      cases v with
      | vnone => cases h
      | vstr t => cases h
      | vlist b =>
        cases h
        exact secMod_opts_map_name _ _ _

/-- One `_read` line can only extend the section-name list. -/
theorem stepLine_names {st st2 : PState} {line : Str}
    (h : stepLine st line = .ok st2) :
    ∃ ext, st2.secs.map (·.name) = st.secs.map (·.name) ++ ext := by
  rw [stepLine] at h
  dsimp only at h
  repeat' split at h
  all_goals try cases h
  all_goals try (refine ⟨[], ?_⟩; rw [bufAppend_names h]; simp; done)
  all_goals try (refine ⟨[], ?_⟩; rw [secMod_opts_map_name]; simp; done)
  all_goals try (refine ⟨[], ?_⟩; simp; done)
  all_goals
    rename_i hdr hq hns
    refine ⟨[hdr], ?_⟩
    simp

/-- The whole line loop only extends the section-name list. -/
theorem runLines_names {lines : List Str} {st st2 : PState}
    (h : runLines st lines = .ok st2) :
    ∃ ext, st2.secs.map (·.name) = st.secs.map (·.name) ++ ext := by
  induction lines generalizing st with
  | nil =>
    rw [runLines] at h
    cases h
    exact ⟨[], by simp⟩
  | cons l ls ih =>
    rw [runLines] at h
    cases hs : stepLine st l with
    | error e => rw [hs] at h; cases h
    | ok st1 =>
      rw [hs] at h
      obtain ⟨e1, he1⟩ := stepLine_names hs
      obtain ⟨e2, he2⟩ := ih h
      exact ⟨e1 ++ e2, by rw [he2, he1, List.append_assoc]⟩

/-- `read` merges: parsing a file into a document keeps every existing
section name (in place), only appending new ones. -/
theorem readInto_names {d : Doc} {lines : List Str} {dm : Doc}
    (h : readInto d lines = .ok dm) :
    ∃ ext, dm.secs.map (·.name) = d.secs.map (·.name) ++ ext := by
  rw [readInto] at h
  cases hr : runLines ⟨d.secs, d.multi, none, none, 0, false⟩ lines with
  | error e => rw [hr, error_bind] at h; cases h
  | ok st =>
    rw [hr, ok_bind] at h
    split at h
    · cases h
    · cases h
      obtain ⟨ext, hext⟩ := runLines_names hr
      exact ⟨ext, by rw [joinSecs_map_name]; exact hext⟩

/-- C6 (corrected): what `read_config` on an existing file actually does.
The file is parsed INTO the current document (configparser `read` merges,
so every previous section name persists — second conjunct), and the merged
state `dm` is then internalised: every `x-S` section reappears as `S` with
the same options, marked internal, moved to the end in order; every other
section stays in place; `_multioptions` is untouched.  The claim's
`x-S ↦ internal S` half is exactly true; the claimed full replacement of
the previous in-memory state is not (see the counterexample). -/
theorem read_internalises (d : Doc) (lines : List Str) (dm : Doc)
    (hread : readInto d lines = .ok dm)
    (hnd : (dm.secs.map (·.name)).Nodup)
    (hknd : ∀ s ∈ dm.secs, (s.opts.map Prod.fst).Nodup)
    (hfresh : ∀ s ∈ dm.secs, ∀ r, xStrip s.name = some r →
        r ∉ dm.secs.map (·.name)) :
    readConfig d lines =
      .ok ⟨dm.secs.filter (fun s => (xStrip s.name).isNone) ++
           dm.secs.filterMap (fun s =>
             (xStrip s.name).map (fun r => (⟨r, true, s.opts⟩ : Sec))),
           dm.multi⟩ ∧
    ∃ ext, dm.secs.map (·.name) = d.secs.map (·.name) ++ ext := by
  constructor
  · rw [readConfig]
    rw [hread, ok_bind]
    rw [internaliseInternals]
    have hEq : ([] : List Sec) ++ dm.secs ++ [] = dm.secs := by simp
    have h0 := runInt_shape dm.secs [] [] dm.multi
      (by rw [hEq]; exact hnd)
      (by intro s hs r hr; rw [hEq]; exact hfresh s hs r hr)
      hknd
    rw [hEq] at h0
    rw [h0]
    simp
  · exact readInto_names hread

/-- Witness for C6: the facade document holding a section `Extra` reads a
file `[x-Other]\nk=v`; the result keeps `Extra` in place and turns the
persisted `x-Other` into an internal `Other` with the parsed option. -/
theorem read_internalises_witness :
    (readConfig ⟨[⟨"Extra".data, false, []⟩], []⟩
        [['[', 'x', '-', 'O', 't', 'h', 'e', 'r', ']'], ['k', '=', 'v']]
      = .ok ⟨[⟨"Extra".data, false, []⟩,
              ⟨"Other".data, true, [(['k'], .vstr ['v'])]⟩], []⟩) ∧
    ∃ ext,
      ([(⟨"Extra".data, false, []⟩ : Sec),
        ⟨('x' :: '-' :: "Other".data), false,
          [(['k'], .vstr ['v'])]⟩].map (·.name))
        = ([(⟨"Extra".data, false, []⟩ : Sec)].map (·.name)) ++ ext :=
  read_internalises ⟨[⟨"Extra".data, false, []⟩], []⟩
    [['[', 'x', '-', 'O', 't', 'h', 'e', 'r', ']'], ['k', '=', 'v']]
    ⟨[⟨"Extra".data, false, []⟩,
      ⟨('x' :: '-' :: "Other".data), false, [(['k'], .vstr ['v'])]⟩], []⟩
    (by decide) (by decide) (by decide) (by decide)

/-! ## C1: string-level utilities for the round trip -/

theorem rstrip_length_le (s : Str) : (rstrip s).length ≤ s.length := by
  rw [rstrip, List.length_reverse]
  calc (s.reverse.dropWhile pySpace).length
      ≤ s.reverse.length := (List.dropWhile_suffix _).length_le
    _ = s.length := List.length_reverse s

/-- A strip-stable string is stable under each one-sided strip. -/
theorem pyStrip_parts {s : Str} (h : pyStrip s = s) :
    lstrip s = s ∧ rstrip s = s := by
  have h1 : (lstrip s).length ≤ s.length := (List.dropWhile_suffix _).length_le
  have h2 : (rstrip (lstrip s)).length ≤ (lstrip s).length := rstrip_length_le _
  rw [pyStrip] at h
  have h3 : s.length ≤ (lstrip s).length := by
    conv_lhs => rw [← h]
    exact h2
  have h4 : lstrip s = s := by
    have hsuf : lstrip s <:+ s := List.dropWhile_suffix _
    exact hsuf.eq_of_length (Nat.le_antisymm h1 h3)
  rw [h4] at h
  exact ⟨h4, h⟩

theorem lstrip_head {c : Char} {t : Str} (h : lstrip (c :: t) = c :: t) :
    pySpace c = false := by
  by_cases hc : pySpace c = true
  · rw [lstrip, List.dropWhile_cons, if_pos hc] at h
    have h2 := (List.dropWhile_suffix (l := t) pySpace).length_le
    rw [h] at h2
    simp at h2
  · simpa using hc

theorem rstrip_last {c : Char} {t : Str} (h : rstrip (t ++ [c]) = t ++ [c]) :
    pySpace c = false := by
  rw [rstrip] at h
  have h2 : (t ++ [c]).reverse.dropWhile pySpace = (t ++ [c]).reverse := by
    have h3 := congrArg List.reverse h
    rwa [List.reverse_reverse] at h3
  rw [List.reverse_append] at h2
  simp only [List.reverse_cons, List.reverse_nil, List.nil_append,
    List.singleton_append] at h2
  exact lstrip_head h2

theorem lstrip_cons_nospace {c : Char} {t : Str} (h : pySpace c = false) :
    lstrip (c :: t) = c :: t := by
  rw [lstrip, List.dropWhile_cons, if_neg (by simp [h])]

theorem lstrip_cons_space {c : Char} {t : Str} (h : pySpace c = true) :
    lstrip (c :: t) = lstrip t := by
  rw [lstrip, List.dropWhile_cons, if_pos h]
  rfl

theorem rstrip_append_nospace {c : Char} {t : Str} (h : pySpace c = false) :
    rstrip (t ++ [c]) = t ++ [c] := by
  rw [rstrip, List.reverse_append]
  simp only [List.reverse_cons, List.reverse_nil, List.nil_append,
    List.singleton_append]
  rw [List.dropWhile_cons, if_neg (by simp [h])]
  simp

/-- Dropping a trailing newline is absorbed by `rstrip`. -/
theorem rstrip_append_newline (t : Str) : rstrip (t ++ ['\n']) = rstrip t := by
  rw [rstrip, rstrip, List.reverse_append]
  simp only [List.reverse_cons, List.reverse_nil, List.nil_append,
    List.singleton_append]
  rw [List.dropWhile_cons, if_pos (by decide)]

/-- A string with non-space first and last characters is strip stable. -/
theorem pyStrip_of_ends {c e : Char} {mid : Str}
    (hc : pySpace c = false) (he : pySpace e = false) :
    pyStrip (c :: mid ++ [e]) = c :: mid ++ [e] := by
  rw [pyStrip, show lstrip (c :: mid ++ [e]) = c :: mid ++ [e] from
    lstrip_cons_nospace hc]
  exact rstrip_append_nospace he

theorem curIndent_cons_nospace {c : Char} {t : Str} (h : pySpace c = false) :
    curIndent (c :: t) = 0 := by
  rw [curIndent, List.dropWhile_cons, if_neg (by simp [h])]
  rw [List.takeWhile_cons_of_neg (by simp [h])]
  rfl

theorem curIndent_tab {c : Char} {t : Str} (hc : pySpace c = false) :
    curIndent ('\t' :: c :: t) = 1 := by
  rw [curIndent]
  rw [List.dropWhile_cons, if_pos (show pySpace '\t' = true from by decide)]
  rw [List.dropWhile_cons, if_neg (show ¬pySpace c = true from by simp [hc])]
  rw [if_neg (show ¬(c :: t) = [] from by simp)]
  rw [List.takeWhile_cons_of_pos (show pySpace '\t' = true from by decide)]
  rw [List.takeWhile_cons_of_neg (show ¬pySpace c = true from by simp [hc])]
  rfl

theorem startsComment_cons {c : Char} {t : Str}
    (h1 : c ≠ '#') (h2 : c ≠ ';') : startsComment (c :: t) = false := by
  rw [startsComment.eq_def]
  split
  · rename_i heq
    injection heq with hc hrest
    exact absurd hc h1
  · rename_i heq
    injection heq with hc hrest
    exact absurd hc h2
  · rfl

theorem splitNL_ne_nil (v : Str) : splitNL v ≠ [] := by
  induction v with
  | nil => simp [splitNL]
  | cons c rest ih =>
    rw [splitNL]
    by_cases hc : c = '\n'
    · rw [if_pos hc]; simp
    · rw [if_neg hc]
      cases hs : splitNL rest with
      | nil => simp
      | cons l ls => simp

/-- Re-joining the physical lines of a value restores it. -/
theorem joinNL_splitNL (v : Str) : joinNL (splitNL v) = v := by
  induction v with
  | nil => rfl
  | cons c rest ih =>
    rw [splitNL]
    by_cases hc : c = '\n'
    · rw [if_pos hc]
      cases hs : splitNL rest with
      | nil => exact absurd hs (splitNL_ne_nil rest)
      | cons l ls =>
        rw [hs] at ih
        rw [hc, joinNL, ih]
        · simp
        · simp
    · rw [if_neg hc]
      cases hs : splitNL rest with
      | nil => exact absurd hs (splitNL_ne_nil rest)
      | cons l ls =>
        rw [hs] at ih
        cases ls with
        | nil =>
          rw [joinNL] at ih
          rw [joinNL, ih]
        | cons y ys =>
          rw [joinNL] at ih
          · rw [joinNL]
            · rw [List.cons_append, ih]
            · simp
          · simp

/-- No physical line of a value contains a newline. -/
theorem splitNL_noNL (v : Str) : ∀ l ∈ splitNL v, noNL l = true := by
  induction v with
  | nil =>
    intro l hl
    rw [splitNL] at hl
    rw [List.mem_singleton.mp hl]
    rfl
  | cons c rest ih =>
    intro l hl
    rw [splitNL] at hl
    by_cases hc : c = '\n'
    · rw [if_pos hc] at hl
      rcases List.mem_cons.mp hl with h | h
      · rw [h]; rfl
      · exact ih l h
    · rw [if_neg hc] at hl
      cases hs : splitNL rest with
      | nil => exact absurd hs (splitNL_ne_nil rest)
      | cons l0 ls =>
        rw [hs] at hl
        rcases List.mem_cons.mp hl with h | h
        · rw [h]
          have h0 : noNL l0 = true := ih l0 (by rw [hs]; exact List.mem_cons_self _ _)
          rw [noNL] at h0 ⊢
          rw [List.all_cons]
          simp only [h0, Bool.and_true]
          simp [hc]
        · exact ih l (by rw [hs]; exact List.mem_cons_of_mem _ h)

/-! ## C1 Phase A: the serializer text is its lines, newline-terminated -/

/-- `replace('\n', '\n\t')` plus the final newline is the newline-joined,
tab-indented physical-line list. -/
theorem replNL_flat {v : Str} {l0 : Str} {ls : List Str}
    (hs : splitNL v = l0 :: ls) :
    replNL v ++ ['\n'] = l0 ++ '\n' :: ls.flatMap (fun l => '\t' :: l ++ ['\n']) := by
  induction v generalizing l0 ls with
  | nil =>
    rw [splitNL] at hs
    injection hs with h1 h2
    rw [← h1, ← h2]
    rfl
  | cons c rest ih =>
    rw [splitNL] at hs
    by_cases hc : c = '\n'
    · rw [if_pos hc] at hs
      injection hs with h1 h2
      cases hrs : splitNL rest with
      | nil => exact absurd hrs (splitNL_ne_nil rest)
      | cons m ms =>
        rw [hrs] at h2
        rw [replNL]
        rw [if_pos hc]
        rw [← h1, ← h2]
        rw [List.cons_append, List.cons_append]
        rw [ih hrs]
        simp
    · rw [if_neg hc] at hs
      cases hrs : splitNL rest with
      | nil => exact absurd hrs (splitNL_ne_nil rest)
      | cons m ms =>
        rw [hrs] at hs
        injection hs with h1 h2
        rw [replNL, if_neg hc]
        rw [List.cons_append]
        rw [ih hrs]
        rw [← h1, ← h2]
        simp

/-- The chunk written for one iterated value is its lines, each
newline-terminated. -/
theorem elemChunk_flat (k : Str) (e : Val) :
    elemChunk k e = (elemLines k e).flatMap (fun l => l ++ ['\n']) := by
  cases hs : splitNL (pyStrVal e) with
  | nil => exact absurd hs (splitNL_ne_nil _)
  | cons l0 ls =>
    rw [elemChunk, elemLines, hs]
    dsimp only
    rw [List.flatMap_cons]
    have h1 : (ls.map (fun l => '\t' :: l)).flatMap (fun l => l ++ ['\n'])
        = ls.flatMap (fun l => '\t' :: l ++ ['\n']) := by
      rw [List.flatMap_map]
    rw [h1]
    simp only [List.append_assoc, List.cons_append, List.singleton_append]
    rw [replNL_flat hs]
    simp

/-- For a well-formed option the write loop succeeds and emits exactly the
option's lines, newline-terminated. -/
theorem writeElems_true_vlist (xs : List Str) :
    writeElems true (.vlist xs) = .ok (xs.map .vstr) := rfl

theorem writeElems_false (v : Val) : writeElems false v = .ok [v] := rfl

theorem mapChunk_flat (k : Str) (es : List Val) :
    (es.map (elemChunk k)).flatten
      = (es.flatMap (elemLines k)).flatMap (fun l => l ++ ['\n']) := by
  rw [← List.flatMap_def, List.flatMap_assoc]
  congr 1
  funext e
  exact elemChunk_flat k e

theorem optChunk_flat {multi : List (Str × Str)} {sname : Str} {k : Str}
    {v : Val} (hwf : wfOpt multi sname (k, v) = true) :
    optChunk multi sname k v
      = .ok ((optLines multi sname (k, v)).flatMap (fun l => l ++ ['\n'])) := by
  rw [wfOpt, Bool.and_eq_true] at hwf
  have hv := hwf.2
  rw [optChunk, optLines]
  by_cases hm : (sname, k) ∈ multi
  · rw [if_pos hm] at hv
    rw [decide_eq_true hm]
    cases v with
    | vnone => cases hv
    | vstr t => cases hv
    | vlist xs =>
      rw [writeElems_true_vlist, ok_bind]
      dsimp only
      rw [mapChunk_flat]
  · rw [if_neg hm] at hv
    rw [decide_eq_false hm]
    cases v with
    | vnone => cases hv
    | vlist xs => cases hv
    | vstr t =>
      rw [writeElems_false, ok_bind]
      dsimp only
      rw [mapChunk_flat]

/-- The option loop of `_write_section` over well-formed options. -/
theorem optsChunk_flat {multi : List (Str × Str)} {sname : Str}
    (opts : List (Str × Val))
    (hwf : ∀ kv ∈ opts, wfOpt multi sname kv = true) :
    optsChunk multi sname opts
      = .ok ((opts.flatMap (optLines multi sname)).flatMap
          (fun l => l ++ ['\n'])) := by
  induction opts with
  | nil => rfl
  | cons kv rest ih =>
    obtain ⟨k, v⟩ := kv
    rw [optsChunk]
    rw [optChunk_flat (hwf (k, v) (List.mem_cons_self _ _)), ok_bind]
    rw [ih (fun kv h => hwf kv (List.mem_cons_of_mem _ h)), ok_bind]
    rw [List.flatMap_cons, List.flatMap_append]

/-- `_write_section` on a well-formed section emits its lines,
newline-terminated. -/
theorem secChunk_flat {multi : List (Str × Str)} {s : Sec}
    (hwf : wfSec multi s = true) :
    secChunk multi s
      = .ok ((secLines multi s).flatMap (fun l => l ++ ['\n'])) := by
  rw [wfSec] at hwf
  simp only [Bool.and_eq_true] at hwf
  have hopts : ∀ kv ∈ s.opts, wfOpt multi s.name kv = true :=
    List.all_eq_true.mp hwf.1.2
  rw [secChunk]
  rw [optsChunk_flat s.opts hopts, ok_bind]
  rw [secLines]
  simp [List.flatMap_cons, List.flatMap_append, List.append_assoc]

/-- `write` over a well-formed document emits all its lines,
newline-terminated. -/
theorem secsChunks_flat {multi : List (Str × Str)} (secs : List Sec)
    (hwf : ∀ s ∈ secs, wfSec multi s = true) :
    secsChunks multi secs
      = .ok ((secs.flatMap (secLines multi)).flatMap (fun l => l ++ ['\n'])) := by
  induction secs with
  | nil => rfl
  | cons s rest ih =>
    rw [secsChunks]
    rw [secChunk_flat (hwf s (List.mem_cons_self _ _)), ok_bind]
    rw [ih (fun t h => hwf t (List.mem_cons_of_mem _ h)), ok_bind]
    rw [List.flatMap_cons, List.flatMap_append]

theorem serialize_flat {d : Doc} (hwf : wfDoc d = true) :
    serializeText d
      = .ok ((docLines d).flatMap (fun l => l ++ ['\n'])) := by
  rw [wfDoc] at hwf
  simp only [Bool.and_eq_true] at hwf
  rw [serializeText, docLines]
  exact secsChunks_flat d.secs (List.all_eq_true.mp hwf.1.2)

/-- Reading back one newline-terminated line. -/
theorem splitLines_line (l rest : Str) (h : noNL l = true) :
    splitLines (l ++ '\n' :: rest) = l :: splitLines rest := by
  induction l with
  | nil =>
    rw [List.nil_append, splitLines, if_pos rfl]
  | cons c t ih =>
    rw [noNL, List.all_cons, Bool.and_eq_true] at h
    have hc : c ≠ '\n' := by simpa using h.1
    rw [List.cons_append, splitLines, if_neg hc]
    rw [ih h.2]

/-- Reading back a whole newline-terminated file. -/
theorem splitLines_flat (ls : List Str) (h : ∀ l ∈ ls, noNL l = true) :
    splitLines (ls.flatMap (fun l => l ++ ['\n'])) = ls := by
  induction ls with
  | nil => rfl
  | cons l rest ih =>
    rw [List.flatMap_cons]
    rw [List.append_assoc, List.singleton_append]
    rw [splitLines_line l _ (h l (List.mem_cons_self _ _))]
    rw [ih (fun x hx => h x (List.mem_cons_of_mem _ hx))]

theorem noNL_iff (s : Str) : noNL s = true ↔ ∀ c ∈ s, c ≠ '\n' := by
  simp [noNL]

theorem splitNL_of_noNL {x : Str} (h : noNL x = true) : splitNL x = [x] := by
  induction x with
  | nil => rfl
  | cons c t ih =>
    rw [noNL, List.all_cons, Bool.and_eq_true] at h
    have hc : c ≠ '\n' := by simpa using h.1
    rw [splitNL, if_neg hc]
    rw [ih h.2]

theorem cleanKey_parts {k : Str} (h : cleanKey k = true) :
    k ≠ [] ∧ pyStrip k = k ∧ (∀ c ∈ k, c ≠ '=' ∧ c ≠ ':' ∧ c ≠ '\n') ∧
    ∀ c t, k = c :: t → c ≠ '[' ∧ c ≠ '#' ∧ c ≠ ';' := by
  rw [cleanKey.eq_def] at h
  simp only [Bool.and_eq_true, decide_eq_true_eq, List.all_eq_true,
    stripStable] at h
  obtain ⟨⟨⟨h1, h2⟩, h3⟩, h4⟩ := h
  refine ⟨h1, h2, ?_, ?_⟩
  · intro c hc
    have h5 := h3 c hc
    simp only [Bool.and_eq_true, bne_iff_ne] at h5
    exact ⟨h5.1.1, h5.1.2, h5.2⟩
  · intro c t hk
    rw [hk] at h4
    simp only [Bool.and_eq_true, bne_iff_ne] at h4
    exact ⟨h4.1.1, h4.1.2, h4.2⟩

theorem cleanName_parts {n : Str} (h : cleanName n = true) :
    n ≠ [] ∧ ∀ c ∈ n, c ≠ ']' ∧ c ≠ '\n' := by
  rw [cleanName] at h
  simp only [Bool.and_eq_true, decide_eq_true_eq, List.all_eq_true] at h
  refine ⟨h.1, ?_⟩
  intro c hc
  have h2 := h.2 c hc
  simp only [Bool.and_eq_true, bne_iff_ne] at h2
  exact h2

theorem cleanScalar_parts {v : Str} (h : cleanScalar v = true) :
    (∀ l ∈ splitNL v, pyStrip l = l) ∧
    (∀ l ∈ (splitNL v).tail, startsComment l = false) ∧ rstrip v = v := by
  rw [cleanScalar] at h
  simp only [Bool.and_eq_true, decide_eq_true_eq, List.all_eq_true,
    stripStable] at h
  refine ⟨h.1.1, ?_, h.2⟩
  intro l hl
  have h2 := h.1.2 l hl
  simpa using h2

theorem cleanElem_parts {x : Str} (h : cleanElem x = true) :
    noNL x = true ∧ pyStrip x = x := by
  rw [cleanElem] at h
  simp only [Bool.and_eq_true, stripStable, decide_eq_true_eq] at h
  exact h

theorem cleanKey_noNL {k : Str} (h : cleanKey k = true) : noNL k = true := by
  rw [noNL_iff]
  intro c hc
  exact ((cleanKey_parts h).2.2.1 c hc).2.2

/-- Every line written for a well-formed option is newline-free. -/
theorem optLines_noNL {multi : List (Str × Str)} {sname : Str}
    {kv : Str × Val} (hwf : wfOpt multi sname kv = true) :
    ∀ l ∈ optLines multi sname kv, noNL l = true := by
  obtain ⟨k, v⟩ := kv
  intro l hl
  rw [wfOpt, Bool.and_eq_true] at hwf
  have hk := cleanKey_noNL hwf.1
  have hv := hwf.2
  rw [optLines] at hl
  by_cases hm : (sname, k) ∈ multi
  · rw [if_pos hm] at hv
    rw [decide_eq_true hm] at hl
    cases v with
    | vnone => cases hv
    | vstr t => cases hv
    | vlist xs =>
      rw [writeElems_true_vlist] at hl
      dsimp only at hl
      rcases List.mem_flatMap.mp hl with ⟨e, he, hle⟩
      rcases List.mem_map.mp he with ⟨x, hx, rfl⟩
      simp only [Bool.and_eq_true, List.all_eq_true] at hv
      have hclean := cleanElem_parts (hv.2 x hx)
      rw [elemLines] at hle
      have hsx : splitNL (pyStrVal (.vstr x)) = [x] := splitNL_of_noNL hclean.1
      rw [hsx] at hle
      dsimp only at hle
      simp only [List.map_nil, List.mem_singleton] at hle
      rw [hle, noNL_iff]
      intro c hc
      rcases List.mem_append.mp hc with h1 | h1
      · exact (noNL_iff k).mp hk c h1
      · rcases List.mem_cons.mp h1 with h2 | h2
        · rw [h2]; decide
        · exact (noNL_iff x).mp hclean.1 c h2
  · rw [if_neg hm] at hv
    rw [decide_eq_false hm] at hl
    cases v with
    | vnone => cases hv
    | vlist xs => cases hv
    | vstr t =>
      rw [writeElems_false] at hl
      dsimp only at hl
      simp only [List.flatMap_cons, List.flatMap_nil, List.append_nil] at hl
      rw [elemLines] at hl
      cases hs : splitNL (pyStrVal (.vstr t)) with
      | nil => exact absurd hs (splitNL_ne_nil _)
      | cons l0 ls =>
        rw [hs] at hl
        dsimp only at hl
        have hlines := splitNL_noNL (pyStrVal (.vstr t))
        rw [hs] at hlines
        rcases List.mem_cons.mp hl with h1 | h1
        · rw [h1, noNL_iff]
          intro c hc
          rcases List.mem_append.mp hc with h2 | h2
          · exact (noNL_iff k).mp hk c h2
          · rcases List.mem_cons.mp h2 with h3 | h3
            · rw [h3]; decide
            · exact (noNL_iff l0).mp (hlines l0 (List.mem_cons_self _ _)) c h3
        · rcases List.mem_map.mp h1 with ⟨m, hm2, rfl⟩
          rw [noNL_iff]
          intro c hc
          rcases List.mem_cons.mp hc with h2 | h2
          · rw [h2]; decide
          · exact (noNL_iff m).mp (hlines m (List.mem_cons_of_mem _ hm2)) c h2

/-- Every line written for a well-formed section is newline-free. -/
theorem secLines_noNL {multi : List (Str × Str)} {s : Sec}
    (hwf : wfSec multi s = true) :
    ∀ l ∈ secLines multi s, noNL l = true := by
  intro l hl
  rw [wfSec] at hwf
  simp only [Bool.and_eq_true] at hwf
  rw [secLines] at hl
  rcases List.mem_cons.mp hl with h1 | h1
  · rw [h1, noNL_iff]
    intro c hc
    rcases List.mem_cons.mp hc with h2 | h2
    · rw [h2]; decide
    · rcases List.mem_append.mp h2 with h3 | h3
      · exact ((cleanName_parts hwf.1.1.1.1).2 c h3).2
      · rw [List.mem_singleton.mp h3]; decide
  · rcases List.mem_append.mp h1 with h2 | h2
    · rcases List.mem_flatMap.mp h2 with ⟨kv, hkv, hlkv⟩
      exact optLines_noNL (List.all_eq_true.mp hwf.1.2 kv hkv) l hlkv
    · rw [List.mem_singleton.mp h2]
      rfl

/-- Every line of a well-formed document is newline-free. -/
theorem docLines_noNL {d : Doc} (hwf : wfDoc d = true) :
    ∀ l ∈ docLines d, noNL l = true := by
  intro l hl
  rw [wfDoc] at hwf
  simp only [Bool.and_eq_true] at hwf
  rw [docLines] at hl
  rcases List.mem_flatMap.mp hl with ⟨s, hs, hls⟩
  exact secLines_noNL (List.all_eq_true.mp hwf.1.2 s hs) l hls

/-- The round trip is the parse of the document's own lines. -/
theorem roundTrip_eq_parse {d : Doc} (hwf : wfDoc d = true) :
    roundTrip d = parseConfig (docLines d) := by
  rw [roundTrip]
  rw [serialize_flat hwf, ok_bind]
  rw [splitLines_flat _ (docLines_noNL hwf)]

/-! ## C1 Phase B: running the parser over the document's own lines -/

theorem ite_false_bool {α : Sort _} (a b : α) :
    (if false = true then a else b) = b := rfl

theorem ite_true_bool {α : Sort _} (a b : α) :
    (if true = true then a else b) = a := rfl

theorem optGet_optSet_self (opts : List (Str × Val)) (k : Str) (v : Val) :
    optGet (optSet opts k v) k = some v := by
  induction opts with
  | nil => simp [optSet, optGet]
  | cons p rest ih =>
    obtain ⟨a, b⟩ := p
    rw [optSet]
    by_cases ha : a = k
    · rw [if_pos ha, optGet, if_pos rfl]
    · rw [if_neg ha, optGet, if_neg ha]
      exact ih

theorem optSet_optSet (opts : List (Str × Val)) (k : Str) (v w : Val) :
    optSet (optSet opts k v) k w = optSet opts k w := by
  induction opts with
  | nil => simp [optSet]
  | cons p rest ih =>
    obtain ⟨a, b⟩ := p
    rw [optSet]
    by_cases ha : a = k
    · rw [if_pos ha, optSet, if_pos rfl, optSet, if_pos ha]
    · rw [if_neg ha, optSet, if_neg ha, optSet, if_neg ha, ih]

theorem secMod_secMod (secs : List Sec) (n : Str) (f g : Sec → Sec)
    (hf : ∀ t, (f t).name = t.name) :
    secMod (secMod secs n f) n g = secMod secs n (fun t => g (f t)) := by
  induction secs with
  | nil => rfl
  | cons s rest ih =>
    rw [secMod]
    by_cases hs : s.name = n
    · rw [if_pos hs, secMod, if_pos (by rw [hf]; exact hs), secMod, if_pos hs]
    · rw [if_neg hs, secMod, if_neg hs, secMod, if_neg hs, ih]

theorem optGet_none_of_not_mem {opts : List (Str × Val)} {k : Str}
    (h : k ∉ opts.map Prod.fst) : optGet opts k = none := by
  induction opts with
  | nil => rfl
  | cons p rest ih =>
    obtain ⟨a, b⟩ := p
    simp only [List.map_cons, List.mem_cons, not_or] at h
    rw [optGet, if_neg (fun hc => h.1 hc.symm)]
    exact ih h.2

theorem optGet_append_right {pre opts : List (Str × Val)} {k : Str}
    (h : k ∉ pre.map Prod.fst) :
    optGet (pre ++ opts) k = optGet opts k := by
  induction pre with
  | nil => rfl
  | cons p rest ih =>
    obtain ⟨a, b⟩ := p
    simp only [List.map_cons, List.mem_cons, not_or] at h
    rw [List.cons_append, optGet, if_neg (fun hc => h.1 hc.symm)]
    exact ih h.2

theorem multiAdd_of_mem {m : List (Str × Str)} {p : Str × Str} (h : p ∈ m) :
    multiAdd m p = m := by
  rw [multiAdd, if_pos h]

theorem multiAdd_of_not_mem {m : List (Str × Str)} {p : Str × Str}
    (h : p ∉ m) : multiAdd m p = m ++ [p] := by
  rw [multiAdd, if_neg h]

theorem takeWhile_append_stop {p : Char → Bool} {n : Str} {e : Char}
    {r : Str} (hall : ∀ c ∈ n, p c = true) (he : p e = false) :
    (n ++ e :: r).takeWhile p = n := by
  induction n with
  | nil =>
    rw [List.nil_append, List.takeWhile_cons_of_neg (by simp [he])]
  | cons c t ih =>
    rw [List.cons_append,
      List.takeWhile_cons_of_pos (hall c (List.mem_cons_self _ _))]
    rw [ih (fun c2 h2 => hall c2 (List.mem_cons_of_mem _ h2))]

/-- The section-header regex on a written header line. -/
theorem sectHeader_header {n : Str} (hclean : cleanName n = true) :
    sectHeader ('[' :: n ++ [']']) = some n := by
  obtain ⟨hne, hchars⟩ := cleanName_parts hclean
  have htake : (n ++ [']']).takeWhile (fun c => c != ']') = n :=
    takeWhile_append_stop (fun c hc => by simp [(hchars c hc).1]) (by decide)
  show (let hdr := (n ++ [']']).takeWhile (fun c => c != ']')
        if hdr.length = 0 then none
        else if hdr.length < (n ++ [']']).length then some hdr else none) = some n
  dsimp only
  rw [htake]
  rw [if_neg (fun h => hne (List.length_eq_zero.mp h))]
  rw [if_pos (by simp)]

/-- A line not starting with `[` is no section header. -/
theorem sectHeader_cons_ne {c : Char} {t : Str} (h : c ≠ '[') :
    sectHeader (c :: t) = none := by
  rw [sectHeader.eq_def]
  split
  · rename_i heq
    injection heq with hc hrest
    exact absurd hc h
  · rfl

/-- The delimiter search on a written option line. -/
theorem findDelim_opt {k x : Str}
    (hk : ∀ c ∈ k, c ≠ '=' ∧ c ≠ ':') :
    findDelim (k ++ '=' :: x) = some k.length := by
  have haux : ∀ (k2 : Str) (i : Nat), (∀ c ∈ k2, c ≠ '=' ∧ c ≠ ':') →
      List.findIdx? (fun c => c == '=' || c == ':') (k2 ++ '=' :: x) i
        = some (i + k2.length) := by
    intro k2
    induction k2 with
    | nil =>
      intro i h
      rw [List.nil_append, List.findIdx?_cons]
      simp
    | cons c t ih =>
      intro i h
      have hc := h c (List.mem_cons_self _ _)
      rw [List.cons_append, List.findIdx?_cons]
      rw [if_neg (by simp [hc.1, hc.2])]
      rw [ih (i + 1) (fun c2 h2 => h c2 (List.mem_cons_of_mem _ h2))]
      congr 1
      simp [List.length_cons]
      omega
  have h0 := haux k 0 hk
  rw [findDelim, h0]
  simp

theorem take_optline (k x : Str) : (k ++ '=' :: x).take k.length = k := by
  have h := List.take_left k ('=' :: x)
  exact h

theorem drop_optline (k x : Str) : (k ++ '=' :: x).drop (k.length + 1) = x := by
  have h1 : k ++ '=' :: x = (k ++ ['=']) ++ x := by simp
  have h2 : k.length + 1 = (k ++ ['=']).length := by simp
  rw [h1, h2]
  exact List.drop_left _ _

/-- A written option line is strip stable. -/
theorem optline_strip {k x : Str} (hk : cleanKey k = true)
    (hx : pyStrip x = x) :
    pyStrip (k ++ '=' :: x) = k ++ '=' :: x := by
  obtain ⟨hne, hstable, hchars, hhead⟩ := cleanKey_parts hk
  cases hkc : k with
  | nil => exact absurd hkc hne
  | cons c kt =>
    have hcns : pySpace c = false := by
      rw [hkc] at hstable
      exact lstrip_head (pyStrip_parts hstable).1
    rcases List.eq_nil_or_concat x with rfl | ⟨x2, e, rfl⟩
    · exact pyStrip_of_ends hcns (by decide)
    · simp only [List.concat_eq_append] at hx ⊢
      have hens : pySpace e = false := by
        have hr := (pyStrip_parts hx).2
        exact rstrip_last hr
      have hsh : (c :: kt) ++ '=' :: (x2 ++ [e])
          = c :: (kt ++ '=' :: x2) ++ [e] := by simp
      rw [hsh]
      exact pyStrip_of_ends hcns hens

/-- One `_read` step on a fresh section header line. -/
theorem step_header {st : PState} {n : Str}
    (hclean : cleanName n = true)
    (hfresh : secGet st.secs n = none) :
    stepLine st ('[' :: n ++ [']'])
      = .ok { st with
          secs := st.secs ++ [⟨n, false, []⟩],
          cursect := some n, optname := none, indent := 0 } := by
  have hstrip : pyStrip ('[' :: n ++ [']']) = '[' :: n ++ [']'] :=
    pyStrip_of_ends (by decide) (by decide)
  have hcomment : startsComment (pyStrip ('[' :: n ++ [']'])) = false := by
    rw [hstrip]
    exact startsComment_cons (by decide) (by decide)
  have hindent : curIndent ('[' :: n ++ [']']) = 0 :=
    curIndent_cons_nospace (by decide)
  rw [stepLine]
  dsimp only
  rw [hcomment, ite_false_bool, hstrip]
  rw [if_neg (show ¬('[' :: n ++ [']']) = [] from by simp)]
  rw [hindent]
  rw [show decide (0 > st.indent) = false from decide_eq_false (by omega)]
  rw [Bool.and_false, ite_false_bool]
  rw [sectHeader_header hclean]
  dsimp only
  rw [hfresh]
  rw [show (none : Option Sec).isSome = false from rfl, ite_false_bool]

/-- One `_read` step on a blank line while an option list buffer is open:
the empty string is appended to the buffer. -/
theorem step_blank_append {st : PState} {line : Str} {sn : Str} {o : Char}
    {ot : Str} {sec : Sec} {b : List Str}
    (hblank : pyStrip line = [])
    (hcur : st.cursect = some sn) (hopt : st.optname = some (o :: ot))
    (hget : secGet st.secs sn = some sec)
    (hbuf : optGet sec.opts (o :: ot) = some (.vlist b)) :
    stepLine st line
      = .ok { st with
          secs := secMod st.secs sn (fun s =>
            { s with opts := optSet s.opts (o :: ot) (.vlist (b ++ [[]])) }) } := by
  rw [stepLine]
  dsimp only
  rw [hblank]
  rw [show startsComment ([] : Str) = false from rfl, ite_false_bool]
  rw [if_pos rfl, ite_false_bool]
  rw [hcur, hopt]
  dsimp only
  rw [show optnameTruthy (some (o :: ot)) = true from rfl, ite_true_bool]
  rw [hget]
  dsimp only
  rw [hbuf]

/-- One `_read` step on a blank line with no pending option. -/
theorem step_blank_none {st : PState} {line : Str}
    (hblank : pyStrip line = []) (hopt : st.optname = none) :
    stepLine st line = .ok st := by
  rw [stepLine]
  dsimp only
  rw [hblank]
  rw [show startsComment ([] : Str) = false from rfl, ite_false_bool]
  rw [if_pos rfl, ite_false_bool]
  cases hcs : st.cursect with
  | none => rw [hopt]
  | some sn => rw [hopt]

/-- One `_read` step on a written option line, split by the lookup of the
key in the current section. -/
theorem step_opt_core {st : PState} {sn k x : Str} {sec : Sec}
    (hcur : st.cursect = some sn)
    (hk : cleanKey k = true)
    (hxs : pyStrip x = x)
    (hget : secGet st.secs sn = some sec) :
    stepLine st (k ++ '=' :: x)
      = match optGet sec.opts k with
        | some (.vlist b) =>
            .ok { st with
              secs := secMod st.secs sn (fun s =>
                { s with opts := optSet s.opts k (.vlist (b ++ [x])) }),
              multi := multiAdd st.multi (sn, k),
              optname := some k, indent := 0 }
        | some (.vstr t) => .error .attributeError
        | some .vnone => .error .attributeError
        | none =>
            .ok { st with
              secs := secMod st.secs sn (fun s =>
                { s with opts := optSet s.opts k (.vlist [x]) }),
              optname := some k, indent := 0 } := by
  obtain ⟨hne, hstable, hchars, hhead⟩ := cleanKey_parts hk
  have hline : pyStrip (k ++ '=' :: x) = k ++ '=' :: x := optline_strip hk hxs
  cases hkc : k with
  | nil => exact absurd hkc hne
  | cons c kt =>
    have hcfacts := hhead c kt hkc
    rw [hkc] at hstable hchars hline
    have hcns : pySpace c = false :=
      lstrip_head (pyStrip_parts hstable).1
    have hcomment : startsComment (pyStrip ((c :: kt) ++ '=' :: x)) = false := by
      rw [hline, List.cons_append]
      exact startsComment_cons hcfacts.2.1 hcfacts.2.2
    have hindent : curIndent ((c :: kt) ++ '=' :: x) = 0 := by
      rw [List.cons_append]
      exact curIndent_cons_nospace hcns
    have hhdr : sectHeader ((c :: kt) ++ '=' :: x) = none := by
      rw [List.cons_append]
      exact sectHeader_cons_ne hcfacts.1
    have hdelim : findDelim ((c :: kt) ++ '=' :: x) = some (c :: kt).length := by
      refine findDelim_opt ?_
      intro c2 h2
      exact ⟨(hchars c2 h2).1, (hchars c2 h2).2.1⟩
    have hrk : rstrip (c :: kt) = c :: kt := (pyStrip_parts hstable).2
    rw [stepLine]
    dsimp only
    rw [hcomment, ite_false_bool, hline]
    rw [if_neg (show ¬((c :: kt) ++ '=' :: x) = [] from by simp)]
    rw [hindent]
    rw [show decide (0 > st.indent) = false from decide_eq_false (by omega)]
    rw [Bool.and_false, ite_false_bool]
    rw [hhdr]
    dsimp only
    rw [hcur]
    dsimp only
    rw [hdelim]
    dsimp only
    rw [take_optline, drop_optline]
    rw [hrk, hxs]
    rw [show decide ((c :: kt) = ([] : Str)) = false from decide_eq_false (by simp)]
    rw [Bool.or_false]
    rw [hget]

/-- One `_read` step on the first line of a fresh option. -/
theorem step_opt_fresh {st : PState} {sn k x : Str} {sec : Sec}
    (hcur : st.cursect = some sn)
    (hk : cleanKey k = true)
    (hxs : pyStrip x = x)
    (hget : secGet st.secs sn = some sec)
    (hnone : optGet sec.opts k = none) :
    stepLine st (k ++ '=' :: x)
      = .ok { st with
          secs := secMod st.secs sn (fun s =>
            { s with opts := optSet s.opts k (.vlist [x]) }),
          optname := some k, indent := 0 } := by
  rw [step_opt_core hcur hk hxs hget, hnone]

/-- One `_read` step on a repeated-key option line: append and mark. -/
theorem step_opt_dup {st : PState} {sn k x : Str} {sec : Sec} {b : List Str}
    (hcur : st.cursect = some sn)
    (hk : cleanKey k = true)
    (hxs : pyStrip x = x)
    (hget : secGet st.secs sn = some sec)
    (hsome : optGet sec.opts k = some (.vlist b)) :
    stepLine st (k ++ '=' :: x)
      = .ok { st with
          secs := secMod st.secs sn (fun s =>
            { s with opts := optSet s.opts k (.vlist (b ++ [x])) }),
          multi := multiAdd st.multi (sn, k),
          optname := some k, indent := 0 } := by
  rw [step_opt_core hcur hk hxs hget, hsome]

/-- One `_read` step on a tab-indented nonempty continuation line. -/
theorem step_cont {st : PState} {sn : Str} {o : Char} {ot : Str} {c : Char}
    {t : Str} {sec : Sec} {b : List Str}
    (hcur : st.cursect = some sn) (hopt : st.optname = some (o :: ot))
    (hind : st.indent = 0)
    (hstrip : pyStrip (c :: t) = c :: t)
    (hcomment : startsComment (c :: t) = false)
    (hget : secGet st.secs sn = some sec)
    (hbuf : optGet sec.opts (o :: ot) = some (.vlist b)) :
    stepLine st ('\t' :: c :: t)
      = .ok { st with
          secs := secMod st.secs sn (fun s =>
            { s with opts := optSet s.opts (o :: ot) (.vlist (b ++ [c :: t])) }) } := by
  obtain ⟨secs0, multi0, cs0, on0, ind0, e0⟩ := st
  dsimp only at hcur hopt hind hget ⊢
  subst hcur hopt hind
  have hcns : pySpace c = false := lstrip_head (pyStrip_parts hstrip).1
  have hps : pyStrip ('\t' :: c :: t) = c :: t := by
    rw [pyStrip, lstrip_cons_space (by decide)]
    exact hstrip
  rw [stepLine]
  dsimp only
  rw [hps, hcomment, ite_false_bool]
  rw [if_neg (show ¬(c :: t) = ([] : Str) from by simp)]
  rw [curIndent_tab hcns]
  rw [show optnameTruthy (some (o :: ot)) = true from rfl]
  rw [show decide (1 > 0) = true from rfl]
  rw [show (((some sn).isSome && true) && true) = true from rfl, ite_true_bool]
  rw [bufAppend]
  dsimp only
  rw [hget]
  dsimp only
  rw [hbuf]

theorem optSet_same {opts : List (Str × Val)} {k : Str} {v : Val}
    (h : optGet opts k = some v) : optSet opts k v = opts := by
  induction opts with
  | nil => cases h
  | cons p rest ih =>
    obtain ⟨a, b⟩ := p
    rw [optGet] at h
    rw [optSet]
    by_cases ha : a = k
    · rw [if_pos ha] at h
      rw [if_pos ha]
      injection h with h2
      rw [← ha, h2]
    · rw [if_neg ha] at h
      rw [if_neg ha, ih h]

theorem secMod_id_of {secs : List Sec} {n : Str} {s : Sec} {f : Sec → Sec}
    (hget : secGet secs n = some s) (hf : f s = s) :
    secMod secs n f = secs := by
  induction secs with
  | nil => cases hget
  | cons a rest ih =>
    rw [secGet] at hget
    rw [secMod]
    by_cases ha : a.name = n
    · rw [if_pos ha] at hget
      rw [if_pos ha]
      injection hget with h2
      rw [h2, hf]
    · rw [if_neg ha] at hget
      rw [if_neg ha, ih hget]

theorem runLines_append (st : PState) (xs ys : List Str) :
    runLines st (xs ++ ys) = (runLines st xs) >>= fun st2 => runLines st2 ys := by
  induction xs generalizing st with
  | nil =>
    rw [List.nil_append, runLines, ok_bind]
  | cons l ls ih =>
    rw [List.cons_append, runLines, runLines]
    cases hs : stepLine st l with
    | error e => rfl
    | ok st1 => exact ih st1

/-- Running the tab-indented tail lines of a scalar value: each one —
nonempty as a continuation, empty through the blank-line path — appends
its stripped content to the open buffer. -/
theorem run_tails {sn : Str} {o : Char} {ot : Str} (ls : List Str) :
    ∀ (secs0 : List Sec) (multi0 : List (Str × Str)) (e0 : Bool) (sec : Sec)
      (b : List Str),
    (∀ l ∈ ls, pyStrip l = l ∧ startsComment l = false) →
    secGet secs0 sn = some sec →
    optGet sec.opts (o :: ot) = some (.vlist b) →
    runLines ⟨secs0, multi0, some sn, some (o :: ot), 0, e0⟩
        (ls.map (fun l => '\t' :: l))
      = .ok ⟨secMod secs0 sn (fun s =>
            { s with opts := optSet s.opts (o :: ot) (.vlist (b ++ ls)) }),
          multi0, some sn, some (o :: ot), 0, e0⟩ := by
  induction ls with
  | nil =>
    intro secs0 multi0 e0 sec b hcl hget hbuf
    rw [List.map_nil, runLines]
    have hid : secMod secs0 sn (fun s =>
        { s with opts := optSet s.opts (o :: ot) (.vlist (b ++ [])) }) = secs0 := by
      refine secMod_id_of hget ?_
      rw [List.append_nil, optSet_same hbuf]
    rw [hid]
  | cons l ls2 ih =>
    intro secs0 multi0 e0 sec b hcl hget hbuf
    have hget2 : secGet (secMod secs0 sn (fun s =>
        { s with opts := optSet s.opts (o :: ot) (.vlist (b ++ [l])) })) sn
        = some { sec with opts := optSet sec.opts (o :: ot) (.vlist (b ++ [l])) } :=
      secGet_secMod_self (fun t => rfl) hget
    have hbuf2 : optGet (optSet sec.opts (o :: ot) (.vlist (b ++ [l]))) (o :: ot)
        = some (.vlist (b ++ [l])) := optGet_optSet_self _ _ _
    have hcomp : secMod (secMod secs0 sn (fun s =>
          { s with opts := optSet s.opts (o :: ot) (.vlist (b ++ [l])) })) sn
          (fun s => { s with opts := optSet s.opts (o :: ot) (.vlist ((b ++ [l]) ++ ls2)) })
        = secMod secs0 sn (fun s =>
            { s with opts := optSet s.opts (o :: ot) (.vlist (b ++ l :: ls2)) }) := by
      have hname : ∀ t : Sec, ((fun s =>
          ({ s with opts := optSet s.opts (o :: ot) (.vlist (b ++ [l])) } : Sec)) t).name
          = t.name := fun t => rfl
      rw [secMod_secMod _ _ _ _ hname]
      congr 1
      funext s
      rw [optSet_optSet]
      rw [show (b ++ [l]) ++ ls2 = b ++ l :: ls2 from by simp]
    rw [List.map_cons, runLines]
    cases l with
    | nil =>
      rw [show stepLine ⟨secs0, multi0, some sn, some (o :: ot), 0, e0⟩ ['\t']
          = .ok ⟨secMod secs0 sn (fun s =>
              { s with opts := optSet s.opts (o :: ot) (.vlist (b ++ [[]])) }),
            multi0, some sn, some (o :: ot), 0, e0⟩ from
        step_blank_append (by decide) rfl rfl hget hbuf]
      dsimp only
      rw [ih _ _ _ _ _ (fun y hy => hcl y (List.mem_cons_of_mem _ hy)) hget2 hbuf2]
      rw [hcomp]
    | cons c t =>
      have hcl1 := hcl (c :: t) (List.mem_cons_self _ _)
      rw [show stepLine ⟨secs0, multi0, some sn, some (o :: ot), 0, e0⟩ ('\t' :: c :: t)
          = .ok ⟨secMod secs0 sn (fun s =>
              { s with opts := optSet s.opts (o :: ot) (.vlist (b ++ [c :: t])) }),
            multi0, some sn, some (o :: ot), 0, e0⟩ from
        step_cont rfl rfl rfl hcl1.1 hcl1.2 hget hbuf]
      dsimp only
      rw [ih _ _ _ _ _ (fun y hy => hcl y (List.mem_cons_of_mem _ hy)) hget2 hbuf2]
      rw [hcomp]

/-- Running the repeated-key lines of a multi-valued option: each line
appends its value and (re-)marks the pair. -/
theorem run_dups {sn k : Str} (xs : List Str) :
    ∀ (x : Str) (secs0 : List Sec) (multi0 : List (Str × Str))
      (on0 : Option Str) (e0 : Bool) (sec : Sec) (b : List Str),
    cleanKey k = true →
    pyStrip x = x →
    (∀ y ∈ xs, pyStrip y = y) →
    secGet secs0 sn = some sec →
    optGet sec.opts k = some (.vlist b) →
    runLines ⟨secs0, multi0, some sn, on0, 0, e0⟩
        ((x :: xs).map (fun y => k ++ '=' :: y))
      = .ok ⟨secMod secs0 sn (fun s =>
            { s with opts := optSet s.opts k (.vlist (b ++ x :: xs)) }),
          multiAdd multi0 (sn, k), some sn, some k, 0, e0⟩ := by
  induction xs with
  | nil =>
    intro x secs0 multi0 on0 e0 sec b hk hx hxs hget hbuf
    rw [List.map_cons, List.map_nil, runLines]
    rw [show stepLine ⟨secs0, multi0, some sn, on0, 0, e0⟩ (k ++ '=' :: x)
        = .ok ⟨secMod secs0 sn (fun s =>
            { s with opts := optSet s.opts k (.vlist (b ++ [x])) }),
          multiAdd multi0 (sn, k), some sn, some k, 0, e0⟩ from
      step_opt_dup rfl hk hx hget hbuf]
    dsimp only
    rw [runLines]
  | cons x2 xs2 ih =>
    intro x secs0 multi0 on0 e0 sec b hk hx hxs hget hbuf
    rw [List.map_cons, runLines]
    rw [show stepLine ⟨secs0, multi0, some sn, on0, 0, e0⟩ (k ++ '=' :: x)
        = .ok ⟨secMod secs0 sn (fun s =>
            { s with opts := optSet s.opts k (.vlist (b ++ [x])) }),
          multiAdd multi0 (sn, k), some sn, some k, 0, e0⟩ from
      step_opt_dup rfl hk hx hget hbuf]
    dsimp only
    have hget2 : secGet (secMod secs0 sn (fun s =>
        { s with opts := optSet s.opts k (.vlist (b ++ [x])) })) sn
        = some { sec with opts := optSet sec.opts k (.vlist (b ++ [x])) } :=
      secGet_secMod_self (fun t => rfl) hget
    have hbuf2 : optGet (optSet sec.opts k (.vlist (b ++ [x]))) k
        = some (.vlist (b ++ [x])) := optGet_optSet_self _ _ _
    rw [ih x2 _ _ _ _ _ _ hk (hxs x2 (List.mem_cons_self _ _))
      (fun y hy => hxs y (List.mem_cons_of_mem _ hy)) hget2 hbuf2]
    have hcomp : secMod (secMod secs0 sn (fun s =>
          { s with opts := optSet s.opts k (.vlist (b ++ [x])) })) sn
          (fun s => { s with opts := optSet s.opts k (.vlist ((b ++ [x]) ++ x2 :: xs2)) })
        = secMod secs0 sn (fun s =>
            { s with opts := optSet s.opts k (.vlist (b ++ x :: x2 :: xs2)) }) := by
      have hname : ∀ t : Sec, ((fun s =>
          ({ s with opts := optSet s.opts k (.vlist (b ++ [x])) } : Sec)) t).name
          = t.name := fun t => rfl
      rw [secMod_secMod _ _ _ _ hname]
      congr 1
      funext s
      rw [optSet_optSet]
      rw [show (b ++ [x]) ++ x2 :: xs2 = b ++ x :: x2 :: xs2 from by simp]
    rw [hcomp]
    rw [multiAdd_of_mem (multiAdd_mem.mpr (Or.inr rfl))]

theorem optGet_append_last {done : List (Str × Val)} {k : Str} {v : Val}
    (h : k ∉ done.map Prod.fst) :
    optGet (done ++ [(k, v)]) k = some v := by
  rw [optGet_append_right h, optGet, if_pos rfl]

theorem optSet_append_last {done : List (Str × Val)} {k : Str} {w v : Val}
    (h : k ∉ done.map Prod.fst) :
    optSet (done ++ [(k, w)]) k v = done ++ [(k, v)] := by
  induction done with
  | nil =>
    rw [List.nil_append, optSet, if_pos rfl]
    rfl
  | cons p rest ih =>
    obtain ⟨a, b⟩ := p
    simp only [List.map_cons, List.mem_cons, not_or] at h
    rw [List.cons_append, optSet, if_neg (fun hc => h.1 hc.symm)]
    rw [ih h.2]
    rfl

theorem secMod_last {pre : List Sec} {sn : Str} {b : Bool}
    {o : List (Str × Val)} {f : Sec → Sec}
    (hpre : sn ∉ pre.map (·.name)) :
    secMod (pre ++ [⟨sn, b, o⟩]) sn f = pre ++ [f ⟨sn, b, o⟩] := by
  rw [secMod_append_not_mem hpre, secMod, if_pos rfl]

theorem secGet_last {pre : List Sec} {sn : Str} {b : Bool}
    {o : List (Str × Val)}
    (hpre : sn ∉ pre.map (·.name)) :
    secGet (pre ++ [⟨sn, b, o⟩]) sn = some ⟨sn, b, o⟩ := by
  rw [secGet_append_of_none (secGet_eq_none_of_not_mem hpre), secGet, if_pos rfl]

theorem flatMap_eq_map_of_singleton {α β : Type} {f : α → List β} {g : α → β}
    {xs : List α} (h : ∀ x ∈ xs, f x = [g x]) : xs.flatMap f = xs.map g := by
  induction xs with
  | nil => rfl
  | cons x rest ih =>
    rw [List.flatMap_cons, List.map_cons, h x (List.mem_cons_self _ _)]
    rw [ih (fun y hy => h y (List.mem_cons_of_mem _ hy))]
    rfl

/-- The lines of an unmarked scalar option. -/
theorem optLines_scalar {multi : List (Str × Str)} {sname k v : Str}
    {l0 : Str} {ls : List Str}
    (hm : (sname, k) ∉ multi) (hs : splitNL v = l0 :: ls) :
    optLines multi sname (k, .vstr v)
      = (k ++ '=' :: l0) :: ls.map (fun l => '\t' :: l) := by
  rw [optLines, decide_eq_false hm, writeElems_false]
  dsimp only
  simp only [List.flatMap_cons, List.flatMap_nil, List.append_nil]
  rw [elemLines]
  rw [show splitNL (pyStrVal (.vstr v)) = l0 :: ls from hs]

/-- The lines of a marked multi-valued option. -/
theorem optLines_multi {multi : List (Str × Str)} {sname k : Str}
    {xs : List Str}
    (hm : (sname, k) ∈ multi) (hclean : ∀ x ∈ xs, noNL x = true) :
    optLines multi sname (k, .vlist xs) = xs.map (fun x => k ++ '=' :: x) := by
  rw [optLines, decide_eq_true hm, writeElems_true_vlist]
  dsimp only
  rw [List.flatMap_map]
  refine flatMap_eq_map_of_singleton ?_
  intro x hx
  rw [elemLines]
  rw [show splitNL (pyStrVal (.vstr x)) = [x] from splitNL_of_noNL (hclean x hx)]
  rfl

/-- Running the lines of the options of one section: each option lands in
order at the end of the (freshly created) last section, and the marked
pairs are appended to `_multioptions` in order. -/
theorem run_opts {multi : List (Str × Str)} {sn : Str}
    (opts : List (Str × Val)) :
    ∀ (pre : List Sec) (done : List (Str × Val)) (m0 : List (Str × Str))
      (onm : Option Str) (e0 : Bool),
    (∀ kv ∈ opts, wfOpt multi sn kv = true) →
    (done.map Prod.fst ++ opts.map Prod.fst).Nodup →
    sn ∉ pre.map (·.name) →
    (∀ k2 ∈ opts.map Prod.fst, (sn, k2) ∉ m0) →
    runLines ⟨pre ++ [⟨sn, false, done⟩], m0, some sn, onm, 0, e0⟩
        (opts.flatMap (optLines multi sn))
      = .ok ⟨pre ++ [⟨sn, false,
            done ++ opts.map (fun kv => (kv.1, Val.vlist (bufVal multi sn kv)))⟩],
          m0 ++ opts.filterMap (fun kv =>
            if (sn, kv.1) ∈ multi then some (sn, kv.1) else none),
          some sn,
          (match opts.getLast? with
           | some kv => some kv.1
           | none => onm), 0, e0⟩ := by
  induction opts with
  | nil =>
    intro pre done m0 onm e0 hwf hnd hpre hm0
    rw [List.flatMap_nil, runLines]
    simp
  | cons kv rest ih =>
    obtain ⟨k, v⟩ := kv
    intro pre done m0 onm e0 hwf hnd hpre hm0
    have hwf1 := hwf (k, v) (List.mem_cons_self _ _)
    have hwfparts := hwf1
    rw [wfOpt, Bool.and_eq_true] at hwfparts
    have hkkey := hwfparts.1
    have hkval := hwfparts.2
    obtain ⟨hkne, hkstable, hkchars, hkhead⟩ := cleanKey_parts hkkey
    simp only [List.map_cons] at hnd
    have hkdone : k ∉ done.map Prod.fst := by
      intro hc
      have h2 : ¬(done.map Prod.fst).Disjoint (k :: rest.map Prod.fst) := by
        intro hdisj
        exact hdisj hc (List.mem_cons_self _ _)
      exact h2 (List.nodup_append.mp hnd).2.2
    have hkrest : k ∉ rest.map Prod.fst := by
      have h2 := (List.nodup_append.mp hnd).2.1
      exact (List.nodup_cons.mp h2).1
    have hget : secGet (pre ++ [⟨sn, false, done⟩]) sn = some ⟨sn, false, done⟩ :=
      secGet_last hpre
    have hkfresh : optGet (⟨sn, false, done⟩ : Sec).opts k = none :=
      optGet_none_of_not_mem hkdone
    have hndrec : (done.map Prod.fst ++ [k]) ++ rest.map Prod.fst
        = done.map Prod.fst ++ k :: rest.map Prod.fst := by simp
    rw [List.flatMap_cons, runLines_append]
    by_cases hmem : (sn, k) ∈ multi
    · -- multi-valued option
      rw [if_pos hmem] at hkval
      cases v with
      | vnone => cases hkval
      | vstr t => cases hkval
      | vlist xs =>
        rw [Bool.and_eq_true, List.all_eq_true] at hkval
        have hlen := hkval.1
        have hcleanxs : ∀ x ∈ xs, cleanElem x = true := hkval.2
        have hnoNLxs : ∀ x ∈ xs, noNL x = true :=
          fun x hx => (cleanElem_parts (hcleanxs x hx)).1
        have hstripxs : ∀ x ∈ xs, pyStrip x = x :=
          fun x hx => (cleanElem_parts (hcleanxs x hx)).2
        cases xs with
        | nil => simp at hlen
        | cons x0 xs1 =>
          cases xs1 with
          | nil => simp at hlen
          | cons x1 xs2 =>
            rw [optLines_multi hmem hnoNLxs]
            rw [List.map_cons, runLines]
            rw [show stepLine
                  ⟨pre ++ [⟨sn, false, done⟩], m0, some sn, onm, 0, e0⟩
                  (k ++ '=' :: x0)
                = .ok ⟨secMod (pre ++ [⟨sn, false, done⟩]) sn (fun s =>
                      { s with opts := optSet s.opts k (.vlist [x0]) }),
                    m0, some sn, some k, 0, e0⟩ from
              step_opt_fresh rfl hkkey
                (hstripxs x0 (List.mem_cons_self _ _)) hget hkfresh]
            dsimp only
            rw [secMod_last hpre]
            dsimp only
            rw [optSet_append_fresh hkdone]
            rw [run_dups xs2 x1 _ _ _ _ _ _ hkkey
              (hstripxs x1 (List.mem_cons_of_mem _ (List.mem_cons_self _ _)))
              (fun y hy => hstripxs y
                (List.mem_cons_of_mem _ (List.mem_cons_of_mem _ hy)))
              (secGet_last hpre) (optGet_append_last hkdone)]
            dsimp only
            rw [secMod_last hpre]
            dsimp only
            rw [optSet_append_last hkdone]
            simp only [List.singleton_append]
            rw [multiAdd_of_not_mem (hm0 k (List.mem_cons_self _ _))]
            rw [ok_bind]
            rw [ih pre (done ++ [(k, Val.vlist (x0 :: x1 :: xs2))])
              (m0 ++ [(sn, k)]) (some k) e0
              (fun kv2 h2 => hwf kv2 (List.mem_cons_of_mem _ h2))
              (by rw [List.map_append]; simpa [hndrec] using hnd)
              hpre ?hm]
            case hm =>
              intro k2 h2
              simp only [List.mem_append, List.mem_singleton, not_or]
              refine ⟨hm0 k2 (List.mem_cons_of_mem _ h2), ?_⟩
              intro hc
              injection hc with h3 h4
              rw [h4] at h2
              exact hkrest h2
            rw [List.map_cons, List.filterMap_cons]
            rw [if_pos hmem]
            rw [show bufVal multi sn (k, Val.vlist (x0 :: x1 :: xs2))
                = x0 :: x1 :: xs2 from by rw [bufVal, if_pos hmem]]
            cases hrest : rest with
            | nil => simp
            | cons kv2 rest2 =>
              simp
              rfl
    · -- scalar option
      rw [if_neg hmem] at hkval
      cases v with
      | vnone => cases hkval
      | vlist xs => cases hkval
      | vstr t =>
        obtain ⟨hlstable, hlcomment, hrstable⟩ := cleanScalar_parts hkval
        cases hsp : splitNL t with
        | nil => exact absurd hsp (splitNL_ne_nil t)
        | cons l0 ls =>
          rw [optLines_scalar hmem hsp]
          rw [runLines]
          rw [show stepLine
                ⟨pre ++ [⟨sn, false, done⟩], m0, some sn, onm, 0, e0⟩
                (k ++ '=' :: l0)
              = .ok ⟨secMod (pre ++ [⟨sn, false, done⟩]) sn (fun s =>
                    { s with opts := optSet s.opts k (.vlist [l0]) }),
                  m0, some sn, some k, 0, e0⟩ from
            step_opt_fresh rfl hkkey
              (hlstable l0 (by rw [hsp]; exact List.mem_cons_self _ _)) hget hkfresh]
          dsimp only
          rw [secMod_last hpre]
          dsimp only
          rw [optSet_append_fresh hkdone]
          obtain ⟨o, ot, rfl⟩ : ∃ o ot, k = o :: ot := by
            cases k with
            | nil => exact absurd rfl hkne
            | cons o ot => exact ⟨o, ot, rfl⟩
          rw [run_tails ls _ _ _ _ _ ?hcl (secGet_last hpre)
            (optGet_append_last hkdone)]
          case hcl =>
            intro l hl
            have hmem2 : l ∈ (splitNL t).tail := by
              rw [hsp]
              exact hl
            refine ⟨hlstable l (by rw [hsp]; exact List.mem_cons_of_mem _ hl), ?_⟩
            exact hlcomment l hmem2
          rw [secMod_last hpre]
          dsimp only
          rw [optSet_append_last hkdone]
          simp only [List.singleton_append]
          rw [ok_bind]
          rw [ih pre (done ++ [((o :: ot), Val.vlist (l0 :: ls))]) m0 (some (o :: ot)) e0
            (fun kv2 h2 => hwf kv2 (List.mem_cons_of_mem _ h2))
            (by rw [List.map_append]; simpa [hndrec] using hnd)
            hpre
            (fun k2 h2 => hm0 k2 (List.mem_cons_of_mem _ h2))]
          rw [List.map_cons, List.filterMap_cons]
          rw [if_neg hmem]
          rw [show bufVal multi sn ((o :: ot), Val.vstr t) = l0 :: ls from by
            rw [bufVal, if_neg hmem]
            exact hsp]
          cases hrest : rest with
          | nil => simp
          | cons kv2 rest2 =>
            simp
            rfl

theorem padLast_append (l : List (Str × Val)) (kv : Str × Val) :
    padLast (l ++ [kv]) = l ++ [(kv.1, padVal kv.2)] := by
  induction l with
  | nil => rfl
  | cons a t ih =>
    cases t with
    | nil => rfl
    | cons b t2 =>
      rw [show padLast ((a :: b :: t2) ++ [kv])
          = a :: padLast ((b :: t2) ++ [kv]) from rfl, ih]
      rfl

theorem map_fst_map_pair {α β γ : Type} (g : α × β → γ) (l : List (α × β)) :
    (l.map (fun kv => (kv.1, g kv))).map Prod.fst = l.map Prod.fst := by
  induction l with
  | nil => rfl
  | cons a t ih => simp [ih]

/-- Running the serialized lines of one well-formed section from any state
whose section dictionary does not yet contain its name: the section is
appended as its parse-phase image, its marked pairs are appended to
`_multioptions`, and the cursor ends on the section with `optname` at its
last key. -/
theorem run_sec {multi : List (Str × Str)} {s : Sec}
    (hwf : wfSec multi s = true) :
    ∀ (secs0 : List Sec) (m0 : List (Str × Str)) (cur0 on0 : Option Str)
      (ind0 : Nat) (e0 : Bool),
    secGet secs0 s.name = none →
    (∀ k2 ∈ s.opts.map Prod.fst, (s.name, k2) ∉ m0) →
    runLines ⟨secs0, m0, cur0, on0, ind0, e0⟩ (secLines multi s)
      = .ok ⟨secs0 ++ [parsedSec multi s], m0 ++ secMarks multi s,
          some s.name, optnameEnd s, 0, e0⟩ := by
  obtain ⟨sn, sb, sopts⟩ := s
  intro secs0 m0 cur0 on0 ind0 e0 hfresh hm0
  rw [wfSec] at hwf
  dsimp only at hwf hfresh hm0 ⊢
  simp only [Bool.and_eq_true] at hwf
  obtain ⟨⟨⟨⟨hname, hint⟩, hnd⟩, hall⟩, hlast⟩ := hwf
  have hnd' : (sopts.map Prod.fst).Nodup := of_decide_eq_true hnd
  have hall' : ∀ kv ∈ sopts, wfOpt multi sn kv = true := List.all_eq_true.mp hall
  have hpre : sn ∉ secs0.map (·.name) := secGet_none_not_mem hfresh
  rw [secLines]
  dsimp only
  rw [List.cons_append]
  rw [runLines]
  rw [show stepLine ⟨secs0, m0, cur0, on0, ind0, e0⟩ ('[' :: sn ++ [']'])
      = .ok ⟨secs0 ++ [⟨sn, false, []⟩], m0, some sn, none, 0, e0⟩ from by
    rw [step_header hname hfresh]]
  dsimp only
  rw [runLines_append]
  rw [run_opts sopts secs0 [] m0 none e0 hall' (by simpa using hnd') hpre hm0]
  rw [ok_bind]
  rcases List.eq_nil_or_concat sopts with rfl | ⟨front, kvL, hconcat⟩
  · rw [runLines]
    rw [step_blank_none (show pyStrip [] = [] from rfl) rfl]
    dsimp only
    rw [runLines]
    simp [parsedSec, secMarks, optnameEnd, padLast]
  · rw [List.concat_eq_append] at hconcat
    subst hconcat
    have hwfL := hall' kvL (by simp)
    rw [List.getLast?_concat] at hlast
    have hunmark : (sn, kvL.1) ∉ multi := of_decide_eq_true hlast
    obtain ⟨kl, vl⟩ := kvL
    rw [wfOpt, Bool.and_eq_true] at hwfL
    have hkkey := hwfL.1
    have hkval := hwfL.2
    rw [if_neg hunmark] at hkval
    cases vl with
    | vnone => cases hkval
    | vlist xs => cases hkval
    | vstr t =>
      have hbufL : bufVal multi sn (kl, .vstr t) = splitNL t := by
        rw [bufVal, if_neg hunmark]
      have hkeys : ((front ++ [(kl, Val.vstr t)]).map
          (fun kv => (kv.1, Val.vlist (bufVal multi sn kv)))).map Prod.fst
          = front.map Prod.fst ++ [kl] := by
        rw [map_fst_map_pair]
        simp
      have hkf : kl ∉ front.map Prod.fst := by
        have h2 : (front.map Prod.fst ++ [kl]).Nodup := by
          simpa using hnd'
        intro hc
        exact (List.nodup_append.mp h2).2.2 hc (List.mem_singleton.mpr rfl)
      have hkfm : kl ∉ (front.map
          (fun kv => (kv.1, Val.vlist (bufVal multi sn kv)))).map Prod.fst := by
        rw [map_fst_map_pair]
        exact hkf
      rw [show ([] : List (Str × Val)) ++ (front ++ [(kl, Val.vstr t)]).map
            (fun kv => (kv.1, Val.vlist (bufVal multi sn kv)))
          = front.map (fun kv => (kv.1, Val.vlist (bufVal multi sn kv)))
            ++ [(kl, Val.vlist (splitNL t))] from by
        rw [List.nil_append, List.map_append, List.map_cons, List.map_nil]
        dsimp only
        rw [hbufL]]
      rw [show (match (front ++ [(kl, Val.vstr t)]).getLast? with
            | some kv => some kv.1
            | none => (none : Option Str))
          = some kl from by rw [List.getLast?_concat]]
      obtain ⟨o, ot, rfl⟩ : ∃ o ot, kl = o :: ot := by
        cases kl with
        | nil => exact absurd rfl (cleanKey_parts hkkey).1
        | cons o ot => exact ⟨o, ot, rfl⟩
      rw [runLines]
      rw [step_blank_append (show pyStrip [] = [] from rfl) rfl rfl
        (secGet_last hpre) (optGet_append_last hkfm)]
      dsimp only
      rw [secMod_last hpre]
      dsimp only
      rw [optSet_append_last hkfm]
      rw [runLines]
      rw [show parsedSec multi ⟨sn, sb, front ++ [((o :: ot), Val.vstr t)]⟩
          = ⟨sn, false, front.map
              (fun kv => (kv.1, Val.vlist (bufVal multi sn kv)))
            ++ [((o :: ot), Val.vlist (splitNL t ++ [[]]))]⟩ from by
        rw [parsedSec]
        dsimp only
        rw [List.map_append, List.map_cons, List.map_nil, padLast_append]
        dsimp only
        rw [hbufL]
        rfl]
      rw [show secMarks multi ⟨sn, sb, front ++ [((o :: ot), Val.vstr t)]⟩
          = (front ++ [((o :: ot), Val.vstr t)]).filterMap
              (fun kv => if (sn, kv.1) ∈ multi then some (sn, kv.1) else none)
            from rfl]
      rw [show optnameEnd ⟨sn, sb, front ++ [((o :: ot), Val.vstr t)]⟩
          = some (o :: ot) from by
        rw [optnameEnd]
        dsimp only
        rw [List.getLast?_concat]]

theorem secMarks_fst {multi : List (Str × Str)} {s : Sec} {p : Str × Str}
    (h : p ∈ secMarks multi s) : p.1 = s.name := by
  rw [secMarks] at h
  obtain ⟨kv, hkv, hif⟩ := List.mem_filterMap.mp h
  split at hif
  · cases hif
    rfl
  · cases hif

/-- Running the serialized lines of a list of well-formed, freshly named
sections appends their parse-phase images and their marks in order. -/
theorem run_doc {multi : List (Str × Str)} (ss : List Sec) :
    ∀ (secs0 : List Sec) (m0 : List (Str × Str)) (cur0 on0 : Option Str)
      (ind0 : Nat) (e0 : Bool),
    (∀ s ∈ ss, wfSec multi s = true) →
    (secs0.map (·.name) ++ ss.map (·.name)).Nodup →
    (∀ p ∈ m0, p.1 ∈ secs0.map (·.name)) →
    ∃ cur1 on1 ind1,
    runLines ⟨secs0, m0, cur0, on0, ind0, e0⟩ (ss.flatMap (secLines multi))
      = .ok ⟨secs0 ++ ss.map (parsedSec multi),
          m0 ++ ss.flatMap (secMarks multi), cur1, on1, ind1, e0⟩ := by
  induction ss with
  | nil =>
    intro secs0 m0 cur0 on0 ind0 e0 hwf hnd hm0
    refine ⟨cur0, on0, ind0, ?_⟩
    rw [List.flatMap_nil, runLines]
    simp
  | cons s rest ih =>
    intro secs0 m0 cur0 on0 ind0 e0 hwf hnd hm0
    have hfresh' : s.name ∉ secs0.map (·.name) := by
      have hdisj := (List.nodup_append.mp hnd).2.2
      exact fun hc => hdisj hc (by simp)
    have hsfresh : secGet secs0 s.name = none :=
      secGet_eq_none_of_not_mem hfresh'
    have hm0s : ∀ k2 ∈ s.opts.map Prod.fst, (s.name, k2) ∉ m0 := by
      intro k2 h2 hc
      exact hfresh' (by simpa using hm0 _ hc)
    have hnd2 : ((secs0 ++ [parsedSec multi s]).map (·.name)
        ++ rest.map (·.name)).Nodup := by
      simpa [parsedSec] using hnd
    have hm2 : ∀ p ∈ m0 ++ secMarks multi s,
        p.1 ∈ (secs0 ++ [parsedSec multi s]).map (·.name) := by
      intro p hp
      rw [List.map_append]
      rcases List.mem_append.mp hp with h | h
      · exact List.mem_append_left _ (hm0 p h)
      · refine List.mem_append_right _ ?_
        rw [secMarks_fst h]
        simp [parsedSec]
    obtain ⟨cur1, on1, ind1, hrun⟩ := ih (secs0 ++ [parsedSec multi s])
      (m0 ++ secMarks multi s) (some s.name) (optnameEnd s) 0 e0
      (fun t ht => hwf t (List.mem_cons_of_mem _ ht)) hnd2 hm2
    refine ⟨cur1, on1, ind1, ?_⟩
    rw [List.flatMap_cons, runLines_append]
    rw [run_sec (hwf s (List.mem_cons_self _ _)) secs0 m0 cur0 on0 ind0 e0
      hsfresh hm0s]
    rw [ok_bind, hrun]
    simp

theorem joinNL_append_nil (xs : List Str) (h : xs ≠ []) :
    joinNL (xs ++ [[]]) = joinNL xs ++ ['\n'] := by
  induction xs with
  | nil => exact absurd rfl h
  | cons x rest ih =>
    cases rest with
    | nil => rfl
    | cons y rest2 =>
      rw [show joinNL ((x :: y :: rest2) ++ [[]])
          = x ++ '\n' :: joinNL ((y :: rest2) ++ [[]]) from rfl]
      rw [ih (by simp)]
      rw [show joinNL (x :: y :: rest2) = x ++ '\n' :: joinNL (y :: rest2)
          from rfl]
      simp

theorem joinVal_scalar {t : Str} (h : rstrip t = t) :
    joinVal false (.vlist (splitNL t)) = .vstr t := by
  rw [show joinVal false (.vlist (splitNL t))
      = .vstr (rstrip (joinNL (splitNL t))) from rfl]
  rw [joinNL_splitNL, h]

theorem joinVal_scalar_pad {t : Str} (h : rstrip t = t) :
    joinVal false (.vlist (splitNL t ++ [[]])) = .vstr t := by
  rw [show joinVal false (.vlist (splitNL t ++ [[]]))
      = .vstr (rstrip (joinNL (splitNL t ++ [[]]))) from rfl]
  rw [joinNL_append_nil _ (splitNL_ne_nil t), rstrip_append_newline,
    joinNL_splitNL, h]

theorem canonMulti_sub {d : Doc} {p : Str × Str} (h : p ∈ canonMulti d) :
    p ∈ d.multi := by
  rw [canonMulti] at h
  obtain ⟨s, hs, hp⟩ := List.mem_flatMap.mp h
  obtain ⟨kv, hkv, hif⟩ := List.mem_filterMap.mp hp
  split at hif
  · cases hif
    assumption
  · cases hif

theorem mem_canonMulti {d : Doc} {s : Sec} {kv : Str × Val}
    (hs : s ∈ d.secs) (hkv : kv ∈ s.opts) (hm : (s.name, kv.1) ∈ d.multi) :
    (s.name, kv.1) ∈ canonMulti d := by
  rw [canonMulti]
  refine List.mem_flatMap.mpr ⟨s, hs, ?_⟩
  refine List.mem_filterMap.mpr ⟨kv, hkv, ?_⟩
  rw [if_pos hm]

theorem secGet_mem {secs : List Sec} {n : Str} {s : Sec}
    (h : secGet secs n = some s) : s ∈ secs ∧ s.name = n := by
  induction secs with
  | nil => cases h
  | cons a rest ih =>
    rw [secGet] at h
    by_cases ha : a.name = n
    · rw [if_pos ha] at h
      cases h
      exact ⟨List.mem_cons_self _ _, ha⟩
    · rw [if_neg ha] at h
      exact ⟨List.mem_cons_of_mem _ (ih h).1, (ih h).2⟩

theorem optGet_mem {opts : List (Str × Val)} {k : Str} {v : Val}
    (h : optGet opts k = some v) : (k, v) ∈ opts := by
  induction opts with
  | nil => cases h
  | cons a rest ih =>
    rw [optGet] at h
    by_cases ha : a.1 = k
    · rw [if_pos ha] at h
      cases h
      rw [← ha]
      exact List.mem_cons_self _ _
    · rw [if_neg ha] at h
      exact List.mem_cons_of_mem _ (ih h)

theorem canonMulti_complete {d : Doc} (hwf : wfDoc d = true) {p : Str × Str}
    (h : p ∈ d.multi) : p ∈ canonMulti d := by
  rw [wfDoc, Bool.and_eq_true, Bool.and_eq_true] at hwf
  have hpres := List.all_eq_true.mp hwf.2 p h
  cases hg : secGet d.secs p.1 with
  | none =>
    rw [hg] at hpres
    cases hpres
  | some s =>
    rw [hg] at hpres
    dsimp only at hpres
    obtain ⟨v, hv⟩ := Option.isSome_iff_exists.mp hpres
    obtain ⟨hmem, hname⟩ := secGet_mem hg
    have h2 := mem_canonMulti hmem (optGet_mem hv) (by rw [hname]; exact h)
    rw [hname] at h2
    exact h2

/-- The join pass inverts the parse-phase buffers of a well-formed
document: every unmarked buffer is rejoined and right-stripped back to
its scalar (the final padded one losing exactly the serializer's trailing
blank line), and every marked buffer keeps its list. -/
theorem joinSecs_parsed {d : Doc} (hwf : wfDoc d = true) :
    joinSecs (canonMulti d) (d.secs.map (parsedSec d.multi)) = d.secs := by
  have hwf' := hwf
  rw [wfDoc, Bool.and_eq_true, Bool.and_eq_true] at hwf'
  have hall : ∀ s ∈ d.secs, wfSec d.multi s = true :=
    List.all_eq_true.mp hwf'.1.2
  rw [joinSecs, List.map_map]
  have hone : ∀ s ∈ d.secs,
      ((fun s2 => ({ s2 with opts := s2.opts.map (fun kv =>
          (kv.1, joinVal (decide ((s2.name, kv.1) ∈ canonMulti d)) kv.2)) }
        : Sec)) ∘ parsedSec d.multi) s = id s := by
    intro s hs
    have hwfs := hall s hs
    rw [wfSec, Bool.and_eq_true, Bool.and_eq_true, Bool.and_eq_true,
      Bool.and_eq_true] at hwfs
    obtain ⟨⟨⟨⟨hname, hint⟩, hnd⟩, hallopt⟩, hlast⟩ := hwfs
    have hiff : ∀ kv ∈ s.opts,
        ((s.name, kv.1) ∈ canonMulti d ↔ (s.name, kv.1) ∈ d.multi) :=
      fun kv hkv => ⟨canonMulti_sub, mem_canonMulti hs hkv⟩
    have hwfo : ∀ kv ∈ s.opts, wfOpt d.multi s.name kv = true :=
      List.all_eq_true.mp hallopt
    have hjoin : ∀ kv ∈ s.opts, (sk : Str × Val) →
        sk = (kv.1, Val.vlist (bufVal d.multi s.name kv)) →
        (sk.1, joinVal (decide ((s.name, sk.1) ∈ canonMulti d)) sk.2) = kv := by
      intro kv hkv sk hsk
      subst hsk
      dsimp only
      have hwf1 := hwfo kv hkv
      rw [wfOpt, Bool.and_eq_true] at hwf1
      have hkval := hwf1.2
      by_cases hm : (s.name, kv.1) ∈ d.multi
      · rw [decide_eq_true ((hiff kv hkv).mpr hm)]
        rw [if_pos hm] at hkval
        obtain ⟨k, v⟩ := kv
        cases v with
        | vnone => cases hkval
        | vstr t => cases hkval
        | vlist xs =>
          rw [show bufVal d.multi s.name (k, Val.vlist xs) = xs from by
            rw [bufVal, if_pos hm]]
          rfl
      · rw [decide_eq_false (fun hc => hm ((hiff kv hkv).mp hc))]
        rw [if_neg hm] at hkval
        obtain ⟨k, v⟩ := kv
        cases v with
        | vnone => cases hkval
        | vlist xs => cases hkval
        | vstr t =>
          rw [show bufVal d.multi s.name (k, Val.vstr t) = splitNL t from by
            rw [bufVal, if_neg hm]]
          rw [joinVal_scalar (cleanScalar_parts hkval).2.2]
    rcases List.eq_nil_or_concat s.opts with hopts | ⟨front, kvL, hopts⟩
    · show ({ parsedSec d.multi s with opts := _ } : Sec) = s
      rw [parsedSec]
      dsimp only
      rw [hopts]
      dsimp only [padLast, List.map_nil]
      obtain ⟨sn2, sb2, so2⟩ := s
      dsimp only at hopts hint ⊢
      subst hopts
      rw [show sb2 = false from by
        cases sb2
        · rfl
        · cases hint]
    · rw [List.concat_eq_append] at hopts
      show ({ parsedSec d.multi s with opts := _ } : Sec) = s
      rw [parsedSec]
      dsimp only
      rw [hopts, List.map_append, List.map_cons, List.map_nil, padLast_append]
      dsimp only
      rw [hopts, List.getLast?_concat] at hlast
      have hunmark : (s.name, kvL.1) ∉ d.multi := of_decide_eq_true hlast
      have hwfL := hwfo kvL (by rw [hopts]; simp)
      rw [wfOpt, Bool.and_eq_true] at hwfL
      have hkval := hwfL.2
      rw [if_neg hunmark] at hkval
      have hcmL : (s.name, kvL.1) ∉ canonMulti d :=
        fun hc => hunmark (canonMulti_sub hc)
      rw [List.map_append, List.map_cons, List.map_nil]
      have hfront : (front.map (fun kv =>
            ((kv.1 : Str), Val.vlist (bufVal d.multi s.name kv)))).map
          (fun kv => (kv.1, joinVal (decide ((s.name, kv.1) ∈ canonMulti d))
            kv.2))
          = front := by
        rw [List.map_map]
        have hcg : ∀ kv ∈ front, ((fun kv => ((kv.1 : Str),
            joinVal (decide ((s.name, kv.1) ∈ canonMulti d)) kv.2)) ∘
            (fun kv => (kv.1, Val.vlist (bufVal d.multi s.name kv)))) kv
            = id kv := by
          intro kv hkv
          exact hjoin kv (by rw [hopts]; exact List.mem_append_left _ hkv) _ rfl
        rw [List.map_congr_left hcg, List.map_id]
      rw [hfront]
      obtain ⟨klq, vlq⟩ := kvL
      cases vlq with
      | vnone => cases hkval
      | vlist xs => cases hkval
      | vstr t =>
        rw [show bufVal d.multi s.name (klq, Val.vstr t) = splitNL t from by
          rw [bufVal, if_neg hunmark]]
        dsimp only
        rw [show padVal (Val.vlist (splitNL t)) = Val.vlist (splitNL t ++ [[]])
            from rfl]
        rw [decide_eq_false hcmL]
        rw [joinVal_scalar_pad (cleanScalar_parts hkval).2.2]
        obtain ⟨sn2, sb2, so2⟩ := s
        dsimp only at hopts hint ⊢
        subst hopts
        rw [show sb2 = false from by
          cases sb2
          · rfl
          · cases hint]
  rw [List.map_congr_left hone, List.map_id]

/-- Claim C1 (corrected): the round trip is the identity on the
well-formed documents — external sections with distinct clean names,
distinct clean keys, strip-stable scalar values, marked multi-value lists
of at least two clean elements, a scalar last option, and a marking that
names only present options — and on those it also rebuilds
`_multioptions` as the equivalent set `canonMulti d` of marked pairs in
document order.  (Unrestricted, the claim is false: see the trailing
whitespace counterexample `roundTrip_cex` and the multi-valued trailing
blank in `multiValue_roundTrip_bug`.) -/
theorem round_trip_wf {d : Doc} (hwf : wfDoc d = true) :
    roundTrip d = .ok ⟨d.secs, canonMulti d⟩ ∧
    docEquiv (⟨d.secs, canonMulti d⟩ : Doc) d := by
  constructor
  · rw [roundTrip_eq_parse hwf]
    rw [parseConfig, readInto]
    have hwf' := hwf
    rw [wfDoc, Bool.and_eq_true, Bool.and_eq_true] at hwf'
    have hall : ∀ s ∈ d.secs, wfSec d.multi s = true :=
      List.all_eq_true.mp hwf'.1.2
    have hnd : (d.secs.map (·.name)).Nodup := of_decide_eq_true hwf'.1.1
    obtain ⟨cur1, on1, ind1, hrun⟩ := run_doc d.secs [] [] none none 0 false
      hall (by simpa using hnd) (by simp)
    rw [docLines]
    dsimp only
    rw [hrun, ok_bind]
    dsimp only
    rw [ite_false_bool]
    simp only [List.nil_append]
    rw [show d.secs.flatMap (secMarks d.multi) = canonMulti d from rfl]
    rw [joinSecs_parsed hwf]
  · exact ⟨rfl, fun p hp => canonMulti_sub hp,
      fun p hp => canonMulti_complete hwf hp⟩

/-- Witness: a document with one marked two-element list and a scalar is
well formed, and the round trip reproduces it exactly. -/
theorem round_trip_wf_witness :
    wfDoc ⟨[⟨['S'], false,
        [(['m'], .vlist [['x'], ['y']]), (['k'], .vstr ['a'])]⟩],
      [(['S'], ['m'])]⟩ = true ∧
    (roundTrip ⟨[⟨['S'], false,
          [(['m'], .vlist [['x'], ['y']]), (['k'], .vstr ['a'])]⟩],
        [(['S'], ['m'])]⟩
        = .ok ⟨[⟨['S'], false,
            [(['m'], .vlist [['x'], ['y']]), (['k'], .vstr ['a'])]⟩],
          canonMulti ⟨[⟨['S'], false,
              [(['m'], .vlist [['x'], ['y']]), (['k'], .vstr ['a'])]⟩],
            [(['S'], ['m'])]⟩⟩ ∧
      docEquiv ⟨[⟨['S'], false,
            [(['m'], .vlist [['x'], ['y']]), (['k'], .vstr ['a'])]⟩],
          canonMulti ⟨[⟨['S'], false,
              [(['m'], .vlist [['x'], ['y']]), (['k'], .vstr ['a'])]⟩],
            [(['S'], ['m'])]⟩⟩
        ⟨[⟨['S'], false,
            [(['m'], .vlist [['x'], ['y']]), (['k'], .vstr ['a'])]⟩],
          [(['S'], ['m'])]⟩) :=
  ⟨by decide, round_trip_wf (by decide)⟩


end Sysunit
